import Mathlib

/-!
# Verification of the learncpp translation pipeline

This file gives a shallow embedding, in Lean 4, of the core of the two
translation drivers `translate_learncpp_pl.py` and
`translate_code_comments_pl.py`, and proves (or refutes) the testable
properties stated in the specification of the repository.

Strings are modelled as `List Char` (`Str`). Python standard-library
behaviour used by the drivers is modelled explicitly:

* `re`-module patterns are translated into character-level scanners with the
  exact semantics of the source patterns (anchors, greediness, case folding
  on the ASCII range where the patterns are ASCII);
* `str.strip` and the `\s` class are modelled by `pyWS`, which covers the
  ASCII whitespace characters together with the Unicode whitespace
  code points that Python's `\s` accepts;
* `ch.isalpha()` is modelled by `pyAlpha`, covering the ASCII letters and
  the Latin-1/Latin-Extended-A letters, which is the repertoire the corpus
  and the source regexes (`[A-Za-zÀ-ž]`) operate on;
* `html.escape` is modelled exactly; `html.unescape` is modelled on the
  entity set produced by `html.escape` (`&amp; &lt; &gt; &quot; &#x27;`),
  leaving other text unchanged;
* the (deterministic) translation backend is an explicit function argument,
  and the retry loops of the source collapse under a deterministic backend,
  which is how they are modelled.
-/

set_option maxRecDepth 20000

namespace TransPl

/-- Strings as lists of characters. -/
abbrev Str := List Char

/-! ## Character classes -/

/-- Double-quote character. -/
def qD : Char := Char.ofNat 34

/-- Single-quote character. -/
def qS : Char := Char.ofNat 39

/-- Opening curly brace character. -/
def brO : Char := Char.ofNat 123

/-- Closing curly brace character. -/
def brC : Char := Char.ofNat 125

/-- Backslash character. -/
def bsl : Char := Char.ofNat 92

/-- Python's `\s` class (and `str.strip`): ASCII whitespace plus the Unicode
whitespace code points recognised by Python's `re` on `str`. -/
def pyWS (c : Char) : Bool :=
  c = ' ' || c = Char.ofNat 9 || c = Char.ofNat 10 || c = Char.ofNat 13 ||
  c = Char.ofNat 11 || c = Char.ofNat 12 ||
  c = Char.ofNat 0x1c || c = Char.ofNat 0x1d || c = Char.ofNat 0x1e ||
  c = Char.ofNat 0x1f || c = Char.ofNat 0x85 || c = Char.ofNat 0xa0 ||
  c = Char.ofNat 0x1680 ||
  (0x2000 ≤ c.toNat && c.toNat ≤ 0x200a) ||
  c = Char.ofNat 0x2028 || c = Char.ofNat 0x2029 || c = Char.ofNat 0x202f ||
  c = Char.ofNat 0x205f || c = Char.ofNat 0x3000

def isAsciiUpper (c : Char) : Bool := 'A' ≤ c && c ≤ 'Z'

def isAsciiLower (c : Char) : Bool := 'a' ≤ c && c ≤ 'z'

def isAsciiLetterB (c : Char) : Bool := isAsciiUpper c || isAsciiLower c

def isAsciiDigitB (c : Char) : Bool := '0' ≤ c && c ≤ '9'

/-- ASCII-range lowercasing, as performed by `str.lower`/`re.IGNORECASE` on
the ASCII patterns appearing in the source. -/
def toLowerA (c : Char) : Char :=
  if isAsciiUpper c then Char.ofNat (c.toNat + 32) else c

/-- The character class `[A-Za-zÀ-ž]` of `HAS_LETTER_RE` (the raw code-point
range `U+00C0`–`U+017E`). -/
def hasLetterChar (c : Char) : Bool :=
  isAsciiLetterB c || (0xc0 ≤ c.toNat && c.toNat ≤ 0x17e)

/-- Model of Python's `ch.isalpha()` on the Latin repertoire handled by the
drivers: ASCII letters plus the Latin-1 Supplement and Latin Extended-A
letters (the `U+00C0`–`U+017E` block without `×` and `÷`). -/
def pyAlpha (c : Char) : Bool :=
  isAsciiLetterB c ||
  (0xc0 ≤ c.toNat && c.toNat ≤ 0x17e && c.toNat ≠ 0xd7 && c.toNat ≠ 0xf7)

/-- Python's `\w` (word character) on the same repertoire: letters, ASCII
digits and underscore. -/
def pyWord (c : Char) : Bool :=
  pyAlpha c || isAsciiDigitB c || c = '_'

/-! ## Generic string helpers -/

/-- `str.lstrip` / the match of `^\s*`. -/
def lstripWS (s : Str) : Str := s.dropWhile pyWS

/-- The maximal whitespace suffix of a string (the match of `\s*$` under
`re.search`). -/
def trailWS (s : Str) : Str := (s.reverse.takeWhile pyWS).reverse

/-- `str.strip()`. -/
def pyStrip (s : Str) : Str := (lstripWS s).reverse.dropWhile pyWS |>.reverse

/-- Does `pat` occur as a prefix of `s`? -/
def hasPfx : Str → Str → Bool
  | [], _ => true
  | _ :: _, [] => false
  | p :: ps, c :: cs => p = c && hasPfx ps cs

/-- Does `pat` occur as a substring of `s`? -/
def containsSub (pat : Str) : Str → Bool
  | [] => pat.isEmpty
  | c :: cs => hasPfx pat (c :: cs) || containsSub pat cs

/-- Case-insensitive (ASCII) prefix test against a lowercase pattern. -/
def hasPfxCI (pat s : Str) : Bool := hasPfx pat (s.map toLowerA)

/-- Case-insensitive (ASCII) substring test against a lowercase pattern. -/
def containsSubCI (pat s : Str) : Bool := containsSub pat (s.map toLowerA)

/-! ## `split_ws` (shared by both drivers)

```python
def split_ws(text):
    lead = LEAD_WS_RE.match(text).group(0)
    trail = TRAIL_WS_RE.search(text).group(0)
    core = text[len(lead) : len(text) - len(trail) if len(trail) else len(text)]
    return lead, core, trail
```
-/

def split_ws (text : Str) : Str × Str × Str :=
  let lead := text.takeWhile pyWS
  let trail := trailWS text
  let upper := if trail.length ≠ 0 then text.length - trail.length else text.length
  (lead, (text.take upper).drop lead.length, trail)

/-- The trimmed core of a fragment, as used by both drivers. -/
def coreOf (text : Str) : Str := (split_ws text).2.1

/-! ## Classifier of `translate_learncpp_pl.py`

```python
URL_RE = re.compile(r"^(https?:|mailto:|tel:|www\.)", re.IGNORECASE)

def should_translate(text):
    t = text.strip()
    if not t: return False
    if URL_RE.search(t): return False
    if t.startswith("{{") and t.endswith("}}"): return False
    if not HAS_LETTER_RE.search(t): return False
    return True
```
-/

/-- `URL_RE.search` of the page driver: the pattern is anchored with `^`, so
`search` succeeds exactly on a case-insensitive prefix match of
`http:`, `https:`, `mailto:`, `tel:` or `www.`. -/
def urlSearchPage (t : Str) : Bool :=
  hasPfxCI ['h', 't', 't', 'p', ':'] t ||
  hasPfxCI ['h', 't', 't', 'p', 's', ':'] t ||
  hasPfxCI ['m', 'a', 'i', 'l', 't', 'o', ':'] t ||
  hasPfxCI ['t', 'e', 'l', ':'] t ||
  hasPfxCI ['w', 'w', 'w', '.'] t

def should_translate (text : Str) : Bool :=
  let t := pyStrip text
  if t.isEmpty then false
  else if urlSearchPage t then false
  else if hasPfx [brO, brO] t && hasPfx [brC, brC] t.reverse then false
  else if !(t.any hasLetterChar) then false
  else true

/-! ## Classifier of `translate_code_comments_pl.py` -/

/-- The characters of `PL_CHARS_RE` (Polish-specific letters). -/
def plChars : Str :=
  [Char.ofNat 0x105, Char.ofNat 0x107, Char.ofNat 0x119, Char.ofNat 0x142,
   Char.ofNat 0x144, Char.ofNat 0xf3, Char.ofNat 0x15b, Char.ofNat 0x17a,
   Char.ofNat 0x17c, Char.ofNat 0x104, Char.ofNat 0x106, Char.ofNat 0x118,
   Char.ofNat 0x141, Char.ofNat 0x143, Char.ofNat 0xd3, Char.ofNat 0x15a,
   Char.ofNat 0x179, Char.ofNat 0x17b]

/-- `PL_CHARS_RE.search`. -/
def hasPl (t : Str) : Bool := t.any (fun c => plChars.contains c)

/-- `URL_RE.search` of the comment driver: `(https?://|www\.)` anywhere,
case-insensitively. -/
def urlSearchComment (t : Str) : Bool :=
  containsSubCI "http://".data t || containsSubCI "https://".data t ||
  containsSubCI "www.".data t

/-- `WORD_RE.findall` (`[A-Za-z]{2,}`): the maximal ASCII-letter runs of
length at least two, in order. `cur` is the current run, reversed. -/
def wordsGo : Str → Str → List Str
  | [], cur => if cur.length ≥ 2 then [cur.reverse] else []
  | c :: rest, cur =>
    if isAsciiLetterB c then wordsGo rest (c :: cur)
    else (if cur.length ≥ 2 then [cur.reverse] else []) ++ wordsGo rest []

def wordsOf (s : Str) : List Str := wordsGo s []

/-- The `EN_HINT_WORDS` set. -/
def EN_HINT_WORDS : List Str :=
  (["a", "an", "and", "are", "as", "be", "because", "before", "both", "but",
    "call", "called", "can", "class", "copy", "create", "created", "creating",
    "destroyed", "directly", "does", "each", "else", "example", "for", "from",
    "function", "get", "here", "if", "in", "is", "it", "later", "legal",
    "line", "loop", "make", "name", "new", "not", "now", "object", "objects",
    "only", "or", "over", "pointer", "prevent", "print", "reference",
    "references", "set", "step", "still", "string", "that", "the", "these",
    "this", "those", "through", "to", "true", "use", "used", "using", "value",
    "values", "we", "when", "where", "which", "while", "with", "you",
    "your"].map String.data)

/-- Model of the source function:
```python
def english_score(text):
    words = WORD_RE.findall(text)
    if not words: return 0, 0
    lower_words = [w.lower() for w in words]
    hits = sum(1 for w in lower_words if w in EN_HINT_WORDS)
    return hits, len(words)
```
-/
def english_score (text : Str) : Nat × Nat :=
  let words := wordsOf text
  if words.isEmpty then (0, 0)
  else (words.countP (fun w => EN_HINT_WORDS.contains (w.map toLowerA)),
        words.length)

/-- The number of characters of `t` satisfying `ch.isalpha()`. -/
def countAlpha (t : Str) : Nat := t.countP (fun c => pyAlpha c)

/-- The float comparison `letters / max(len(t), 1) > ratio/100` of the
source, modelled as the exact rational comparison. -/
def densityGT (letters len ratio : Nat) : Bool :=
  100 * letters > ratio * max len 1

/-- The `\b[A-Za-z_][A-Za-z0-9_]*\s*\(` search of `is_mostly_code_like`.
`prev` is the character before the current position (`none` at the start of
the string). -/
def callPatFrom (prev : Option Char) : Str → Bool
  | [] => false
  | c :: rest =>
    (decide ((isAsciiLetterB c || c = '_') = true) &&
      (match prev with
       | none => true
       | some p => !pyWord p) &&
      (match (rest.dropWhile (fun d => isAsciiLetterB d || isAsciiDigitB d ||
                d = '_')).dropWhile pyWS with
       | '(' :: _ => true
       | _ => false)) ||
    callPatFrom (some c) rest

/-- Model of the source function:
```python
def is_mostly_code_like(text):
    if "::" in text: return True
    if "<" in text or ">" in text or "{" in text or "}" in text: return True
    if ";" in text or "->" in text: return True
    if re.search(r"\b[A-Za-z_][A-Za-z0-9_]*\s*\(", text): return True
    return False
```
-/
def is_mostly_code_like (text : Str) : Bool :=
  if containsSub "::".data text then true
  else if text.contains '<' || text.contains '>' || text.contains brO ||
          text.contains brC then true
  else if text.contains ';' || containsSub "->".data text then true
  else if callPatFrom none text then true
  else false

/-- Model of the source function:
```python
def looks_english(text):
    t = text.strip()
    if not t or PL_CHARS_RE.search(t): return False
    hits, total = english_score(t)
    if hits >= 2: return True
    if total >= 6 and hits >= 1: return True
    letters = sum(ch.isalpha() for ch in t)
    return total >= 8 and hits >= 1 and (letters / max(len(t), 1)) > 0.55
```
-/
def looks_english (text : Str) : Bool :=
  let t := pyStrip text
  if t.isEmpty || hasPl t then false
  else
    let sc := english_score t
    if sc.1 ≥ 2 then true
    else if sc.2 ≥ 6 && sc.1 ≥ 1 then true
    else sc.2 ≥ 8 && sc.1 ≥ 1 && densityGT (countAlpha t) t.length 55

/-- Model of the source function:
```python
def should_translate_comment(core):
    t = core.strip()
    if not t: return False
    if len(t) < 3 or len(t) > 500: return False
    if URL_RE.search(t): return False
    if PL_CHARS_RE.search(t): return False
    words = WORD_RE.findall(t)
    if not words: return False
    english_hits, _ = english_score(t)
    letters = sum(ch.isalpha() for ch in t)
    letter_ratio = letters / max(len(t), 1)
    if is_mostly_code_like(t) and english_hits == 0 and len(words) <= 8:
        return False
    if english_hits >= 1: return True
    if not is_mostly_code_like(t) and len(words) >= 3 and letter_ratio > 0.65:
        return True
    if len(words) >= 5 and letter_ratio > 0.55: return True
    return False
```
-/
def should_translate_comment (core : Str) : Bool :=
  let t := pyStrip core
  if t.isEmpty then false
  else if t.length < 3 || t.length > 500 then false
  else if urlSearchComment t then false
  else if hasPl t then false
  else if (wordsOf t).isEmpty then false
  else if is_mostly_code_like t && (english_score t).1 = 0 &&
          (wordsOf t).length ≤ 8 then false
  else if (english_score t).1 ≥ 1 then true
  else if !is_mostly_code_like t && (wordsOf t).length ≥ 3 &&
          densityGT (countAlpha t) t.length 65 then true
  else if (wordsOf t).length ≥ 5 && densityGT (countAlpha t) t.length 55 then
    true
  else false

/-- One alternative of `MOJIBAKE_RE` matching at the current position.
The pattern is `(Ã.|Â.|â€™|â€œ|â€|â€“|â€”|â„¢)` whose characters are the
code points listed below; `.` matches any character except a newline. -/
def mojibakeAt : Str → Bool
  | c1 :: c2 :: rest =>
    (c1 = Char.ofNat 0xc3 && c2 ≠ Char.ofNat 10) ||
    (c1 = Char.ofNat 0xc2 && c2 ≠ Char.ofNat 10) ||
    (c1 = Char.ofNat 0xe2 && c2 = Char.ofNat 0x20ac &&
      (match rest with
       | c3 :: _ => c3 = Char.ofNat 0x2122 || c3 = Char.ofNat 0x153 ||
                    c3 = Char.ofNat 0x201c || c3 = Char.ofNat 0x201d
       | [] => false)) ||
    (c1 = Char.ofNat 0xe2 && c2 = Char.ofNat 0x20ac) ||
    (c1 = Char.ofNat 0xe2 && c2 = Char.ofNat 0x201e &&
      (match rest with
       | c3 :: _ => c3 = Char.ofNat 0xa2
       | [] => false))
  | _ => false

/-- `MOJIBAKE_RE.search`. -/
def mojibakeSearch : Str → Bool
  | [] => false
  | c :: cs => mojibakeAt (c :: cs) || mojibakeSearch cs

/-- Model of the source function:
```python
def is_bad_translation(source, translated):
    src = source.strip()
    tr = translated.strip()
    if not tr: return True
    if MOJIBAKE_RE.search(tr): return True
    if src == tr and should_translate_comment(src): return True
    if looks_english(src) and looks_english(tr): return True
    return False
```
-/
def is_bad_translation (source translated : Str) : Bool :=
  let src := pyStrip source
  let tr := pyStrip translated
  if tr.isEmpty then true
  else if mojibakeSearch tr then true
  else if src = tr && should_translate_comment src then true
  else if looks_english src && looks_english tr then true
  else false

/-! ## Whitespace toolbox -/

theorem dropWhile_head_not {α} (p : α → Bool) :
    ∀ (l : List α) {c}, (l.dropWhile p).head? = some c → p c = false
  | [], c, h => by simp [List.dropWhile] at h
  | a :: l, c, h => by
    by_cases hp : p a
    · rw [List.dropWhile_cons_of_pos hp] at h
      exact dropWhile_head_not p l h
    · rw [List.dropWhile_cons_of_neg hp] at h
      simp only [List.head?_cons, Option.some.injEq] at h
      simpa [← h] using hp

theorem dropWhile_eq_nil_all {α} (p : α → Bool) :
    ∀ (l : List α), l.dropWhile p = [] → ∀ c ∈ l, p c = true
  | [], _, c, hc => by simp at hc
  | a :: l, h, c, hc => by
    by_cases hp : p a
    · rw [List.dropWhile_cons_of_pos hp] at h
      rcases List.mem_cons.1 hc with rfl | hc
      · exact hp
      · exact dropWhile_eq_nil_all p l h c hc
    · rw [List.dropWhile_cons_of_neg hp] at h
      exact absurd h (by simp)

theorem dropWhile_ne_nil_of_mem {α} (p : α → Bool) (l : List α) {c}
    (hc : c ∈ l) (hpc : p c = false) : l.dropWhile p ≠ [] := by
  intro h
  have := dropWhile_eq_nil_all p l h c hc
  simp [hpc] at this

theorem takeWhile_append_stop {α} (p : α → Bool) :
    ∀ (l₁ l₂ : List α), l₁.dropWhile p ≠ [] →
      (l₁ ++ l₂).takeWhile p = l₁.takeWhile p
  | [], _, h => by simp at h
  | a :: l₁, l₂, h => by
    by_cases hp : p a
    · rw [List.dropWhile_cons_of_pos hp] at h
      simp only [List.cons_append, List.takeWhile_cons_of_pos hp]
      rw [takeWhile_append_stop p l₁ l₂ h]
    · simp [List.takeWhile_cons_of_neg hp]

theorem dropWhile_append_stop {α} (p : α → Bool) :
    ∀ (l₁ l₂ : List α), l₁.dropWhile p ≠ [] →
      (l₁ ++ l₂).dropWhile p = l₁.dropWhile p ++ l₂
  | [], _, h => by simp at h
  | a :: l₁, l₂, h => by
    by_cases hp : p a
    · rw [List.dropWhile_cons_of_pos hp] at h
      simp only [List.cons_append, List.dropWhile_cons_of_pos hp]
      exact dropWhile_append_stop p l₁ l₂ h
    · simp [List.dropWhile_cons_of_neg hp]

/-- Decomposition of any list into its right-stripped part and its maximal
whitespace-like suffix. -/
theorem rev_decomp {α} (p : α → Bool) (l : List α) :
    l = (l.reverse.dropWhile p).reverse ++ (l.reverse.takeWhile p).reverse := by
  conv_rhs =>
    rw [← List.reverse_append, List.takeWhile_append_dropWhile,
      List.reverse_reverse]

/-- The trailing-whitespace decomposition of any string. -/
theorem trailWS_decomp (s : Str) :
    s = (s.reverse.dropWhile pyWS).reverse ++ trailWS s :=
  rev_decomp pyWS s

theorem trailWS_all (s : Str) : ∀ c ∈ trailWS s, pyWS c = true := by
  intro c hc
  rw [trailWS, List.mem_reverse] at hc
  exact List.mem_takeWhile_imp hc

theorem trailWS_append_left {l₁ l₂ : Str}
    (h : l₂.reverse.dropWhile pyWS ≠ []) :
    trailWS (l₁ ++ l₂) = trailWS l₂ := by
  unfold trailWS
  rw [List.reverse_append, takeWhile_append_stop pyWS _ _ h]

theorem pyStrip_def (s : Str) :
    pyStrip s = ((s.dropWhile pyWS).reverse.dropWhile pyWS).reverse := rfl

theorem split_ws_lead (s : Str) : (split_ws s).1 = s.takeWhile pyWS := rfl

theorem split_ws_trail (s : Str) : (split_ws s).2.2 = trailWS s := rfl

theorem split_ws_core (s : Str) :
    (split_ws s).2.1 = (s.take (if (trailWS s).length ≠ 0 then
      s.length - (trailWS s).length else s.length)).drop
        (s.takeWhile pyWS).length := rfl

theorem pyStrip_getLast_not (s : Str) {c : Char}
    (h : (pyStrip s).getLast? = some c) : pyWS c = false := by
  rw [pyStrip_def, List.getLast?_reverse] at h
  exact dropWhile_head_not pyWS _ h

theorem pyStrip_mem (s : Str) {c : Char} (h : c ∈ pyStrip s) : c ∈ s := by
  rw [pyStrip_def, List.mem_reverse] at h
  have h2 := (List.dropWhile_sublist (l := (s.dropWhile pyWS).reverse)
    (p := pyWS)).mem h
  rw [List.mem_reverse] at h2
  exact (List.dropWhile_sublist (l := s) (p := pyWS)).mem h2

/-- `str.strip()` is a prefix of `str.lstrip()`. -/
theorem pyStrip_pfx (s : Str) : pyStrip s <+: s.dropWhile pyWS := by
  rw [pyStrip_def]
  have h1 : (s.dropWhile pyWS).reverse.dropWhile pyWS <:+
      (s.dropWhile pyWS).reverse := List.dropWhile_suffix pyWS
  have h2 := h1.reverse
  simpa using h2

theorem pyStrip_ne_nil (s : Str) (hx : ∃ c ∈ s, pyWS c = false) :
    pyStrip s ≠ [] := by
  obtain ⟨c, hcs, hcw⟩ := hx
  have hRne : s.dropWhile pyWS ≠ [] := dropWhile_ne_nil_of_mem pyWS s hcs hcw
  have hr0 : pyWS ((s.dropWhile pyWS).head hRne) = false :=
    dropWhile_head_not pyWS s (List.head?_eq_head hRne)
  have hmem : (s.dropWhile pyWS).head hRne ∈ (s.dropWhile pyWS).reverse := by
    rw [List.mem_reverse]; exact List.head_mem hRne
  have h2 : (s.dropWhile pyWS).reverse.dropWhile pyWS ≠ [] :=
    dropWhile_ne_nil_of_mem pyWS _ hmem hr0
  rw [pyStrip_def]
  simpa using h2

/-- On a string with at least one non-whitespace character, `split_ws`
produces the canonical `lead ++ core ++ trail` decomposition, and the core
is exactly `str.strip()` of the input. -/
theorem split_ws_decomp (s : Str) (hx : ∃ c ∈ s, pyWS c = false) :
    (split_ws s).1 = s.takeWhile pyWS ∧
    (split_ws s).2.1 = pyStrip s ∧
    (split_ws s).2.2 = trailWS s ∧
    s.takeWhile pyWS ++ pyStrip s ++ trailWS s = s := by
  obtain ⟨c, hcs, hcw⟩ := hx
  have hRne : s.dropWhile pyWS ≠ [] := dropWhile_ne_nil_of_mem pyWS s hcs hcw
  have hr0 : pyWS ((s.dropWhile pyWS).head hRne) = false :=
    dropWhile_head_not pyWS s (List.head?_eq_head hRne)
  have hmem : (s.dropWhile pyWS).head hRne ∈ (s.dropWhile pyWS).reverse := by
    rw [List.mem_reverse]; exact List.head_mem hRne
  have hRrev_ne : (s.dropWhile pyWS).reverse.dropWhile pyWS ≠ [] :=
    dropWhile_ne_nil_of_mem pyWS _ hmem hr0
  have htrail : trailWS s = trailWS (s.dropWhile pyWS) := by
    conv_lhs => rw [← List.takeWhile_append_dropWhile pyWS s]
    exact trailWS_append_left hRrev_ne
  have hRMT : s.dropWhile pyWS =
      pyStrip s ++ trailWS (s.dropWhile pyWS) := by
    rw [pyStrip_def]
    exact rev_decomp pyWS (s.dropWhile pyWS)
  have hs3 : s = s.takeWhile pyWS ++ (pyStrip s ++ trailWS s) := by
    conv_lhs => rw [← List.takeWhile_append_dropWhile pyWS s]
    rw [htrail, ← hRMT]
  refine ⟨rfl, ?_, rfl, ?_⟩
  · -- the computed core slice is the strip
    rw [split_ws_core]
    have hlen : s.length = (s.takeWhile pyWS).length +
        ((pyStrip s).length + (trailWS s).length) := by
      conv_lhs => rw [hs3]
      simp [List.length_append]
    have hupper : (if (trailWS s).length ≠ 0 then
        s.length - (trailWS s).length else s.length) =
        (s.takeWhile pyWS).length + (pyStrip s).length := by
      by_cases h0 : (trailWS s).length = 0
      · simp only [h0, ne_eq, not_true_eq_false, if_false]
        omega
      · simp only [ne_eq, h0, not_false_eq_true, if_true]
        omega
    rw [hupper]
    have key : (((s.takeWhile pyWS ++ (pyStrip s ++ trailWS s)).take
        ((s.takeWhile pyWS).length + (pyStrip s).length)).drop
          (s.takeWhile pyWS).length) = pyStrip s := by
      rw [← List.append_assoc, List.take_left' (by simp), List.drop_left]
    conv_lhs =>
      arg 2
      arg 2
      rw [hs3]
    exact key
  · rw [List.append_assoc]
    exact hs3.symm

/-- On a whitespace-only string, lead and trail each cover the whole input
and the core is empty. -/
theorem split_ws_blank (s : Str) (hall : ∀ c ∈ s, pyWS c = true) :
    (split_ws s).1 = s ∧ (split_ws s).2.1 = [] ∧ (split_ws s).2.2 = s := by
  have hA : s.takeWhile pyWS = s := List.takeWhile_eq_self_iff.2 hall
  have hrev : ∀ c ∈ s.reverse, pyWS c = true := by
    intro c hc; exact hall c (List.mem_reverse.1 hc)
  have hT : trailWS s = s := by
    unfold trailWS
    rw [List.takeWhile_eq_self_iff.2 hrev, List.reverse_reverse]
  refine ⟨by rw [split_ws_lead, hA], ?_, by rw [split_ws_trail, hT]⟩
  rw [split_ws_core]
  by_cases hs : s = []
  · subst hs; rfl
  · have h0 : (trailWS s).length ≠ 0 := by rw [hT]; simpa using hs
    rw [if_pos h0, hT, Nat.sub_self]
    simp

theorem coreOf_eq_pyStrip (s : Str) : coreOf s = pyStrip s := by
  by_cases hx : ∃ c ∈ s, pyWS c = false
  · exact (split_ws_decomp s hx).2.1
  · push_neg at hx
    have hall : ∀ c ∈ s, pyWS c = true := by
      intro c hc
      have := hx c hc
      revert this
      cases pyWS c <;> simp
    rw [coreOf, (split_ws_blank s hall).2.1]
    have : s.dropWhile pyWS = [] := by
      rw [List.dropWhile_eq_nil_iff]
      intro c hc; exact hall c hc
    rw [pyStrip_def, this]
    rfl

theorem pyStrip_head_not (s : Str) {c : Char}
    (h : (pyStrip s).head? = some c) : pyWS c = false := by
  have hne : pyStrip s ≠ [] := by
    intro hh; rw [hh] at h; simp at h
  have hpfx : pyStrip s <+: s.dropWhile pyWS := pyStrip_pfx s
  have hXne : s.dropWhile pyWS ≠ [] := hpfx.ne_nil hne
  have hhe := hpfx.head hne
  have hc : (s.dropWhile pyWS).head (hpfx.ne_nil hne) = c := by
    rw [List.head?_eq_head hne] at h
    injection h with h2
    rw [← h2, hhe]
  rw [← hc]
  exact dropWhile_head_not pyWS s (List.head?_eq_head _)

theorem pyStrip_idem (s : Str) : pyStrip (pyStrip s) = pyStrip s := by
  rcases hm : pyStrip s with _ | ⟨m0, M'⟩
  · rfl
  · have hhead : pyWS m0 = false := pyStrip_head_not s (by rw [hm]; rfl)
    have h1 : lstripWS (m0 :: M') = m0 :: M' := by
      unfold lstripWS
      rw [List.dropWhile_cons_of_neg (by simp [hhead])]
    show ((lstripWS (m0 :: M')).reverse.dropWhile pyWS).reverse = m0 :: M'
    rw [h1]
    rcases hr : (m0 :: M').reverse with _ | ⟨l0, L'⟩
    · exact absurd hr (by simp)
    · have hlast : (pyStrip s).getLast? = some l0 := by
        rw [hm, ← List.head?_reverse, hr]; rfl
      have hl0 : pyWS l0 = false := pyStrip_getLast_not s hlast
      rw [List.dropWhile_cons_of_neg (by simp [hl0]), ← hr,
        List.reverse_reverse]

theorem should_translate_comment_strip (s : Str) :
    should_translate_comment (pyStrip s) = should_translate_comment s := by
  unfold should_translate_comment
  rw [pyStrip_idem]

theorem should_translate_strip (s : Str) :
    should_translate (pyStrip s) = should_translate s := by
  unfold should_translate
  rw [pyStrip_idem]

/-! ## Claim C10 : `split_ws` decomposition -/

/-- C10, counterexample. The claim asserts that for a whitespace-only **or
empty** input the reconstruction equation `lead ++ core ++ trail = input`
does not hold; on the empty input every component is empty and the
equation does hold. -/
theorem C10_counterexample :
    (split_ws ([] : Str)).1 ++ (split_ws ([] : Str)).2.1 ++
      (split_ws ([] : Str)).2.2 = ([] : Str) := by decide

/-- C10, amended. For every string with at least one non-whitespace
character, `split_ws` returns `(lead, core, trail)` with
`lead ++ core ++ trail` equal to the input, `lead` and `trail` whitespace,
and `core` nonempty, starting and ending with a non-whitespace character.
For a whitespace-only **nonempty** input, `lead` and `trail` each cover the
whole input, `core` is empty, and the reconstruction equation fails. For
the empty input all three components are empty and the reconstruction
equation holds trivially. -/
theorem C10_split_ws_amended (s : Str) :
    ((∃ c ∈ s, pyWS c = false) →
      (split_ws s).1 ++ (split_ws s).2.1 ++ (split_ws s).2.2 = s ∧
      (∀ c ∈ (split_ws s).1, pyWS c = true) ∧
      (∀ c ∈ (split_ws s).2.2, pyWS c = true) ∧
      (split_ws s).2.1 ≠ [] ∧
      (∀ c, ((split_ws s).2.1).head? = some c → pyWS c = false) ∧
      (∀ c, ((split_ws s).2.1).getLast? = some c → pyWS c = false)) ∧
    (s ≠ [] → (∀ c ∈ s, pyWS c = true) →
      (split_ws s).1 = s ∧ (split_ws s).2.1 = [] ∧ (split_ws s).2.2 = s ∧
      (split_ws s).1 ++ (split_ws s).2.1 ++ (split_ws s).2.2 ≠ s) := by
  constructor
  · intro hx
    obtain ⟨h1, h2, h3, h4⟩ := split_ws_decomp s hx
    refine ⟨?_, ?_, ?_, ?_, ?_, ?_⟩
    · rw [h1, h2, h3]; exact h4
    · intro c hc; rw [h1] at hc; exact List.mem_takeWhile_imp hc
    · intro c hc; rw [h3] at hc; exact trailWS_all s c hc
    · rw [h2]; exact pyStrip_ne_nil s hx
    · intro c hc; rw [h2] at hc; exact pyStrip_head_not s hc
    · intro c hc; rw [h2] at hc; exact pyStrip_getLast_not s hc
  · intro hne hall
    obtain ⟨h1, h2, h3⟩ := split_ws_blank s hall
    refine ⟨h1, h2, h3, ?_⟩
    rw [h1, h2, h3]
    intro h
    have := congrArg List.length h
    simp only [List.length_append, List.length_nil] at this
    have hpos : 0 < s.length := List.length_pos.2 hne
    omega

/-! ## Claim C4 : target-language-only fragments -/

theorem hasPfx_cons_false {p c : Char} {ps s : Str} (h : p ≠ c) :
    hasPfx (p :: ps) (c :: s) = false := by
  simp [hasPfx, h]

theorem plChar_facts {c : Char} (hc : c ∈ plChars) :
    hasLetterChar c = true ∧ toLowerA c = c ∧
    ('h' : Char) ≠ c ∧ ('m' : Char) ≠ c ∧ ('t' : Char) ≠ c ∧
    ('w' : Char) ≠ c ∧ brO ≠ c := by
  simp only [plChars, List.mem_cons, List.not_mem_nil, or_false] at hc
  rcases hc with rfl | rfl | rfl | rfl | rfl | rfl | rfl | rfl | rfl | rfl |
    rfl | rfl | rfl | rfl | rfl | rfl | rfl | rfl <;> decide

/-- C4, counterexample. The fragment `"ąćę"` consists purely of
target-language (Polish) characters, yet the prose/attribute predicate
`should_translate` accepts it — it has no target-language check at all —
so the claim that *both* classifiers reject such fragments is false. -/
theorem C4_counterexample :
    "ąćę".data.all (fun c => pyWS c || plChars.contains c) = true ∧
    should_translate "ąćę".data = true := by decide

/-- C4, amended. A fragment whose non-whitespace characters are exclusively
Polish-specific characters is rejected by the comment classifier
`should_translate_comment`; the prose/attribute classifier
`should_translate` performs no target-language check and accepts every such
fragment that has at least one non-whitespace character. -/
theorem C4_classifier_amended (s : Str)
    (h : ∀ c ∈ s, pyWS c = false → c ∈ plChars) :
    should_translate_comment s = false ∧
    ((∃ c ∈ s, pyWS c = false) → should_translate s = true) := by
  constructor
  · rcases ht : pyStrip s with _ | ⟨c0, t'⟩
    · simp [should_translate_comment, ht]
    · have hc0w : pyWS c0 = false := pyStrip_head_not s (by rw [ht]; rfl)
      have hc0s : c0 ∈ s :=
        pyStrip_mem s (by rw [ht]; exact List.mem_cons_self _ _)
      have hc0p : c0 ∈ plChars := h c0 hc0s hc0w
      have hpl : hasPl (c0 :: t') = true := by
        unfold hasPl
        simp only [List.any_cons, Bool.or_eq_true]
        left
        simpa [List.contains] using hc0p
      simp [should_translate_comment, ht, hpl]
  · rintro ⟨c, hcs, hcw⟩
    have hne : pyStrip s ≠ [] := pyStrip_ne_nil s ⟨c, hcs, hcw⟩
    obtain ⟨c0, t', ht⟩ := List.exists_cons_of_ne_nil hne
    have hc0w : pyWS c0 = false := pyStrip_head_not s (by rw [ht]; rfl)
    have hc0s : c0 ∈ s :=
      pyStrip_mem s (by rw [ht]; exact List.mem_cons_self _ _)
    have hc0p : c0 ∈ plChars := h c0 hc0s hc0w
    obtain ⟨hletter, hlower, hh, hm, htt, hw, hbr⟩ := plChar_facts hc0p
    have hurl : urlSearchPage (c0 :: t') = false := by
      unfold urlSearchPage hasPfxCI
      simp only [List.map_cons, hlower]
      rw [hasPfx_cons_false hh, hasPfx_cons_false hh, hasPfx_cons_false hm,
        hasPfx_cons_false htt, hasPfx_cons_false hw]
      rfl
    have hbrace : hasPfx [brO, brO] (c0 :: t') = false :=
      hasPfx_cons_false hbr
    have hany : (c0 :: t').any hasLetterChar = true := by
      simp [hletter]
    simp [should_translate, ht, hurl, hbrace, hany]

/-- C4, witness for the amended theorem at a concrete input. -/
theorem C4_witness :
    should_translate_comment "ąćę".data = false ∧
    should_translate "ąćę".data = true := by
  have h := C4_classifier_amended "ąćę".data (by decide)
  exact ⟨h.1, h.2 ⟨'ą', by decide, by decide⟩⟩

/-! ## Claim C5 : fragments with at least two hint words -/

/-- C5, counterexample. The fragment `"this is www.x.com"` contains two
source-language hint words (`this`, `is`) but is rejected by
`should_translate_comment` because of its URL, refuting the claim that two
hint words always suffice for submission. -/
theorem C5_counterexample :
    2 ≤ (english_score "this is www.x.com".data).1 ∧
    should_translate_comment "this is www.x.com".data = false := by decide

/-- C5, amended. A comment fragment whose trimmed text has length between 3
and 500, contains no URL and no Polish-specific character, and contains at
least two source-language hint words, is always accepted by
`should_translate_comment`. -/
theorem C5_comment_hints_amended (s : Str)
    (h3 : 3 ≤ (pyStrip s).length) (h500 : (pyStrip s).length ≤ 500)
    (hurl : urlSearchComment (pyStrip s) = false)
    (hpl : hasPl (pyStrip s) = false)
    (hhits : 2 ≤ (english_score (pyStrip s)).1) :
    should_translate_comment s = true := by
  have hne : (pyStrip s).isEmpty = false := by
    rcases h : pyStrip s with _ | ⟨a, b⟩
    · rw [h] at h3; simp at h3
    · rfl
  have hlen : ((pyStrip s).length < 3 || (pyStrip s).length > 500) = false := by
    simp only [Bool.or_eq_false_iff, decide_eq_false_iff_not]
    omega
  have hwords : (wordsOf (pyStrip s)).isEmpty = false := by
    rcases hw : wordsOf (pyStrip s) with _ | ⟨a, b⟩
    · unfold english_score at hhits
      rw [hw] at hhits
      simp at hhits
    · rfl
  have h0 : ¬((english_score (pyStrip s)).1 = 0) := by omega
  have h1 : (1 : Nat) ≤ (english_score (pyStrip s)).1 := by omega
  simp [should_translate_comment, hne, hlen, hurl, hpl, hwords, h0, h1]

/-- C5, witness for the amended theorem at a concrete input. -/
theorem C5_witness : should_translate_comment "this is fine".data = true :=
  C5_comment_hints_amended "this is fine".data (by decide) (by decide)
    (by decide) (by decide) (by decide)

/-! ## Claim C7 : the quality gate -/

/-- C7. `is_bad_translation` rejects every candidate that is empty after
trimming, and every candidate that is character-for-character identical to
a source fragment which itself satisfies `should_translate_comment`. -/
theorem C7_quality_gate (source translated : Str) :
    (pyStrip translated = [] → is_bad_translation source translated = true) ∧
    (translated = source → should_translate_comment source = true →
      is_bad_translation source translated = true) := by
  constructor
  · intro h
    simp [is_bad_translation, h]
  · rintro rfl hst
    by_cases hm : mojibakeSearch (pyStrip translated) = true
    · simp [is_bad_translation, hm]
    · have hsc : should_translate_comment (pyStrip translated) = true := by
        rw [should_translate_comment_strip]; exact hst
      simp [is_bad_translation, hm, hsc]

/-- C7, witness at concrete inputs: the empty candidate and an
echoed candidate for a translation-worthy source are both rejected. -/
theorem C7_witness :
    is_bad_translation "set the value".data "".data = true ∧
    is_bad_translation "set the value".data "set the value".data = true :=
  ⟨(C7_quality_gate "set the value".data "".data).1 (by decide),
   (C7_quality_gate "set the value".data "set the value".data).2 (by decide)
     (by decide)⟩

/-- C10, witness for the amended theorem at concrete inputs. -/
theorem C10_witness :
    ((split_ws " a ".data).1 ++ (split_ws " a ".data).2.1 ++
        (split_ws " a ".data).2.2 = " a ".data ∧
      (split_ws " a ".data).2.1 ≠ []) ∧
    ((split_ws "  ".data).2.1 = [] ∧
      (split_ws "  ".data).1 ++ (split_ws "  ".data).2.1 ++
        (split_ws "  ".data).2.2 ≠ "  ".data) := by
  constructor
  · have h := (C10_split_ws_amended " a ".data).1 ⟨'a', by decide, by decide⟩
    exact ⟨h.1, h.2.2.2.1⟩
  · have h := (C10_split_ws_amended "  ".data).2 (by decide) (by decide)
    exact ⟨h.2.1, h.2.2.2⟩

/-! ## Decimal rendering of batch-marker indices

The payload protocol of both drivers uses markers of the form
`<<<M{i}>>>` built with Python f-strings. `natDigits` models the decimal
rendering `str(i)`; it is fuel-structured so that concrete evaluation
reduces in the kernel. -/

def digitChar (d : Nat) : Char := Char.ofNat (48 + d % 10)

def natDigitsGo : Nat → Nat → List Char
  | 0, n => [digitChar (n % 10)]
  | fuel + 1, n =>
    if n < 10 then [digitChar n]
    else natDigitsGo fuel (n / 10) ++ [digitChar (n % 10)]

def natDigits (n : Nat) : List Char := natDigitsGo n n

theorem natDigitsGo_fuel : ∀ (f₁ f₂ n : Nat), n ≤ f₁ → n ≤ f₂ →
    natDigitsGo f₁ n = natDigitsGo f₂ n := by
  intro f₁
  induction f₁ using Nat.strong_induction_on with
  | _ f₁ ih =>
    intro f₂ n h₁ h₂
    match f₁, f₂ with
    | 0, 0 => rfl
    | 0, f₂ + 1 =>
      interval_cases n
      simp [natDigitsGo, digitChar]
    | f₁ + 1, 0 =>
      interval_cases n
      simp [natDigitsGo, digitChar]
    | f₁ + 1, f₂ + 1 =>
      show natDigitsGo (f₁ + 1) n = natDigitsGo (f₂ + 1) n
      simp only [natDigitsGo]
      by_cases hn : n < 10
      · simp [hn]
      · simp only [hn, if_false]
        have hd : n / 10 < n := Nat.div_lt_self (by omega) (by omega)
        rw [ih f₁ (by omega) f₂ (n / 10) (by omega) (by omega)]

theorem natDigits_succ_big {n : Nat} (h : ¬ n < 10) :
    natDigits n = natDigits (n / 10) ++ [digitChar (n % 10)] := by
  have h1 : natDigits n = natDigitsGo n n := rfl
  match hn : n with
  | n' + 1 =>
    rw [natDigits]
    show natDigitsGo (n' + 1) (n' + 1) = _
    simp only [natDigitsGo, h, if_false]
    rw [natDigits]
    have : (n' + 1) / 10 ≤ n' := by omega
    rw [natDigitsGo_fuel n' ((n' + 1) / 10) ((n' + 1) / 10) this (le_refl _)]

theorem natDigits_small {n : Nat} (h : n < 10) :
    natDigits n = [digitChar n] := by
  match n with
  | 0 => rfl
  | n' + 1 =>
    rw [natDigits]
    show natDigitsGo (n' + 1) (n' + 1) = _
    simp [natDigitsGo, h]

theorem natDigits_ne_nil (n : Nat) : natDigits n ≠ [] := by
  by_cases h : n < 10
  · rw [natDigits_small h]; simp
  · rw [natDigits_succ_big h]; simp

theorem natDigits_all_digit (n : Nat) :
    ∀ c ∈ natDigits n, isAsciiDigitB c = true := by
  induction n using Nat.strong_induction_on with
  | _ n ih =>
    by_cases h : n < 10
    · rw [natDigits_small h]
      intro c hc
      simp only [List.mem_singleton] at hc
      subst hc
      unfold digitChar isAsciiDigitB
      interval_cases n <;> decide
    · rw [natDigits_succ_big h]
      intro c hc
      rcases List.mem_append.1 hc with hc | hc
      · exact ih (n / 10) (Nat.div_lt_self (by omega) (by omega)) c hc
      · simp only [List.mem_singleton] at hc
        subst hc
        unfold digitChar isAsciiDigitB
        have : n % 10 < 10 := Nat.mod_lt _ (by omega)
        interval_cases h10 : n % 10 <;> simp_all

/-- Reading a digit string back as a number. -/
def digitsVal (l : List Char) : Nat :=
  l.foldl (fun a c => 10 * a + (c.toNat - 48)) 0

theorem digitsVal_append (l₁ l₂ : List Char) :
    digitsVal (l₁ ++ l₂) =
      l₂.foldl (fun a c => 10 * a + (c.toNat - 48)) (digitsVal l₁) := by
  unfold digitsVal
  rw [List.foldl_append]

theorem digitChar_toNat (d : Nat) (h : d < 10) :
    (digitChar d).toNat = 48 + d := by
  unfold digitChar
  interval_cases d <;> decide

theorem digitsVal_natDigits (n : Nat) : digitsVal (natDigits n) = n := by
  induction n using Nat.strong_induction_on with
  | _ n ih =>
    by_cases h : n < 10
    · rw [natDigits_small h]
      unfold digitsVal
      simp [digitChar_toNat n h]
    · rw [natDigits_succ_big h, digitsVal_append,
        ih (n / 10) (Nat.div_lt_self (by omega) (by omega))]
      simp only [List.foldl_cons, List.foldl_nil]
      rw [digitChar_toNat _ (Nat.mod_lt _ (by omega))]
      omega

theorem natDigits_inj {m n : Nat} (h : natDigits m = natDigits n) : m = n := by
  have := digitsVal_natDigits m
  rw [h, digitsVal_natDigits] at this
  omega

/-! ## The batch-marker protocol -/

/-- The end marker `<<<MEND>>>`. -/
def mendStr : Str := ['<', '<', '<', 'M', 'E', 'N', 'D', '>', '>', '>']

/-- The positional marker `<<<M{i}>>>`. -/
def markerStr (i : Nat) : Str :=
  ['<', '<', '<', 'M'] ++ natDigits i ++ ['>', '>', '>']

theorem markerStr_length (i : Nat) :
    (markerStr i).length = 7 + (natDigits i).length := by
  simp [markerStr]
  omega

theorem markerStr_length_ge (i : Nat) : 8 ≤ (markerStr i).length := by
  rw [markerStr_length]
  have := natDigits_ne_nil i
  have : 1 ≤ (natDigits i).length := by
    cases h : natDigits i with
    | nil => exact absurd h (natDigits_ne_nil i)
    | cons a l => simp
  omega

theorem markerStr_zero_length : (markerStr 0).length = 8 := by decide

/-! ## `build_batches`

The page driver (`translate_learncpp_pl.py`) recomputes the marker for a
fresh batch after a flush; the comment driver (`translate_code_comments_pl.py`)
keeps the pre-flush marker length in its running total. Both are modelled.
-/

/-- The exact encoded length of a batch: each fragment is preceded by its
positional marker, and the payload ends with the end marker. -/
def encLenGo : Nat → List (Nat × Str) → Nat
  | _, [] => 0
  | j, it :: rest => (markerStr j).length + it.2.length + encLenGo (j + 1) rest

def encodedLen (b : List (Nat × Str)) : Nat := mendStr.length + encLenGo 0 b

namespace Page

/-- Model of the source function:
```python
def build_batches(items, max_len=3800):
    batches = []
    current = []
    current_len = len("<<<MEND>>>")
    for item in items:
        idx, txt = item
        marker = f"<<<M{len(current)}>>>"
        extra = len(marker) + len(txt)
        if current and (current_len + extra > max_len):
            batches.append(current)
            current = []
            current_len = len("<<<MEND>>>")
            marker = f"<<<M0>>>"
            extra = len(marker) + len(txt)
        current.append((idx, txt))
        current_len += extra
    if current:
        batches.append(current)
    return batches
```
-/
def build_batches_go (max_len : Nat) :
    List (Nat × Str) → List (Nat × Str) → Nat → List (List (Nat × Str))
  | [], current, _ => if current.isEmpty then [] else [current]
  | it :: rest, current, clen =>
    let extra := (markerStr current.length).length + it.2.length
    if current ≠ [] ∧ clen + extra > max_len then
      let extra0 := (markerStr 0).length + it.2.length
      current :: build_batches_go max_len rest [it] (mendStr.length + extra0)
    else
      build_batches_go max_len rest (current ++ [it]) (clen + extra)

def build_batches (items : List (Nat × Str)) (max_len : Nat := 3800) :
    List (List (Nat × Str)) :=
  build_batches_go max_len items [] mendStr.length

end Page

namespace Cmts

/-- The comment driver's `build_batches`: identical shape, but after a
flush the running length is increased by the marker length computed
*before* the flush (the marker of the old batch position). -/
def build_batches_go (max_len : Nat) :
    List (Nat × Str) → List (Nat × Str) → Nat → List (List (Nat × Str))
  | [], current, _ => if current.isEmpty then [] else [current]
  | it :: rest, current, clen =>
    let extra := (markerStr current.length).length + it.2.length
    if current ≠ [] ∧ clen + extra > max_len then
      current :: build_batches_go max_len rest [it] (mendStr.length + extra)
    else
      build_batches_go max_len rest (current ++ [it]) (clen + extra)

def build_batches (items : List (Nat × Str)) (max_len : Nat := 3800) :
    List (List (Nat × Str)) :=
  build_batches_go max_len items [] mendStr.length

end Cmts

/-! ## Claim C9 : batching -/

theorem encLenGo_append (b : List (Nat × Str)) (it : Nat × Str) :
    ∀ j, encLenGo j (b ++ [it]) =
      encLenGo j b + ((markerStr (j + b.length)).length + it.2.length) := by
  induction b with
  | nil => intro j; simp [encLenGo]
  | cons x b ih =>
    intro j
    simp only [List.cons_append, encLenGo, List.append_eq]
    rw [ih (j + 1)]
    have hidx : j + 1 + b.length = j + (b.length + 1) := by omega
    rw [List.length_cons, hidx]
    omega

theorem encodedLen_append (b : List (Nat × Str)) (it : Nat × Str) :
    encodedLen (b ++ [it]) =
      encodedLen b + ((markerStr b.length).length + it.2.length) := by
  unfold encodedLen
  rw [encLenGo_append]
  simp only [Nat.zero_add]
  omega

theorem encodedLen_single (it : Nat × Str) :
    encodedLen [it] = mendStr.length + ((markerStr 0).length + it.2.length) := by
  simp [encodedLen, encLenGo]

theorem Page.build_batches_go_join (max_len : Nat) :
    ∀ (rest current : List (Nat × Str)) (clen : Nat),
      (Page.build_batches_go max_len rest current clen).flatten = current ++ rest := by
  intro rest
  induction rest with
  | nil =>
    intro current clen
    cases current <;> simp [Page.build_batches_go]
  | cons it rest ih =>
    intro current clen
    rw [Page.build_batches_go]
    split
    · simp [ih]
    · simp [ih]

theorem Cmts.cb_go_join (max_len : Nat) :
    ∀ (rest current : List (Nat × Str)) (clen : Nat),
      (Cmts.build_batches_go max_len rest current clen).flatten = current ++ rest := by
  intro rest
  induction rest with
  | nil =>
    intro current clen
    cases current <;> simp [Cmts.build_batches_go]
  | cons it rest ih =>
    intro current clen
    rw [Cmts.build_batches_go]
    split
    · simp [ih]
    · simp [ih]

theorem Page.build_batches_go_bound (max_len : Nat) :
    ∀ (rest current : List (Nat × Str)) (clen : Nat),
      (∀ it ∈ rest, encodedLen [it] ≤ max_len) →
      clen = encodedLen current →
      (current ≠ [] → clen ≤ max_len) →
      ∀ b ∈ Page.build_batches_go max_len rest current clen,
        b ≠ [] ∧ encodedLen b ≤ max_len := by
  intro rest
  induction rest with
  | nil =>
    intro current clen _ hlen hbound b hb
    rcases hc : current with _ | ⟨x, cur⟩
    · subst hc; simp [Page.build_batches_go] at hb
    · rw [hc] at hb
      simp only [Page.build_batches_go, List.isEmpty_cons, if_false,
        Bool.false_eq_true, List.mem_singleton] at hb
      subst hb
      refine ⟨by simp, ?_⟩
      rw [← hc, ← hlen]
      exact hbound (by rw [hc]; simp)
  | cons it rest ih =>
    intro current clen hsmall hlen hbound b hb
    rw [Page.build_batches_go] at hb
    split at hb
    · rename_i hguard
      rcases List.mem_cons.1 hb with rfl | hb
      · exact ⟨hguard.1, by rw [← hlen]; exact hbound hguard.1⟩
      · refine ih [it] _ (fun x hx => hsmall x (List.mem_cons_of_mem _ hx))
          ?_ ?_ b hb
        · rw [encodedLen_single]
        · intro _
          rw [← encodedLen_single]
          exact hsmall it (List.mem_cons_self _ _)
    · rename_i hguard
      refine ih (current ++ [it]) _
        (fun x hx => hsmall x (List.mem_cons_of_mem _ hx)) ?_ ?_ b hb
      · rw [encodedLen_append, hlen]
      · intro _
        rcases hc : current with _ | ⟨x, cur⟩
        · subst hc
          rw [hlen]
          have h1 : encodedLen ([] : List (Nat × Str)) = mendStr.length := by
            simp [encodedLen, encLenGo]
          rw [h1]
          have := hsmall it (List.mem_cons_self _ _)
          rw [encodedLen_single] at this
          have h2 : (markerStr (List.length ([] : List (Nat × Str)))).length
              = (markerStr 0).length := by simp
          omega
        · rw [← hc]
          have hne : current ≠ [] := by rw [hc]; simp
          have : ¬ (clen + ((markerStr current.length).length + it.2.length) >
              max_len) := by
            intro hgt
            exact hguard ⟨hne, hgt⟩
          omega

theorem Cmts.cb_go_bound (max_len : Nat) :
    ∀ (rest current : List (Nat × Str)) (clen : Nat),
      (∀ it ∈ rest, encodedLen [it] ≤ max_len) →
      encodedLen current ≤ clen →
      (current ≠ [] → encodedLen current ≤ max_len) →
      ∀ b ∈ Cmts.build_batches_go max_len rest current clen,
        b ≠ [] ∧ encodedLen b ≤ max_len := by
  intro rest
  induction rest with
  | nil =>
    intro current clen _ hlen hbound b hb
    rcases hc : current with _ | ⟨x, cur⟩
    · subst hc; simp [Cmts.build_batches_go] at hb
    · rw [hc] at hb
      simp only [Cmts.build_batches_go, List.isEmpty_cons, if_false,
        Bool.false_eq_true, List.mem_singleton] at hb
      subst hb
      refine ⟨by simp, ?_⟩
      rw [← hc]
      exact hbound (by rw [hc]; simp)
  | cons it rest ih =>
    intro current clen hsmall hlen hbound b hb
    rw [Cmts.build_batches_go] at hb
    split at hb
    · rename_i hguard
      rcases List.mem_cons.1 hb with rfl | hb
      · exact ⟨hguard.1, hbound hguard.1⟩
      · refine ih [it] _ (fun x hx => hsmall x (List.mem_cons_of_mem _ hx))
          ?_ ?_ b hb
        · rw [encodedLen_single]
          have := markerStr_length_ge current.length
          have := markerStr_zero_length
          omega
        · intro _
          exact hsmall it (List.mem_cons_self _ _)
    · rename_i hguard
      refine ih (current ++ [it]) _
        (fun x hx => hsmall x (List.mem_cons_of_mem _ hx)) ?_ ?_ b hb
      · rw [encodedLen_append]
        omega
      · intro _
        rcases hc : current with _ | ⟨x, cur⟩
        · subst hc
          rw [List.nil_append, encodedLen_single]
          have := hsmall it (List.mem_cons_self _ _)
          rw [encodedLen_single] at this
          omega
        · rw [← hc]
          have hne : current ≠ [] := by rw [hc]; simp
          have hle : ¬ (clen + ((markerStr current.length).length +
              it.2.length) > max_len) := by
            intro hgt
            exact hguard ⟨hne, hgt⟩
          rw [encodedLen_append]
          omega

/-- C9, counterexample. A single fragment of length 3783 yields a batch
whose encoded length is 3801 > 3800: `build_batches` never splits an
oversized fragment, so the budget bound of the claim fails on it. -/
theorem C9_counterexample :
    Page.build_batches [(0, List.replicate 3783 'a')] =
      [[(0, List.replicate 3783 'a')]] ∧
    3800 < encodedLen [(0, List.replicate 3783 'a')] := by
  constructor
  · rw [Page.build_batches, Page.build_batches_go]
    rw [if_neg (by intro h; exact h.1 rfl)]
    rw [List.nil_append, Page.build_batches_go]
    rw [if_neg (by simp)]
  · rw [encodedLen_single, markerStr_zero_length]
    have hrep : (List.replicate 3783 'a').length = 3783 :=
      List.length_replicate _ _
    simp only [mendStr, List.length_cons, List.length_nil, hrep]
    omega

/-- C9, amended. `build_batches` (both drivers) partitions its input into
nonempty batches whose concatenation is exactly the input — order is
preserved and no fragment is ever split — and, **provided every individual
fragment fits in the budget on its own** (its length is at most
3800 − 18 = 3782, so that marker + fragment + end marker fit), every
batch's encoded length is at most 3800. -/
theorem C9_build_batches_amended (items : List (Nat × Str))
    (hsmall : ∀ it ∈ items, encodedLen [it] ≤ 3800) :
    (Page.build_batches items).flatten = items ∧
    (∀ b ∈ Page.build_batches items, b ≠ [] ∧ encodedLen b ≤ 3800) ∧
    (Cmts.build_batches items).flatten = items ∧
    (∀ b ∈ Cmts.build_batches items, b ≠ [] ∧ encodedLen b ≤ 3800) := by
  refine ⟨?_, ?_, ?_, ?_⟩
  · rw [Page.build_batches, Page.build_batches_go_join]
    rfl
  · exact Page.build_batches_go_bound 3800 items [] mendStr.length hsmall
      (by simp [encodedLen, encLenGo]) (by simp)
  · rw [Cmts.build_batches, Cmts.cb_go_join]
    rfl
  · exact Cmts.cb_go_bound 3800 items [] mendStr.length hsmall
      (by simp [encodedLen, encLenGo]) (by simp)

/-- C9, witness for the amended theorem at a concrete input. -/
theorem C9_witness :
    (Page.build_batches [(0, "hello".data), (1, "world".data)]).flatten =
      [(0, "hello".data), (1, "world".data)] ∧
    ∀ b ∈ Page.build_batches [(0, "hello".data), (1, "world".data)],
      b ≠ [] ∧ encodedLen b ≤ 3800 := by
  have h := C9_build_batches_amended
    [(0, "hello".data), (1, "world".data)] (by decide)
  exact ⟨h.1, h.2.1⟩

/-! ## The group-payload protocol

```python
def translate_group_payload(translator, texts):
    payload = "".join(f"<<<M{i}>>>{t}" for i, t in enumerate(texts)) + "<<<MEND>>>"
    translated = translator.translate(payload)
    if "<<<MEND>>>" not in translated:
        return None
    out = []
    for i in range(len(texts)):
        marker = f"<<<M{i}>>>"
        next_marker = f"<<<M{i+1}>>>" if i + 1 < len(texts) else "<<<MEND>>>"
        start = translated.find(marker)
        if start == -1:
            return None
        start += len(marker)
        end = translated.find(next_marker, start)
        if end == -1:
            return None
        out.append(translated[start:end])
    return out
```

The translation backend is modelled as `f : Str → Option Str` (`none` is a
raised exception). The outer `none` of the result is a propagated
exception, `some none` is an unparsable batch, `some (some out)` is a
parsed batch.
-/

/-- The common four-character head `<<<M` of every marker. -/
def gStr : Str := ['<', '<', '<', 'M']

def payloadFrom (i : Nat) : List Str → Str
  | [] => mendStr
  | t :: ts => markerStr i ++ (t ++ payloadFrom (i + 1) ts)

def buildPayload (texts : List Str) : Str := payloadFrom 0 texts

/-- Leftmost occurrence index of `pat` in a string (`str.find`). -/
def findSubIdx (pat : Str) : Str → Option Nat
  | [] => if pat.isEmpty then some 0 else none
  | c :: cs =>
    if hasPfx pat (c :: cs) then some 0 else (findSubIdx pat cs).map (· + 1)

/-- `str.find(pat, st)`: leftmost occurrence at or after `st`. -/
def findSubFrom (s pat : Str) (st : Nat) : Option Nat :=
  (findSubIdx pat (s.drop st)).map (· + st)

/-- The marker-location parse loop of `translate_group_payload`; `i` is the
current fragment index and `r` the number of fragments still to recover
(`i + r` is the batch size). -/
def parseGo (translated : Str) : Nat → Nat → Option (List Str)
  | _, 0 => some []
  | i, r + 1 =>
    let marker := markerStr i
    let nextM := if r = 0 then mendStr else markerStr (i + 1)
    match findSubFrom translated marker 0 with
    | none => none
    | some st =>
      match findSubFrom translated nextM (st + marker.length) with
      | none => none
      | some en =>
        match parseGo translated (i + 1) r with
        | none => none
        | some out =>
          some (((translated.drop (st + marker.length)).take
            (en - (st + marker.length))) :: out)

def translate_group_payload (f : Str → Option Str) (texts : List Str) :
    Option (Option (List Str)) :=
  match f (buildPayload texts) with
  | none => none
  | some translated =>
    if containsSub mendStr translated then
      some (parseGo translated 0 texts.length)
    else some none

/-! ## Claim C2 : batch round-trip -/

/-- C2, counterexample. The fragments `["a<<<M1>>>b", "c"]` have a combined
encoded length of 37, far under the budget, yet parsing the untranslated
payload recovers `["a", "b<<<M1>>>c"]` — the marker-location parse locates
the spurious `<<<M1>>>` inside the first fragment. -/
theorem C2_counterexample :
    (buildPayload ["a<<<M1>>>b".data, "c".data]).length ≤ 3800 ∧
    translate_group_payload some ["a<<<M1>>>b".data, "c".data] =
      some (some ["a".data, "b<<<M1>>>c".data]) ∧
    translate_group_payload some ["a<<<M1>>>b".data, "c".data] ≠
      some (some ["a<<<M1>>>b".data, "c".data]) := by
  refine ⟨by decide, by decide, by decide⟩

/-! ### Occurrences and `str.find` -/

/-- `pat` occurs in `s` at position `p`. -/
def occursAt (pat s : Str) (p : Nat) : Prop := pat <+: s.drop p

theorem hasPfx_iff {pat s : Str} : hasPfx pat s = true ↔ pat <+: s := by
  induction pat generalizing s with
  | nil => simp [hasPfx]
  | cons p ps ih =>
    cases s with
    | nil => simp [hasPfx]
    | cons c cs =>
      simp only [hasPfx, Bool.and_eq_true, decide_eq_true_eq, ih,
        List.cons_prefix_cons]

theorem containsSub_iff {pat s : Str} :
    containsSub pat s = true ↔ ∃ q, occursAt pat s q := by
  induction s with
  | nil =>
    simp only [containsSub, List.isEmpty_iff]
    constructor
    · intro h; exact ⟨0, by simp [occursAt, h]⟩
    · rintro ⟨q, hq⟩
      unfold occursAt at hq
      rw [List.drop_nil] at hq
      exact List.prefix_nil.1 hq
  | cons c cs ih =>
    simp only [containsSub, Bool.or_eq_true, hasPfx_iff, ih]
    constructor
    · rintro (h | ⟨q, hq⟩)
      · exact ⟨0, by simpa [occursAt] using h⟩
      · exact ⟨q + 1, by simpa [occursAt] using hq⟩
    · rintro ⟨q, hq⟩
      cases q with
      | zero => left; simpa [occursAt] using hq
      | succ q => right; exact ⟨q, by simpa [occursAt] using hq⟩

theorem occursAt_length {pat s : Str} {p : Nat} (hne : pat ≠ [])
    (h : occursAt pat s p) : p + pat.length ≤ s.length := by
  unfold occursAt at h
  have hlen := h.length_le
  rw [List.length_drop] at hlen
  rcases le_or_lt p s.length with hp | hp
  · omega
  · rw [List.drop_eq_nil_of_le (by omega)] at h
    exact absurd (List.prefix_nil.1 h) hne

theorem findSubIdx_of_min {pat s : Str} {p : Nat} (hne : pat ≠ [])
    (h1 : occursAt pat s p) (hmin : ∀ q < p, ¬occursAt pat s q) :
    findSubIdx pat s = some p := by
  induction s generalizing p with
  | nil =>
    exfalso
    unfold occursAt at h1
    rw [List.drop_nil] at h1
    exact hne (List.prefix_nil.1 h1)
  | cons c cs ih =>
    cases p with
    | zero =>
      unfold occursAt at h1
      rw [List.drop_zero] at h1
      rw [findSubIdx, if_pos (hasPfx_iff.2 h1)]
    | succ p =>
      have h0 : ¬ (pat <+: c :: cs) := by
        intro hx
        exact hmin 0 (by omega) (by simpa [occursAt] using hx)
      rw [findSubIdx, if_neg (by rw [hasPfx_iff]; exact h0)]
      have hrec : findSubIdx pat cs = some p := by
        refine ih (by simpa [occursAt] using h1) ?_
        intro q hq hocc
        exact hmin (q + 1) (by omega) (by simpa [occursAt] using hocc)
      rw [hrec]
      rfl

theorem occursAt_drop {pat s : Str} {st r : Nat} :
    occursAt pat (s.drop st) r ↔ occursAt pat s (st + r) := by
  unfold occursAt
  rw [List.drop_drop]

theorem findSubFrom_of_min {pat s : Str} {p st : Nat} (hne : pat ≠ [])
    (h1 : occursAt pat s p) (hst : st ≤ p)
    (hmin : ∀ q, st ≤ q → q < p → ¬occursAt pat s q) :
    findSubFrom s pat st = some p := by
  unfold findSubFrom
  have hidx : findSubIdx pat (s.drop st) = some (p - st) := by
    refine findSubIdx_of_min hne ?_ ?_
    · rw [occursAt_drop]
      have : st + (p - st) = p := by omega
      rwa [this]
    · intro q hq hocc
      rw [occursAt_drop] at hocc
      exact hmin (st + q) (by omega) (by omega) hocc
  rw [hidx]
  simp only [Option.map_some']
  congr 1
  omega

/-! ### Marker positions inside a payload -/

/-- The offset of the `j`-th marker inside `payloadFrom i ts`
(`j = ts.length` gives the offset of the end marker). -/
def posAt (i : Nat) : List Str → Nat → Nat
  | _, 0 => 0
  | [], _ + 1 => 0
  | t :: ts, j + 1 => (markerStr i).length + t.length + posAt (i + 1) ts j

theorem drop_posAt : ∀ (ts : List Str) (i j : Nat), j ≤ ts.length →
    (payloadFrom i ts).drop (posAt i ts j) = payloadFrom (i + j) (ts.drop j) := by
  intro ts
  induction ts with
  | nil =>
    intro i j hj
    have hj0 : j = 0 := by simpa using hj
    subst hj0
    simp [posAt]
  | cons t ts ih =>
    intro i j hj
    cases j with
    | zero => simp [posAt]
    | succ j =>
      show (markerStr i ++ (t ++ payloadFrom (i + 1) ts)).drop
        ((markerStr i).length + t.length + posAt (i + 1) ts j) = _
      have harith : (markerStr i).length + t.length + posAt (i + 1) ts j =
          (markerStr i).length + (t.length + posAt (i + 1) ts j) := by omega
      rw [harith, List.drop_append, List.drop_append]
      have := ih (i + 1) j (by simpa using hj)
      rw [this]
      congr 1
      omega

theorem payloadFrom_head (i : Nat) (ts : List Str) :
    ∃ X, payloadFrom i ts = '<' :: '<' :: '<' :: 'M' :: X := by
  cases ts with
  | nil => exact ⟨['E', 'N', 'D', '>', '>', '>'], rfl⟩
  | cons t ts =>
    refine ⟨natDigits i ++ (['>', '>', '>'] ++ (t ++ payloadFrom (i + 1) ts)), ?_⟩
    show markerStr i ++ (t ++ payloadFrom (i + 1) ts) = _
    simp [markerStr]

theorem marker_occursAt (ts : List Str) (i j : Nat) (hj : j < ts.length) :
    occursAt (markerStr (i + j)) (payloadFrom i ts) (posAt i ts j) := by
  unfold occursAt
  rw [drop_posAt ts i j (by omega)]
  have hne : ts.drop j ≠ [] := by
    intro h
    have := congrArg List.length h
    rw [List.length_drop] at this
    simp at this
    omega
  obtain ⟨t, rest, hcons⟩ := List.exists_cons_of_ne_nil hne
  rw [hcons]
  show markerStr (i + j) <+: markerStr (i + j) ++ _
  exact List.prefix_append _ _

theorem mend_occursAt (ts : List Str) (i : Nat) :
    occursAt mendStr (payloadFrom i ts) (posAt i ts ts.length) := by
  unfold occursAt
  rw [drop_posAt ts i ts.length (le_refl _), List.drop_length]
  exact List.prefix_refl _

/-! ### Uniqueness of marker occurrences -/

theorem natDigits_toNat (n : Nat) :
    ∀ c ∈ natDigits n, 48 ≤ c.toNat ∧ c.toNat ≤ 57 := by
  induction n using Nat.strong_induction_on with
  | _ n ih =>
    by_cases h : n < 10
    · rw [natDigits_small h]
      intro c hc
      simp only [List.mem_singleton] at hc
      subst hc
      rw [digitChar_toNat n h]
      omega
    · rw [natDigits_succ_big h]
      intro c hc
      rcases List.mem_append.1 hc with hc | hc
      · exact ih (n / 10) (Nat.div_lt_self (by omega) (by omega)) c hc
      · simp only [List.mem_singleton] at hc
        subst hc
        rw [digitChar_toNat _ (Nat.mod_lt _ (by omega))]
        have : n % 10 < 10 := Nat.mod_lt _ (by omega)
        omega

theorem digit_toNat_ne {c d : Char} (h : 48 ≤ c.toNat ∧ c.toNat ≤ 57)
    (hd : 57 < d.toNat ∨ d.toNat < 48) : c ≠ d := by
  intro hcd
  subst hcd
  omega

/-- No occurrence of `<<<M` strictly inside a marker block. -/
theorem gStr_in_marker (i : Nat) (X : Str) (q : Nat) (h0 : 0 < q)
    (hq : q < (markerStr i).length)
    (hocc : occursAt gStr (markerStr i ++ X) q) : False := by
  have hshape : markerStr i ++ X =
      '<' :: '<' :: '<' :: 'M' :: (natDigits i ++ ('>' :: '>' :: '>' :: X)) := by
    simp [markerStr]
  rw [markerStr_length] at hq
  unfold occursAt at hocc
  rw [hshape] at hocc
  match q, h0 with
  | 1, _ =>
    obtain ⟨u, hu⟩ := hocc
    simp [gStr] at hu
  | 2, _ =>
    obtain ⟨u, hu⟩ := hocc
    simp [gStr] at hu
  | 3, _ =>
    obtain ⟨u, hu⟩ := hocc
    simp [gStr] at hu
  | (r + 4), _ =>
    have hdrop : ('<' :: '<' :: '<' :: 'M' ::
        (natDigits i ++ ('>' :: '>' :: '>' :: X))).drop (r + 4) =
        (natDigits i ++ ('>' :: '>' :: '>' :: X)).drop r := by
      rfl
    rw [hdrop] at hocc
    have hr : r < (natDigits i).length + 3 := by omega
    rcases lt_or_ge r (natDigits i).length with hlt | hge
    · rw [List.drop_append_of_le_length (by omega)] at hocc
      have hne : (natDigits i).drop r ≠ [] := by
        intro h
        have := congrArg List.length h
        rw [List.length_drop] at this
        simp at this
        omega
      obtain ⟨d0, D', hcons⟩ := List.exists_cons_of_ne_nil hne
      rw [hcons] at hocc
      obtain ⟨u, hu⟩ := hocc
      have hd0 : d0 ∈ natDigits i := by
        have : d0 ∈ (natDigits i).drop r := by
          rw [hcons]; exact List.mem_cons_self _ _
        exact (List.drop_sublist r (natDigits i)).mem this
      have hbounds := natDigits_toNat i d0 hd0
      have : ('<' : Char) = d0 := by
        have := hu
        simp only [gStr, List.cons_append, List.cons.injEq] at this
        exact this.1
      have h60 : d0.toNat = 60 := by rw [← this]; decide
      omega
    · -- r points into the `>>>` tail
      have hr3 : r - (natDigits i).length < 3 := by omega
      have hdrop2 : (natDigits i ++ ('>' :: '>' :: '>' :: X)).drop r =
          ('>' :: '>' :: '>' :: X).drop (r - (natDigits i).length) := by
        conv_lhs =>
          rw [show r = (natDigits i).length + (r - (natDigits i).length) from
            by omega]
        rw [List.drop_append]
      rw [hdrop2] at hocc
      match hr' : r - (natDigits i).length, hr3 with
      | 0, _ =>
        rw [hr'] at hocc
        obtain ⟨u, hu⟩ := hocc
        simp [gStr] at hu
      | 1, _ =>
        rw [hr'] at hocc
        obtain ⟨u, hu⟩ := hocc
        simp [gStr] at hu
      | 2, _ =>
        rw [hr'] at hocc
        obtain ⟨u, hu⟩ := hocc
        simp [gStr] at hu

/-- No occurrence of `<<<M` strictly inside the end marker. -/
theorem gStr_in_mend (q : Nat) (h0 : 0 < q)
    (hocc : occursAt gStr mendStr q) : False := by
  have hb := occursAt_length (by simp [gStr]) hocc
  have : q ≤ 6 := by
    simp only [gStr, mendStr] at hb ⊢
    simp at hb
    omega
  unfold occursAt at hocc
  interval_cases q <;> revert hocc <;> decide

/-- An occurrence of `<<<M` starting inside a marker-free fragment cannot
straddle into the following marker. -/
theorem gStr_no_straddle : ∀ (t X : Str) (r : Nat),
    containsSub gStr t = false →
    occursAt gStr (t ++ ('<' :: '<' :: '<' :: 'M' :: X)) r →
    t.length ≤ r := by
  intro t
  induction t with
  | nil => intro X r _ _; simp
  | cons c t' ih =>
    intro X r hno hocc
    cases r with
    | zero =>
      exfalso
      unfold occursAt at hocc
      rw [List.drop_zero] at hocc
      obtain ⟨u, hu⟩ := hocc
      rcases t' with _ | ⟨c2, t''⟩
      · simp [gStr] at hu
      rcases t'' with _ | ⟨c3, t3⟩
      · simp [gStr] at hu
      rcases t3 with _ | ⟨c4, t4⟩
      · simp [gStr] at hu
      · -- the whole `<<<M` lies inside `t`, contradicting `hno`
        simp only [gStr, List.cons_append, List.nil_append,
          List.cons.injEq] at hu
        obtain ⟨h1, h2, h3, h4, _⟩ := hu
        rw [containsSub] at hno
        simp only [Bool.or_eq_false_iff] at hno
        have hpf := hno.1
        subst h1; subst h2; subst h3; subst h4
        simp [hasPfx, gStr] at hpf
    | succ r =>
      have hno' : containsSub gStr t' = false := by
        rw [containsSub] at hno
        simp only [Bool.or_eq_false_iff] at hno
        exact hno.2
      have hocc' : occursAt gStr (t' ++ ('<' :: '<' :: '<' :: 'M' :: X)) r := by
        simpa [occursAt] using hocc
      have := ih X r hno' hocc'
      simp only [List.length_cons]
      omega

theorem occ_append_right {pat A B : Str} {r : Nat}
    (h : occursAt pat (A ++ B) r) (hr : A.length ≤ r) :
    occursAt pat B (r - A.length) := by
  unfold occursAt at h ⊢
  have : r = A.length + (r - A.length) := by omega
  rw [this, List.drop_append] at h
  exact h

/-- Every occurrence of `<<<M` in a payload built from marker-free
fragments is one of the marker positions. -/
theorem gStr_occ : ∀ (ts : List Str) (i q : Nat),
    (∀ t ∈ ts, containsSub gStr t = false) →
    occursAt gStr (payloadFrom i ts) q →
    ∃ j, j ≤ ts.length ∧ q = posAt i ts j := by
  intro ts
  induction ts with
  | nil =>
    intro i q _ hocc
    refine ⟨0, by simp, ?_⟩
    show q = 0
    by_contra hq
    exact gStr_in_mend q (by omega) hocc
  | cons t ts ih =>
    intro i q hno hocc
    by_cases h0 : q = 0
    · exact ⟨0, by simp, by simp [h0, posAt]⟩
    by_cases hin : q < (markerStr i).length
    · exfalso
      exact gStr_in_marker i (t ++ payloadFrom (i + 1) ts) q (by omega) hin
        (by simpa [payloadFrom, occursAt] using hocc)
    · push_neg at hin
      have hocc' : occursAt gStr (t ++ payloadFrom (i + 1) ts)
          (q - (markerStr i).length) :=
        occ_append_right (by simpa [payloadFrom, occursAt] using hocc) hin
      obtain ⟨X, hX⟩ := payloadFrom_head (i + 1) ts
      rw [hX] at hocc'
      have hge : t.length ≤ q - (markerStr i).length :=
        gStr_no_straddle t X _ (hno t (List.mem_cons_self _ _)) hocc'
      have hocc'' : occursAt gStr (payloadFrom (i + 1) ts)
          (q - (markerStr i).length - t.length) := by
        rw [hX]
        exact occ_append_right hocc' hge
      obtain ⟨j, hj, hq⟩ := ih (i + 1) _
        (fun x hx => hno x (List.mem_cons_of_mem _ hx)) hocc''
      refine ⟨j + 1, by simp [hj], ?_⟩
      show q = (markerStr i).length + t.length + posAt (i + 1) ts j
      omega

theorem gStr_pfx_marker (m : Nat) : gStr <+: markerStr m :=
  ⟨natDigits m ++ ['>', '>', '>'], by simp [gStr, markerStr]⟩

theorem gStr_pfx_mend : gStr <+: mendStr :=
  ⟨['E', 'N', 'D', '>', '>', '>'], rfl⟩

theorem digit_block_pfx : ∀ (d e X : Str),
    (∀ c ∈ d, 48 ≤ c.toNat ∧ c.toNat ≤ 57) →
    (∀ c ∈ e, 48 ≤ c.toNat ∧ c.toNat ≤ 57) →
    (d ++ ['>', '>', '>']) <+: (e ++ ('>' :: '>' :: '>' :: X)) → d = e := by
  intro d
  induction d with
  | nil =>
    intro e X _ he hp
    cases e with
    | nil => rfl
    | cons b e' =>
      exfalso
      simp only [List.nil_append, List.cons_append, List.cons_prefix_cons]
        at hp
      have hb := he b (List.mem_cons_self _ _)
      have : ('>' : Char) = b := hp.1
      have : b.toNat = 62 := by rw [← this]; decide
      omega
  | cons a d' ihd =>
    intro e X hd he hp
    cases e with
    | nil =>
      exfalso
      simp only [List.cons_append, List.nil_append, List.cons_prefix_cons]
        at hp
      have ha := hd a (List.mem_cons_self _ _)
      have : a = ('>' : Char) := hp.1
      have : a.toNat = 62 := by rw [this]; decide
      omega
    | cons b e' =>
      simp only [List.cons_append, List.cons_prefix_cons] at hp
      have := ihd e' X (fun c hc => hd c (List.mem_cons_of_mem _ hc))
        (fun c hc => he c (List.mem_cons_of_mem _ hc)) hp.2
      rw [hp.1, this]

theorem marker_pfx_discr {m n : Nat} {X : Str}
    (h : markerStr m <+: markerStr n ++ X) : m = n := by
  have hshape : markerStr n ++ X =
      ['<', '<', '<', 'M'] ++ (natDigits n ++ ('>' :: '>' :: '>' :: X)) := by
    simp [markerStr]
  have hm : markerStr m =
      ['<', '<', '<', 'M'] ++ (natDigits m ++ ['>', '>', '>']) := by
    simp [markerStr]
  rw [hshape, hm, List.prefix_append_right_inj] at h
  exact natDigits_inj (digit_block_pfx _ _ _ (natDigits_toNat m)
    (natDigits_toNat n) h)

theorem marker_not_pfx_mend {m : Nat} (h : markerStr m <+: mendStr) :
    False := by
  have hm : markerStr m =
      ['<', '<', '<', 'M'] ++ (natDigits m ++ ['>', '>', '>']) := by
    simp [markerStr]
  have hmd : mendStr =
      ['<', '<', '<', 'M'] ++ ['E', 'N', 'D', '>', '>', '>'] := rfl
  rw [hm, hmd, List.prefix_append_right_inj] at h
  rcases hd : natDigits m with _ | ⟨d0, D'⟩
  · exact natDigits_ne_nil m hd
  · rw [hd] at h
    simp only [List.cons_append, List.cons_prefix_cons] at h
    have hb := natDigits_toNat m d0 (by rw [hd]; exact List.mem_cons_self _ _)
    have : d0.toNat = 69 := by rw [h.1]; decide
    omega

theorem mend_not_pfx_marker {n : Nat} {X : Str}
    (h : mendStr <+: markerStr n ++ X) : False := by
  have hshape : markerStr n ++ X =
      ['<', '<', '<', 'M'] ++ (natDigits n ++ ('>' :: '>' :: '>' :: X)) := by
    simp [markerStr]
  have hmd : mendStr =
      ['<', '<', '<', 'M'] ++ ['E', 'N', 'D', '>', '>', '>'] := rfl
  rw [hshape, hmd, List.prefix_append_right_inj] at h
  rcases hd : natDigits n with _ | ⟨d0, D'⟩
  · exact natDigits_ne_nil n hd
  · rw [hd] at h
    simp only [List.cons_append, List.cons_prefix_cons] at h
    have hb := natDigits_toNat n d0 (by rw [hd]; exact List.mem_cons_self _ _)
    have : ('E' : Char) = d0 := h.1
    have : d0.toNat = 69 := by rw [← this]; decide
    omega

/-- Every occurrence of a positional marker in a clean payload is the
occurrence of that very marker at its own position. -/
theorem marker_occ_unique (ts : List Str) (i q m : Nat)
    (H : ∀ t ∈ ts, containsSub gStr t = false)
    (hocc : occursAt (markerStr m) (payloadFrom i ts) q) :
    ∃ j, j < ts.length ∧ m = i + j ∧ q = posAt i ts j := by
  have hg : occursAt gStr (payloadFrom i ts) q :=
    (gStr_pfx_marker m).trans hocc
  obtain ⟨j, hj, rfl⟩ := gStr_occ ts i q H hg
  unfold occursAt at hocc
  rw [drop_posAt ts i j hj] at hocc
  rcases hlt : ts.drop j with _ | ⟨t', ts''⟩
  · rw [hlt] at hocc
    exact absurd hocc marker_not_pfx_mend
  · rw [hlt] at hocc
    have hm : m = i + j := marker_pfx_discr (X := t' ++ payloadFrom (i + j + 1) ts'')
      (by simpa [payloadFrom] using hocc)
    have hjlt : j < ts.length := by
      by_contra hge
      rw [List.drop_eq_nil_of_le (by omega)] at hlt
      exact absurd hlt (by simp)
    exact ⟨j, hjlt, hm, rfl⟩

/-- Every occurrence of the end marker in a clean payload is at the end. -/
theorem mend_occ_unique (ts : List Str) (i q : Nat)
    (H : ∀ t ∈ ts, containsSub gStr t = false)
    (hocc : occursAt mendStr (payloadFrom i ts) q) :
    q = posAt i ts ts.length := by
  have hg : occursAt gStr (payloadFrom i ts) q := gStr_pfx_mend.trans hocc
  obtain ⟨j, hj, rfl⟩ := gStr_occ ts i q H hg
  unfold occursAt at hocc
  rw [drop_posAt ts i j hj] at hocc
  rcases hlt : ts.drop j with _ | ⟨t', ts''⟩
  · have : j = ts.length := by
      have := congrArg List.length hlt
      rw [List.length_drop] at this
      simp at this
      omega
    rw [this]
  · rw [hlt] at hocc
    exact absurd (by simpa [payloadFrom] using hocc) mend_not_pfx_marker

/-! ### Parse correctness on clean payloads -/

theorem drop_succ_cons {ts : List Str} {i : Nat} {t : Str} {rest : List Str}
    (h : ts.drop i = t :: rest) : ts.drop (i + 1) = rest := by
  have h2 : (ts.drop i).drop 1 = rest := by rw [h]; rfl
  rw [← h2, List.drop_drop]

theorem posAt_succ : ∀ (j : Nat) (ts : List Str) (i : Nat) (t : Str)
    (rest : List Str), ts.drop j = t :: rest →
    posAt i ts (j + 1) =
      posAt i ts j + (markerStr (i + j)).length + t.length := by
  intro j
  induction j with
  | zero =>
    intro ts i t rest h
    rw [List.drop_zero] at h
    subst h
    show (markerStr i).length + t.length + posAt (i + 1) rest 0 = _
    simp [posAt]
  | succ j ihj =>
    intro ts i t rest h
    rcases ts with _ | ⟨t0, ts'⟩
    · simp at h
    · have h' : ts'.drop j = t :: rest := by simpa using h
      show (markerStr i).length + t0.length + posAt (i + 1) ts' (j + 1) = _
      rw [ihj ts' (i + 1) t rest h']
      show _ = (markerStr i).length + t0.length + posAt (i + 1) ts' j +
        (markerStr (i + (j + 1))).length + t.length
      rw [show i + 1 + j = i + (j + 1) from by omega]
      omega

theorem markerStr_ne_nil (i : Nat) : markerStr i ≠ [] := by
  intro h
  have := congrArg List.length h
  rw [markerStr_length] at this
  simp at this

theorem parseGo_correct (T : List Str)
    (H : ∀ t ∈ T, containsSub gStr t = false) :
    ∀ (r i : Nat), i + r = T.length →
      parseGo (buildPayload T) i r = some (T.drop i) := by
  intro r
  induction r with
  | zero =>
    intro i hi
    rw [parseGo, List.drop_eq_nil_of_le (by omega)]
  | succ r ihr =>
    intro i hi
    have hilt : i < T.length := by omega
    have hdropne : T.drop i ≠ [] := by
      intro h
      have := congrArg List.length h
      rw [List.length_drop] at this
      simp at this
      omega
    obtain ⟨t, rest', hcons⟩ := List.exists_cons_of_ne_nil hdropne
    have hrest : T.drop (i + 1) = rest' := drop_succ_cons hcons
    have hfind1 : findSubFrom (buildPayload T) (markerStr i) 0 =
        some (posAt 0 T i) := by
      apply findSubFrom_of_min (markerStr_ne_nil i)
      · have := marker_occursAt T 0 i hilt
        simpa [buildPayload] using this
      · omega
      · intro q _ hqlt hocc
        obtain ⟨j, hjlt, hm, hq⟩ := marker_occ_unique T 0 q i H hocc
        have hji : j = i := by omega
        subst hji
        omega
    have hsucc : posAt 0 T (i + 1) =
        posAt 0 T i + (markerStr i).length + t.length := by
      have := posAt_succ i T 0 t rest' hcons
      simpa using this
    have hslice : ((buildPayload T).drop
        (posAt 0 T i + (markerStr i).length)).take
          (posAt 0 T (i + 1) - (posAt 0 T i + (markerStr i).length)) = t := by
      have hdrop1 : (buildPayload T).drop (posAt 0 T i) =
          payloadFrom i (T.drop i) := by
        have := drop_posAt T 0 i (by omega)
        simpa [buildPayload] using this
      have hdd : (buildPayload T).drop
          (posAt 0 T i + (markerStr i).length) =
          t ++ payloadFrom (i + 1) rest' := by
        have h2 : ((buildPayload T).drop (posAt 0 T i)).drop
            (markerStr i).length = t ++ payloadFrom (i + 1) rest' := by
          rw [hdrop1, hcons]
          show (markerStr i ++ (t ++ payloadFrom (i + 1) rest')).drop
            (markerStr i).length = _
          rw [List.drop_left]
        rw [← h2, List.drop_drop]
      rw [hdd, show posAt 0 T (i + 1) -
        (posAt 0 T i + (markerStr i).length) = t.length from by omega,
        List.take_left]
    by_cases hr : r = 0
    · subst hr
      have hlen : i + 1 = T.length := by omega
      have hfind2 : findSubFrom (buildPayload T) mendStr
          (posAt 0 T i + (markerStr i).length) =
          some (posAt 0 T (i + 1)) := by
        rw [hlen]
        apply findSubFrom_of_min (by decide : mendStr ≠ [])
        · exact mend_occursAt T 0
        · rw [← hlen, hsucc]
          omega
        · intro q hqs hqlt hocc
          have := mend_occ_unique T 0 q H hocc
          omega
      have hrest0 : rest' = [] := by
        rw [← hrest, hlen, List.drop_length]
      have hbase : parseGo (buildPayload T) (i + 1) 0 = some [] := rfl
      rw [parseGo]
      have hift : (if (0 : Nat) = 0 then mendStr else markerStr (i + 1)) =
          mendStr := rfl
      rw [hift]
      simp only [hfind1, hfind2, hbase, hslice]
      rw [hcons, hrest0]
    · have h1lt : i + 1 < T.length := by omega
      have hfind2 : findSubFrom (buildPayload T) (markerStr (i + 1))
          (posAt 0 T i + (markerStr i).length) =
          some (posAt 0 T (i + 1)) := by
        apply findSubFrom_of_min (markerStr_ne_nil (i + 1))
        · have := marker_occursAt T 0 (i + 1) h1lt
          simpa [buildPayload] using this
        · rw [hsucc]; omega
        · intro q hqs hqlt hocc
          obtain ⟨j, hjlt, hm, hq⟩ := marker_occ_unique T 0 q (i + 1) H hocc
          have hji : j = i + 1 := by omega
          subst hji
          omega
      rw [parseGo, if_neg hr]
      simp only [hfind1, hfind2, ihr (i + 1) (by omega), hrest, hslice]
      rw [hcons]

/-! ### C2, amended round-trip -/

/-- C2, amended. For every list of fragments **none of which contains the
substring `<<<M`** and whose combined encoded length is under the batch
budget, parsing the untranslated payload (`translate_group_payload` with
the identity backend) recovers exactly the original fragments in order. -/
theorem C2_roundtrip_amended (texts : List Str)
    (hno : ∀ t ∈ texts, containsSub gStr t = false)
    (hbudget : (buildPayload texts).length ≤ 3800) :
    translate_group_payload some texts = some (some texts) := by
  have hmend : containsSub mendStr (buildPayload texts) = true :=
    containsSub_iff.2 ⟨posAt 0 texts texts.length, mend_occursAt texts 0⟩
  have hstep : translate_group_payload some texts =
      if containsSub mendStr (buildPayload texts) then
        some (parseGo (buildPayload texts) 0 texts.length)
      else some none := rfl
  rw [hstep, if_pos hmend,
    parseGo_correct texts hno texts.length 0 (by omega), List.drop_zero]

/-- C2, witness for the amended theorem at a concrete input. -/
theorem C2_witness :
    translate_group_payload some ["hello".data, "world".data] =
      some (some ["hello".data, "world".data]) :=
  C2_roundtrip_amended ["hello".data, "world".data] (by decide) (by decide)

/-! ## The cache

The persistent cache is a Python dict from source fragment to accepted
translation; it is modelled as an association list with dict semantics
(lookup of the unique key, in-place replacement on update). -/

/-- The translation cache. -/
abbrev Cache := List (Str × Str)

def lookupC (c : Cache) (k : Str) : Option Str :=
  match c with
  | [] => none
  | e :: rest => if e.1 = k then some e.2 else lookupC rest k

def insertC (c : Cache) (k v : Str) : Cache :=
  match c with
  | [] => [(k, v)]
  | e :: rest => if e.1 = k then (k, v) :: rest else e :: insertC rest k v

/-- Python's `enumerate`. -/
def enumGo (i : Nat) : List Str → List (Nat × Str)
  | [] => []
  | x :: xs => (i, x) :: enumGo (i + 1) xs

def enumL (l : List Str) : List (Nat × Str) := enumGo 0 l

/-- `cache[texts[i]] = tr` for each `(i, tr)` of `zip(idxs, translated)`. -/
def cacheUpdateZip (texts : List Str) : Cache → List Nat → List Str → Cache
  | c, [], _ => c
  | c, _ :: _, [] => c
  | c, i :: is, tr :: trs =>
    cacheUpdateZip texts (insertC c (texts.getD i []) tr) is trs

/-! ## `postprocess_translation` (comment driver)

The fixed-up keyword patterns `\b(?:stwierdzenie|oświadczenie)\s+{kw}\b`
(and plural forms), the literal phrases `\bnie żyje\b`/`\bnie żyją\b`, and
the whitespace collapse `\s{2,}` are modelled as character-level scanners.
`re.sub` scans the original string left to right, replacing non-overlapping
matches; `re.IGNORECASE` is modelled with full lowercasing on the ASCII and
Polish repertoire. -/

/-- Lowercasing on the ASCII range and the Polish letters, as performed by
`re.IGNORECASE` on the source patterns. -/
def toLowerPl (c : Char) : Char :=
  if isAsciiUpper c then Char.ofNat (c.toNat + 32)
  else if c = Char.ofNat 0x104 then Char.ofNat 0x105
  else if c = Char.ofNat 0x106 then Char.ofNat 0x107
  else if c = Char.ofNat 0x118 then Char.ofNat 0x119
  else if c = Char.ofNat 0x141 then Char.ofNat 0x142
  else if c = Char.ofNat 0x143 then Char.ofNat 0x144
  else if c = Char.ofNat 0xd3 then Char.ofNat 0xf3
  else if c = Char.ofNat 0x15a then Char.ofNat 0x15b
  else if c = Char.ofNat 0x179 then Char.ofNat 0x17a
  else if c = Char.ofNat 0x17b then Char.ofNat 0x17c
  else c

/-- Strip a lowercase pattern off the front of a string, case-insensitively;
returns the remainder on success. -/
def stripCIPl : Str → Str → Option Str
  | [], s => some s
  | _ :: _, [] => none
  | p :: ps, c :: cs => if toLowerPl c = p then stripCIPl ps cs else none

/-- One `re.sub` pass for `\b(?:w1|w2)\s+kw\b → repl` (all of `w1`, `w2`,
`kw` are lowercase words). `prev` tracks the word-character status of the
character before the scan position of the **original** string; after a
match it is the last (letter) character of the matched keyword. -/
def subKwGo (w1 w2 kw repl : Str) : Nat → Option Char → Str → Str
  | 0, _, s => s
  | _ + 1, _, [] => []
  | fuel + 1, prev, c :: rest =>
    let boundaryOk : Bool := match prev with
      | none => true
      | some p => !pyWord p
    let tryTail : Option Str :=
      if boundaryOk then
        match (match stripCIPl w1 (c :: rest) with
               | some a => some a
               | none => stripCIPl w2 (c :: rest)) with
        | none => none
        | some afterW =>
          if (afterW.takeWhile pyWS).isEmpty then none
          else match stripCIPl kw (afterW.dropWhile pyWS) with
            | none => none
            | some afterKw =>
              match afterKw with
              | [] => some afterKw
              | d :: _ => if pyWord d then none else some afterKw
      else none
    match tryTail with
    | some rest' => repl ++ subKwGo w1 w2 kw repl fuel (kw.getLast?) rest'
    | none => c :: subKwGo w1 w2 kw repl fuel (some c) rest

def subKw (w1 w2 kw repl s : Str) : Str :=
  subKwGo w1 w2 kw repl s.length none s

/-- One `re.sub` pass for a literal phrase pattern `\bphrase\b → repl`. -/
def subPhraseGo (phrase repl : Str) : Nat → Option Char → Str → Str
  | 0, _, s => s
  | _ + 1, _, [] => []
  | fuel + 1, prev, c :: rest =>
    let boundaryOk : Bool := match prev with
      | none => true
      | some p => !pyWord p
    let tryTail : Option Str :=
      if boundaryOk then
        match stripCIPl phrase (c :: rest) with
        | none => none
        | some afterP =>
          match afterP with
          | [] => some afterP
          | d :: _ => if pyWord d then none else some afterP
      else none
    match tryTail with
    | some rest' => repl ++ subPhraseGo phrase repl fuel (phrase.getLast?) rest'
    | none => c :: subPhraseGo phrase repl fuel (some c) rest

def subPhrase (phrase repl s : Str) : Str :=
  subPhraseGo phrase repl s.length none s

/-- The collapse `re.sub(r"\s{2,}", " ", t)`. -/
def collapseWSGo : Nat → Str → Str
  | 0, s => s
  | _ + 1, [] => []
  | fuel + 1, c :: rest =>
    if pyWS c then
      if 2 ≤ ((c :: rest).takeWhile pyWS).length then
        ' ' :: collapseWSGo fuel ((c :: rest).dropWhile pyWS)
      else c :: collapseWSGo fuel rest
    else c :: collapseWSGo fuel rest

def collapseWS (s : Str) : Str := collapseWSGo s.length s

/-- Model of the source function:
```python
def postprocess_translation(text):
    t = text.strip()
    if not t:
        return t
    for kw in ("if", "else", "switch", "while", "for"):
        t = re.sub(rf"\b(?:stwierdzenie|oświadczenie)\s+{kw}\b",
                   f"instrukcja {kw}", t, flags=re.IGNORECASE)
        t = re.sub(rf"\b(?:stwierdzenia|oświadczenia)\s+{kw}\b",
                   f"instrukcje {kw}", t, flags=re.IGNORECASE)
    t = re.sub(r"\bnie żyje\b", "jest martwy", t, flags=re.IGNORECASE)
    t = re.sub(r"\bnie żyją\b", "są martwe", t, flags=re.IGNORECASE)
    t = re.sub(r"\s{2,}", " ", t)
    return t.strip()
```
-/
def postprocess_translation (text : Str) : Str :=
  let t := pyStrip text
  if t.isEmpty then t
  else
    let t := ["if", "else", "switch", "while", "for"].foldl (fun acc kw =>
      subKw "stwierdzenia".data "oświadczenia".data kw.data
        ("instrukcje ".data ++ kw.data)
        (subKw "stwierdzenie".data "oświadczenie".data kw.data
          ("instrukcja ".data ++ kw.data) acc)) t
    let t := subPhrase "nie żyje".data "jest martwy".data t
    let t := subPhrase "nie żyją".data "są martwe".data t
    let t := collapseWS t
    pyStrip t

/-! ## `translate_one` (comment driver)

```python
def translate_one(text, translator_en, translator_auto):
    last = text
    for translator in (translator_en, translator_auto):
        for attempt in range(4):
            try:
                cand = translator.translate(text)
                cand = postprocess_translation(cand)
                if not is_bad_translation(text, cand):
                    return cand
                last = cand
                break
            except Exception:
                time.sleep(1.0 * (attempt + 1))
    return postprocess_translation(last)
```

Under a deterministic backend the attempt loop either fails four times
(`none`) or succeeds on the first try, so it is modelled by a single call
per translator. The second component is the log of backend calls, one
entry (the list of submitted texts) per call. -/
def translate_one (text : Str) (fEn fAuto : Str → Option Str) :
    Str × List (List Str) :=
  match fEn text with
  | some cand0 =>
    let cand := postprocess_translation cand0
    if is_bad_translation text cand = false then (cand, [[text]])
    else
      match fAuto text with
      | some cand0' =>
        let cand' := postprocess_translation cand0'
        if is_bad_translation text cand' = false then (cand', [[text], [text]])
        else (postprocess_translation cand', [[text], [text]])
      | none => (postprocess_translation cand, [[text], [text]])
  | none =>
    match fAuto text with
    | some cand0' =>
      let cand' := postprocess_translation cand0'
      if is_bad_translation text cand' = false then (cand', [[text], [text]])
      else (postprocess_translation cand', [[text], [text]])
    | none => (postprocess_translation text, [[text], [text]])

/-! ## `translate_missing` -/

namespace Page

/-! Model of the source function:
```python
def translate_missing(texts, cache, translator):
    missing = [(i, t) for i, t in enumerate(texts) if t not in cache]
    if not missing:
        return
    batches = build_batches(missing)
    for batch in batches:
        idxs = [i for i, _ in batch]
        vals = [t for _, t in batch]
        translated_vals = None
        for attempt in range(5):
            try:
                translated_vals = translate_group_payload(translator, vals)
                if translated_vals is not None:
                    break
            except Exception:
                translated_vals = None
            time.sleep(1.2 * (attempt + 1))
        if translated_vals is None:
            translated_vals = []
            for t in vals:
                tr = None
                for attempt in range(5):
                    try:
                        tr = translator.translate(t)
                        break
                    except Exception:
                        time.sleep(1.2 * (attempt + 1))
                if tr is None:
                    tr = t
                translated_vals.append(tr)
        for i, tr in zip(idxs, translated_vals):
            cache[texts[i]] = tr
```

Retry loops collapse under the deterministic backend `f`. The result is
the updated cache together with the log of backend calls (each entry lists
the fragments submitted in that call). -/

/-- The body of the batch loop of `translate_missing`. -/
def tmStep (texts : List Str) (f : Str → Option Str)
    (acc : Cache × List (List Str)) (batch : List (Nat × Str)) :
    Cache × List (List Str) :=
  let idxs := batch.map (·.1)
  let vals := batch.map (·.2)
  match translate_group_payload f vals with
  | some (some out) =>
    (cacheUpdateZip texts acc.1 idxs out, acc.2 ++ [vals])
  | _ =>
    let outs := vals.map (fun t =>
      match f t with
      | some tr => tr
      | none => t)
    (cacheUpdateZip texts acc.1 idxs outs,
      acc.2 ++ [vals] ++ vals.map (fun t => [t]))

def translate_missing (texts : List Str) (cache : Cache)
    (f : Str → Option Str) : Cache × List (List Str) :=
  let missing := (enumL texts).filter (fun it => (lookupC cache it.2).isNone)
  if missing.isEmpty then (cache, [])
  else (build_batches missing).foldl (tmStep texts f) (cache, [])

end Page

namespace Cmts

/-! The comment driver's `translate_missing`: the group result is
post-processed and quality-checked per fragment, and bad fragments are
retried through `translate_one`; an unusable batch falls back to
`translate_one` per fragment. -/

/-- The per-fragment fix-up of a parsed group result: post-process and,
when the quality gate rejects, escalate through `translate_one`. -/
def fixVal (fEn fAuto : Str → Option Str) (sv : Str × Str) : Str :=
  let tr := postprocess_translation sv.2
  if is_bad_translation sv.1 tr then (translate_one sv.1 fEn fAuto).1 else tr

/-- The backend calls made by `fixVal` (none when the group result is
accepted as-is). -/
def fixValLog (fEn fAuto : Str → Option Str) (sv : Str × Str) :
    List (List Str) :=
  let tr := postprocess_translation sv.2
  if is_bad_translation sv.1 tr then (translate_one sv.1 fEn fAuto).2 else []

/-- The body of the batch loop of the comment driver's
`translate_missing`. -/
def tmStep (texts : List Str) (fAuto fEn : Str → Option Str)
    (acc : Cache × List (List Str)) (batch : List (Nat × Str)) :
    Cache × List (List Str) :=
  let idxs := batch.map (·.1)
  let vals := batch.map (·.2)
  match translate_group_payload fAuto vals with
  | some (some out) =>
    let fixed := (vals.zip out).map (fixVal fEn fAuto)
    let extra := (vals.zip out).foldl
      (fun lg sv => lg ++ fixValLog fEn fAuto sv) []
    (cacheUpdateZip texts acc.1 idxs fixed, acc.2 ++ [vals] ++ extra)
  | _ =>
    let outs := vals.map (fun t => (translate_one t fEn fAuto).1)
    let lg := vals.foldl (fun lg t => lg ++ (translate_one t fEn fAuto).2) []
    (cacheUpdateZip texts acc.1 idxs outs, acc.2 ++ [vals] ++ lg)

def translate_missing (texts : List Str) (cache : Cache)
    (fAuto fEn : Str → Option Str) : Cache × List (List Str) :=
  let missing := (enumL texts).filter (fun it => (lookupC cache it.2).isNone)
  if missing.isEmpty then (cache, [])
  else (build_batches missing).foldl (tmStep texts fAuto fEn) (cache, [])

end Cmts

/-! ## Claim C8 : cache consistency of `translate_missing` -/

theorem lookupC_insert_ne (c : Cache) (k v t : Str) (h : k ≠ t) :
    lookupC (insertC c k v) t = lookupC c t := by
  induction c with
  | nil => simp [insertC, lookupC, h]
  | cons e rest ih =>
    rw [insertC]
    by_cases he : e.1 = k
    · rw [if_pos he, lookupC, if_neg h, lookupC, if_neg (by rw [he]; exact h)]
    · rw [if_neg he, lookupC, lookupC]
      by_cases het : e.1 = t
      · rw [if_pos het, if_pos het]
      · rw [if_neg het, if_neg het, ih]

theorem cacheUpdateZip_pres (texts : List Str) :
    ∀ (idxs : List Nat) (trs : List Str) (c : Cache) (t : Str),
      (∀ i ∈ idxs, texts.getD i [] ≠ t) →
      lookupC (cacheUpdateZip texts c idxs trs) t = lookupC c t := by
  intro idxs
  induction idxs with
  | nil => intro trs c t _; cases trs <;> rfl
  | cons i is ih =>
    intro trs c t h
    cases trs with
    | nil => rfl
    | cons tr trs =>
      rw [cacheUpdateZip,
        ih trs _ t (fun j hj => h j (List.mem_cons_of_mem _ hj)),
        lookupC_insert_ne _ _ _ _ (h i (List.mem_cons_self _ _))]

theorem enumGo_spec : ∀ (l : List Str) (i : Nat) (el : Nat × Str),
    el ∈ enumGo i l → ∃ j, el.1 = i + j ∧ l.getD j [] = el.2 := by
  intro l
  induction l with
  | nil => intro i el h; simp [enumGo] at h
  | cons x xs ih =>
    intro i el h
    rw [enumGo] at h
    rcases List.mem_cons.1 h with rfl | h
    · exact ⟨0, by simp, rfl⟩
    · obtain ⟨j, hj1, hj2⟩ := ih (i + 1) el h
      exact ⟨j + 1, by omega, by simpa using hj2⟩

theorem enumGo_mem : ∀ (l : List Str) (i : Nat) (el : Nat × Str),
    el ∈ enumGo i l → el.2 ∈ l := by
  intro l
  induction l with
  | nil => intro i el h; simp [enumGo] at h
  | cons x xs ih =>
    intro i el h
    rw [enumGo] at h
    rcases List.mem_cons.1 h with rfl | h
    · exact List.mem_cons_self _ _
    · exact List.mem_cons_of_mem _ (ih (i + 1) el h)

theorem enumL_spec {l : List Str} {el : Nat × Str} (h : el ∈ enumL l) :
    l.getD el.1 [] = el.2 := by
  obtain ⟨j, hj1, hj2⟩ := enumGo_spec l 0 el h
  rw [hj1]
  simpa using hj2

theorem translate_one_log (x : Str) (fEn fAuto : Str → Option Str) :
    ∀ call ∈ (translate_one x fEn fAuto).2, call = [x] := by
  intro call hcall
  unfold translate_one at hcall
  have hshape : (translate_one x fEn fAuto).2 = [[x]] ∨
      (translate_one x fEn fAuto).2 = [[x], [x]] := by
    unfold translate_one
    rcases hEn : fEn x with _ | cand0
    · rcases hA : fAuto x with _ | c'
      · right; rfl
      · dsimp only
        split
        · right; rfl
        · right; rfl
    · dsimp only
      split
      · left; rfl
      · rcases hA : fAuto x with _ | c'
        · right; rfl
        · dsimp only
          split
          · right; rfl
          · right; rfl
  unfold translate_one at hshape
  rcases hshape with h | h <;> rw [h] at hcall <;>
    simp only [List.mem_cons, List.mem_singleton, List.not_mem_nil,
      or_false] at hcall
  · exact hcall
  · rcases hcall with rfl | rfl <;> rfl

theorem foldl_log {α : Type} (g : α → List (List Str)) :
    ∀ (l : List α) (init : List (List Str)) (call : List Str),
      call ∈ l.foldl (fun lg sv => lg ++ g sv) init →
      call ∈ init ∨ ∃ sv ∈ l, call ∈ g sv := by
  intro l
  induction l with
  | nil => intro init call h; exact Or.inl h
  | cons a l ih =>
    intro init call h
    rcases ih (init ++ g a) call h with h2 | ⟨sv, hsv, hc⟩
    · rcases List.mem_append.1 h2 with h3 | h3
      · exact Or.inl h3
      · exact Or.inr ⟨a, List.mem_cons_self _ _, h3⟩
    · exact Or.inr ⟨sv, List.mem_cons_of_mem _ hsv, hc⟩

theorem foldl_inv {α β : Type} (P : β → Prop) (g : β → α → β)
    (l : List α) (b : β) (hstep : ∀ x ∈ l, ∀ b', P b' → P (g b' x))
    (hb : P b) : P (l.foldl g b) := by
  induction l generalizing b with
  | nil => exact hb
  | cons a l ih =>
    exact ih (g b a) (fun x hx b' hb' => hstep x (List.mem_cons_of_mem _ hx) b' hb')
      (hstep a (List.mem_cons_self _ _) b hb)

/-- Invariant we track through the batch loop: the cached entry `t ↦ v`
is untouched and no logged backend call contains `t`. -/
def TMInv (t v : Str) (acc : Cache × List (List Str)) : Prop :=
  lookupC acc.1 t = some v ∧ ∀ call ∈ acc.2, t ∉ call

theorem Page.tmStep_pres (texts : List Str) (f : Str → Option Str)
    (t v : Str) (batch : List (Nat × Str))
    (hb : ∀ el ∈ batch, texts.getD el.1 [] ≠ t ∧ el.2 ≠ t)
    (acc : Cache × List (List Str)) (hinv : TMInv t v acc) :
    TMInv t v (Page.tmStep texts f acc batch) := by
  have hidx : ∀ i ∈ batch.map (·.1), texts.getD i [] ≠ t := by
    intro i hi
    obtain ⟨el, hel, rfl⟩ := List.mem_map.1 hi
    exact (hb el hel).1
  have hvals : ∀ x ∈ batch.map (·.2), x ≠ t := by
    intro x hx
    obtain ⟨el, hel, rfl⟩ := List.mem_map.1 hx
    exact (hb el hel).2
  have htv : t ∉ batch.map (·.2) := by
    intro hmem
    exact hvals t hmem rfl
  have hlogstep : ∀ (extra : List (List Str)),
      (∀ call ∈ extra, ∃ x ∈ batch.map (·.2), call = [x]) →
      ∀ call ∈ acc.2 ++ [batch.map (·.2)] ++ extra, t ∉ call := by
    intro extra hextra call hcall
    simp only [List.mem_append] at hcall
    rcases hcall with (hcall | hcall) | hcall
    · exact hinv.2 call hcall
    · simp only [List.mem_singleton] at hcall
      subst hcall
      exact htv
    · obtain ⟨x, hx, rfl⟩ := hextra call hcall
      simp only [List.mem_singleton]
      intro hteq
      exact hvals x hx hteq.symm
  unfold Page.tmStep
  dsimp only
  cases hg : translate_group_payload f (batch.map (·.2)) with
  | none =>
    dsimp only
    refine ⟨?_, ?_⟩
    · rw [cacheUpdateZip_pres texts _ _ _ _ hidx]
      exact hinv.1
    · refine hlogstep _ ?_
      intro call hcall
      obtain ⟨x, hx, rfl⟩ := List.mem_map.1 hcall
      exact ⟨x, hx, rfl⟩
  | some g =>
    cases g with
    | none =>
      dsimp only
      refine ⟨?_, ?_⟩
      · rw [cacheUpdateZip_pres texts _ _ _ _ hidx]
        exact hinv.1
      · refine hlogstep _ ?_
        intro call hcall
        obtain ⟨x, hx, rfl⟩ := List.mem_map.1 hcall
        exact ⟨x, hx, rfl⟩
    | some out =>
      dsimp only
      refine ⟨?_, ?_⟩
      · rw [cacheUpdateZip_pres texts _ _ _ _ hidx]
        exact hinv.1
      · have h0 : ∀ call ∈ ([] : List (List Str)),
            ∃ x ∈ batch.map (·.2), call = [x] := by
          intro call hcall
          simp at hcall
        have := hlogstep [] h0
        intro call hcall
        exact this call (by simpa using hcall)

theorem Cmts.cmtsStep_pres (texts : List Str) (fAuto fEn : Str → Option Str)
    (t v : Str) (batch : List (Nat × Str))
    (hb : ∀ el ∈ batch, texts.getD el.1 [] ≠ t ∧ el.2 ≠ t)
    (acc : Cache × List (List Str)) (hinv : TMInv t v acc) :
    TMInv t v (Cmts.tmStep texts fAuto fEn acc batch) := by
  have hidx : ∀ i ∈ batch.map (·.1), texts.getD i [] ≠ t := by
    intro i hi
    obtain ⟨el, hel, rfl⟩ := List.mem_map.1 hi
    exact (hb el hel).1
  have hvals : ∀ x ∈ batch.map (·.2), x ≠ t := by
    intro x hx
    obtain ⟨el, hel, rfl⟩ := List.mem_map.1 hx
    exact (hb el hel).2
  have htv : t ∉ batch.map (·.2) := by
    intro hmem
    exact hvals t hmem rfl
  have hlogstep : ∀ (extra : List (List Str)),
      (∀ call ∈ extra, ∃ x ∈ batch.map (·.2), call = [x]) →
      ∀ call ∈ acc.2 ++ [batch.map (·.2)] ++ extra, t ∉ call := by
    intro extra hextra call hcall
    simp only [List.mem_append] at hcall
    rcases hcall with (hcall | hcall) | hcall
    · exact hinv.2 call hcall
    · simp only [List.mem_singleton] at hcall
      subst hcall
      exact htv
    · obtain ⟨x, hx, rfl⟩ := hextra call hcall
      simp only [List.mem_singleton]
      intro hteq
      exact hvals x hx hteq.symm
  have hfallback : ∀ call ∈ (batch.map (·.2)).foldl
      (fun lg x => lg ++ (translate_one x fEn fAuto).2) [],
      ∃ x ∈ batch.map (·.2), call = [x] := by
    intro call hcall
    rcases foldl_log (fun x => (translate_one x fEn fAuto).2) _ _ _ hcall
      with h | ⟨x, hx, hc⟩
    · simp at h
    · exact ⟨x, hx, translate_one_log x fEn fAuto _ hc⟩
  unfold Cmts.tmStep
  dsimp only
  cases hg : translate_group_payload fAuto (batch.map (·.2)) with
  | none =>
    dsimp only
    refine ⟨?_, ?_⟩
    · rw [cacheUpdateZip_pres texts _ _ _ _ hidx]
      exact hinv.1
    · exact hlogstep _ hfallback
  | some g =>
    cases g with
    | none =>
      dsimp only
      refine ⟨?_, ?_⟩
      · rw [cacheUpdateZip_pres texts _ _ _ _ hidx]
        exact hinv.1
      · exact hlogstep _ hfallback
    | some out =>
      dsimp only
      refine ⟨?_, ?_⟩
      · rw [cacheUpdateZip_pres texts _ _ _ _ hidx]
        exact hinv.1
      · refine hlogstep _ ?_
        intro call hcall
        rcases foldl_log (fixValLog fEn fAuto) _ _ _ hcall
          with h | ⟨sv, hsv, hc⟩
        · simp at h
        · unfold fixValLog at hc
          dsimp only at hc
          split at hc
          · refine ⟨sv.1, ?_, translate_one_log sv.1 fEn fAuto _ hc⟩
            have hzip : (sv.1, sv.2) ∈ (batch.map (·.2)).zip out := by
              simpa using hsv
            exact (List.of_mem_zip hzip).1
          · simp at hc

theorem missing_spec (texts : List Str) (cache : Cache) {el : Nat × Str}
    (h : el ∈ (enumL texts).filter (fun it => (lookupC cache it.2).isNone)) :
    texts.getD el.1 [] = el.2 ∧ lookupC cache el.2 = none := by
  have h2 := List.mem_filter.1 h
  refine ⟨enumL_spec h2.1, ?_⟩
  have := h2.2
  simpa [Option.isNone_iff_eq_none] using this

/-- C8. For every text list and every cache, neither driver's
`translate_missing` makes a backend call for any text already present as a
key in the cache, and it leaves that entry's value unchanged; when every
text is cached, no call at all is made and the cache is untouched. -/
theorem C8_translate_missing_cached (texts : List Str) (cache : Cache)
    (f fAuto fEn : Str → Option Str) (t v : Str)
    (hc : lookupC cache t = some v) :
    (lookupC (Page.translate_missing texts cache f).1 t = some v ∧
      ∀ call ∈ (Page.translate_missing texts cache f).2, t ∉ call) ∧
    (lookupC (Cmts.translate_missing texts cache fAuto fEn).1 t = some v ∧
      ∀ call ∈ (Cmts.translate_missing texts cache fAuto fEn).2, t ∉ call) ∧
    ((∀ x ∈ texts, (lookupC cache x).isSome = true) →
      Page.translate_missing texts cache f = (cache, []) ∧
      Cmts.translate_missing texts cache fAuto fEn = (cache, [])) := by
  have hbatches : ∀ version : List (Nat × Str) → List (List (Nat × Str)),
      (∀ items, (version items).flatten = items) →
      ∀ b ∈ version ((enumL texts).filter
        (fun it => (lookupC cache it.2).isNone)),
      ∀ el ∈ b, texts.getD el.1 [] ≠ t ∧ el.2 ≠ t := by
    intro version hflat b hb el hel
    have hmem : el ∈ (enumL texts).filter
        (fun it => (lookupC cache it.2).isNone) := by
      rw [← hflat ((enumL texts).filter (fun it => (lookupC cache it.2).isNone))]
      exact List.mem_flatten.2 ⟨b, hb, hel⟩
    obtain ⟨hgd, hnone⟩ := missing_spec texts cache hmem
    have hne : el.2 ≠ t := by
      intro heq
      rw [heq, hc] at hnone
      exact Option.some_ne_none v hnone
    exact ⟨by rw [hgd]; exact hne, hne⟩
  refine ⟨?_, ?_, ?_⟩
  · unfold Page.translate_missing
    dsimp only
    split
    · exact ⟨hc, by intro call h; simp at h⟩
    · refine foldl_inv (TMInv t v) _ _ _ ?_ ⟨hc, by intro call h; simp at h⟩
      intro b hb acc hacc
      exact Page.tmStep_pres texts f t v b
        (hbatches (fun items => Page.build_batches items)
          (fun items => by
            dsimp only
            rw [Page.build_batches, Page.build_batches_go_join]
            rfl) b hb) acc hacc
  · unfold Cmts.translate_missing
    dsimp only
    split
    · exact ⟨hc, by intro call h; simp at h⟩
    · refine foldl_inv (TMInv t v) _ _ _ ?_ ⟨hc, by intro call h; simp at h⟩
      intro b hb acc hacc
      exact Cmts.cmtsStep_pres texts fAuto fEn t v b
        (hbatches (fun items => Cmts.build_batches items)
          (fun items => by
            dsimp only
            rw [Cmts.build_batches, Cmts.cb_go_join]
            rfl) b hb) acc hacc
  · intro hall
    have hmiss : (enumL texts).filter
        (fun it => (lookupC cache it.2).isNone) = [] := by
      rw [List.filter_eq_nil_iff]
      intro el hel
      have h2 : el.2 ∈ texts := enumGo_mem texts 0 el hel
      have h3 := hall el.2 h2
      simp only [Option.isNone_iff_eq_none]
      intro hnone
      rw [hnone] at h3
      simp at h3
    constructor
    · unfold Page.translate_missing
      dsimp only
      rw [hmiss]
      rfl
    · unfold Cmts.translate_missing
      dsimp only
      rw [hmiss]
      rfl

/-- Concrete instance of C8: with text "a" cached as "b", both drivers leave
the cache untouched and make no backend call mentioning "a". -/
theorem C8_witness :
    lookupC [(['a'], ['b'])] ['a'] = some ['b'] ∧
    ((lookupC (Page.translate_missing [['a']] [(['a'], ['b'])]
        (fun _ => none)).1 ['a'] = some ['b'] ∧
      ∀ call ∈ (Page.translate_missing [['a']] [(['a'], ['b'])]
        (fun _ => none)).2, ['a'] ∉ call) ∧
    (lookupC (Cmts.translate_missing [['a']] [(['a'], ['b'])]
        (fun _ => none) (fun _ => none)).1 ['a'] = some ['b'] ∧
      ∀ call ∈ (Cmts.translate_missing [['a']] [(['a'], ['b'])]
        (fun _ => none) (fun _ => none)).2, ['a'] ∉ call) ∧
    ((∀ x ∈ [['a']], (lookupC [(['a'], ['b'])] x).isSome = true) →
      Page.translate_missing [['a']] [(['a'], ['b'])] (fun _ => none) =
        ([(['a'], ['b'])], []) ∧
      Cmts.translate_missing [['a']] [(['a'], ['b'])]
        (fun _ => none) (fun _ => none) = ([(['a'], ['b'])], []))) :=
  ⟨by decide,
   C8_translate_missing_cached [['a']] [(['a'], ['b'])]
     (fun _ => none) (fun _ => none) (fun _ => none) ['a'] ['b'] (by decide)⟩

/-! ## Claim C1 : the scan phase of the page rewriter (`process_file`)

The page rewriter splits the document on `TAG_SPLIT_RE = (<[^>]+>)`, so parts
alternate text, tag, text, ...; odd indices are tag tokens.  The scan phase
maintains `skip_stack` over `SKIP_TAGS`, collects `text_entries` from text
tokens and `attr_entries` from tag tokens.  `html.unescape` is modelled by
`pyUnescape`, exact on inputs in which every ampersand starts one of the
references produced by `html.escape` (`&amp;` `&lt;` `&gt;` `&quot;` `&#x27;`
`&#39;`) or starts no recognised reference at all. -/

def SKIP_TAGS : List Str :=
  ["script", "style", "pre", "code", "textarea", "svg", "math"].map
    String.toList

def ATTRS_TO_TRANSLATE : List Str :=
  ["title", "alt", "placeholder"].map String.toList

/-- Model of `html.unescape` on the reference subset described above; the
fuel (one unit per consumed character) makes the recursion structural. -/
def pyUnescapeGo : Nat → Str → Str
  | 0, s => s
  | fuel + 1, s =>
    match s with
    | [] => []
    | c :: rest =>
      if c = '&' then
        if hasPfx ("amp;".toList) rest then '&' :: pyUnescapeGo fuel (rest.drop 4)
        else if hasPfx ("lt;".toList) rest then '<' :: pyUnescapeGo fuel (rest.drop 3)
        else if hasPfx ("gt;".toList) rest then '>' :: pyUnescapeGo fuel (rest.drop 3)
        else if hasPfx ("quot;".toList) rest then qD :: pyUnescapeGo fuel (rest.drop 5)
        else if hasPfx ("#x27;".toList) rest then qS :: pyUnescapeGo fuel (rest.drop 5)
        else if hasPfx ("#39;".toList) rest then qS :: pyUnescapeGo fuel (rest.drop 4)
        else '&' :: pyUnescapeGo fuel rest
      else c :: pyUnescapeGo fuel rest

def pyUnescape (s : Str) : Str := pyUnescapeGo s.length s

/-- Characters matched by the tag-name class `[a-zA-Z0-9:_-]` of
`START_TAG_RE` and `END_TAG_RE`. -/
def isNameChar (c : Char) : Bool :=
  isAsciiLetterB c || isAsciiDigitB c || c = ':' || c = '_' || c = '-'

/-- Word-character test of an optional character, with out-of-string
counting as a non-word position (the convention of the backslash-b
assertion). -/
def isWOpt : Option Char → Bool
  | some c => pyWord c
  | none => false

/-- Length matched by the name group of `START_TAG_RE` / `END_TAG_RE`: the
greedy `[a-zA-Z0-9:_-]+` backtracks against the trailing word boundary, so
the match keeps the longest nonempty count `p` of name characters such that
a word boundary holds between the p-th character and the next one (`nxt` is
the character right after the full name run). -/
def bdryLen (run : Str) (nxt : Option Char) : Option Nat :=
  (List.range run.length).reverse.findSome? (fun q =>
    let left := pyWord (run.getD q ' ')
    let right :=
      if q + 1 < run.length then isWOpt (some (run.getD (q + 1) ' '))
      else isWOpt nxt
    if left != right then some (q + 1) else none)

/-- Model of the source function:
```python
def parse_tag_name(token):
    if token.startswith("<!--") or token.startswith("<!") or token.startswith("<?"):
        return None, None
    m_end = END_TAG_RE.match(token)
    if m_end:
        return "end", m_end.group(1).lower()
    m_start = START_TAG_RE.match(token)
    if m_start:
        return "start", m_start.group(1).lower()
    return None, None
```
with `END_TAG_RE` tried first; the result pairs `true` for an end tag and
`false` for a start tag with the lowercased name. -/
def parse_tag_name (token : Str) : Option (Bool × Str) :=
  if hasPfx ("<!--".toList) token then none
  else if hasPfx ("<!".toList) token then none
  else if hasPfx ("<?".toList) token then none
  else
    match token with
    | '<' :: rest =>
      let afterLt := rest.dropWhile pyWS
      let tryEnd : Option (Bool × Str) :=
        match afterLt with
        | '/' :: r2 =>
          let r3 := r2.dropWhile pyWS
          let run := r3.takeWhile isNameChar
          let rem := r3.dropWhile isNameChar
          match bdryLen run rem.head? with
          | some p => some (true, (run.take p).map toLowerA)
          | none => none
        | _ => none
      match tryEnd with
      | some r => some r
      | none =>
        let run := afterLt.takeWhile isNameChar
        let rem := afterLt.dropWhile isNameChar
        match bdryLen run rem.head? with
        | some p => some (false, (run.take p).map toLowerA)
        | none => none
    | _ => none

/-- Test for `token.rstrip().endswith("/>")`. -/
def endsSlashGt (token : Str) : Bool :=
  hasPfx ['>', '/'] (token.reverse.dropWhile pyWS)

/-- Case-insensitive match of one of the `ATTR_RE` keywords at the start of
`s`, returning the raw matched characters and the remainder. -/
def matchKw (s : Str) : Option (Str × Str) :=
  if hasPfxCI ("title".toList) s then some (s.take 5, s.drop 5)
  else if hasPfxCI ("alt".toList) s then some (s.take 3, s.drop 3)
  else if hasPfxCI ("placeholder".toList) s then some (s.take 11, s.drop 11)
  else none

/-- One attempted `ATTR_RE` match at the current position, `prev` being the
character just before it (for the leading word boundary).  On success the
result is (prefix group, offset of the value group relative to the match
start, raw value, closing quote character, remainder after the match). -/
def tryAttrAt (prev : Option Char) (s : Str) :
    Option (Str × Nat × Str × Char × Str) :=
  if isWOpt prev then none
  else
    match matchKw s with
    | none => none
    | some (kwRaw, r1) =>
      let ws1 := r1.takeWhile pyWS
      let r2 := r1.dropWhile pyWS
      match r2 with
      | '=' :: r3 =>
        let ws2 := r3.takeWhile pyWS
        let r4 := r3.dropWhile pyWS
        match r4 with
        | q :: r5 =>
          if q = qD || q = qS then
            let v := r5.takeWhile (fun c => c ≠ q)
            let r6 := r5.dropWhile (fun c => c ≠ q)
            match r6 with
            | _ :: r7 =>
              let pfx := kwRaw ++ ws1 ++ '=' :: ws2
              some (pfx, pfx.length + 1, v, q, r7)
            | [] => none
          else none
        | [] => none
      | _ => none

/-- Model of `ATTR_RE.finditer`: leftmost non-overlapping matches, resuming
after each match; `pos` is the absolute offset of `s` in the token.  Each
result is (prefix group, start of value group, end of value group, raw
value). -/
def attrIterGo : Nat → Option Char → Str → Nat → List (Str × Nat × Nat × Str)
  | 0, _, _, _ => []
  | fuel + 1, prev, s, pos =>
    match tryAttrAt prev s with
    | some (pfx, rel, v, q, rest) =>
      (pfx, pos + rel, pos + rel + v.length, v) ::
        attrIterGo fuel (some q) rest (pos + rel + v.length + 1)
    | none =>
      match s with
      | [] => []
      | c :: rest => attrIterGo fuel (some c) rest (pos + 1)

def attrFinds (token : Str) : List (Str × Nat × Nat × Str) :=
  attrIterGo (token.length + 1) none token 0

/-- The attribute name extracted from the prefix group:
`m.group("prefix").split("=")[0].strip().lower()`. -/
def attrNameOf (pfx : Str) : Str :=
  (pyStrip (pfx.takeWhile (fun c => c ≠ '='))).map toLowerA

/-- The attribute entries collected from one tag token: allow-listed name,
unescaped value passing `should_translate`; each entry is
(part index, value start, value end, raw value, unescaped value). -/
def attrEntriesOf (idx : Nat) (token : Str) :
    List (Nat × Nat × Nat × Str × Str) :=
  (attrFinds token).filterMap (fun m =>
    let name := attrNameOf m.1
    if ATTRS_TO_TRANSLATE.contains name then
      let raw := m.2.2.2
      let val := pyUnescape raw
      if should_translate val then
        some (idx, m.2.1, m.2.2.1, raw, val)
      else none
    else none)

/-- Scanner state of `process_file`: the skip stack (top first), the text
entries and the attribute entries. -/
def ScanSt : Type :=
  List Str × List (Nat × Str × Str × Str) × List (Nat × Nat × Nat × Str × Str)

/-- The skip-stack update performed on a tag token: a start tag in
`SKIP_TAGS` that is not self-closing is pushed; an end tag matching the top
of the stack pops it. -/
def stackUpd (stack : List Str) (token : Str) : List Str :=
  match parse_tag_name token with
  | some (false, nm) =>
    if SKIP_TAGS.contains nm && !endsSlashGt token then nm :: stack else stack
  | some (true, nm) =>
    match stack with
    | top :: rest => if nm = top then rest else stack
    | [] => stack
  | none => stack

/-- Processing of one tag token (odd part index): update the stack, then
scan attributes only when the updated stack is empty
(`if not skip_stack:`). -/
def scanTag (st : ScanSt) (idx : Nat) (token : Str) : ScanSt :=
  let stack2 := stackUpd st.1 token
  (stack2, st.2.1,
    if stack2 = [] then st.2.2 ++ attrEntriesOf idx token else st.2.2)

/-- Processing of one text token (even part index): skipped outright when
the stack is nonempty; otherwise the unescaped text must pass
`should_translate`, and after `split_ws` its core must pass again. -/
def scanText (st : ScanSt) (idx : Nat) (token : Str) : ScanSt :=
  if st.1 = [] then
    if should_translate (pyUnescape token) then
      let decoded := pyUnescape token
      let lead := (split_ws decoded).1
      let core := (split_ws decoded).2.1
      let trail := (split_ws decoded).2.2
      if should_translate core then
        (st.1, st.2.1 ++ [(idx, lead, core, trail)], st.2.2)
      else st
    else st
  else st

/-- One step of the scan loop of `process_file`: odd indices are tag
tokens, even indices text tokens. -/
def scanStep (st : ScanSt) (it : Nat × Str) : ScanSt :=
  if it.1 % 2 = 1 then scanTag st it.1 it.2 else scanText st it.1 it.2

def scan_parts (parts : List Str) : ScanSt :=
  (enumL parts).foldl scanStep ([], [], [])

/-- Earliest match of `TAG_SPLIT_RE = <[^>]+>`: the first `<` that is
followed by at least one non-`>` character and then a `>`; returns the text
before the match, the matched tag, and the remainder. -/
def findTagFrom : Str → Option (Str × Str × Str)
  | [] => none
  | c :: rest =>
    if c = '<' then
      let body := rest.takeWhile (fun d => d ≠ '>')
      let rem := rest.dropWhile (fun d => d ≠ '>')
      match rem with
      | _ :: tail =>
        if body = [] then
          match findTagFrom rest with
          | some (b, t, a) => some (c :: b, t, a)
          | none => none
        else some ([], c :: body ++ ['>'], tail)
      | [] => none
    else
      match findTagFrom rest with
      | some (b, t, a) => some (c :: b, t, a)
      | none => none

/-- Model of `TAG_SPLIT_RE.split` with a capturing group: alternating text
and tag parts, starting and ending with a (possibly empty) text part. -/
def tagSplitGo : Nat → Str → List Str
  | 0, s => [s]
  | fuel + 1, s =>
    match findTagFrom s with
    | none => [s]
    | some (b, t, a) => b :: t :: tagSplitGo fuel a

def tagSplit (s : Str) : List Str := tagSplitGo s.length s

/-- The scan phase of `process_file` on a whole document. -/
def process_file_scan (original : Str) : ScanSt :=
  scan_parts (tagSplit original)

/-- Claim C1, counterexample.  In `<pre><img title="nice dog"></pre>` the
`img` tag token is processed while the skip stack holds `pre`, and the
guard `if not skip_stack:` skips attribute scanning entirely, so no
attribute entry is collected; the same tag outside the `pre` element yields
one.  This refutes the claim that an allow-listed attribute value is
eligible regardless of the state of the skip stack. -/
theorem C1_counterexample :
    (process_file_scan ("<pre><img title=\"nice dog\"></pre>".toList)).2.2
      = [] ∧
    (process_file_scan ("<img title=\"nice dog\">".toList)).2.2 ≠ [] := by
  constructor
  · rfl
  · decide

/-- Claim C1, amended.  On a tag token, attribute scanning happens only
when the skip stack is empty after that token's own push/pop update: with a
nonempty updated stack the attribute entries are unchanged, and with an
empty updated stack the token's allow-listed attribute matches are
appended.  A text token is a candidate only when the stack is empty: with a
nonempty stack the text step leaves the state unchanged. -/
theorem C1_attr_scan_amended (st : ScanSt) (idx : Nat) (token : Str) :
    ((scanTag st idx token).1 ≠ [] → (scanTag st idx token).2.2 = st.2.2) ∧
    ((scanTag st idx token).1 = [] →
      (scanTag st idx token).2.2 = st.2.2 ++ attrEntriesOf idx token) ∧
    (st.1 ≠ [] → scanText st idx token = st) := by
  refine ⟨?_, ?_, ?_⟩
  · intro h
    unfold scanTag at h ⊢
    dsimp only at h ⊢
    rw [if_neg h]
  · intro h
    unfold scanTag at h ⊢
    dsimp only at h ⊢
    rw [if_pos h]
  · intro h
    unfold scanText
    rw [if_neg h]

/-- Concrete instance of C1 (amended): with `pre` on the stack, processing
the `img` tag token leaves the attribute entries empty, and the text step
leaves the state unchanged. -/
theorem C1_witness :
    (scanTag ([['p', 'r', 'e']], [], []) 3
      ("<img title=\"nice dog\">".toList)).2.2
      = ([] : List (Nat × Nat × Nat × Str × Str)) ∧
    scanText ([['p', 'r', 'e']], [], []) 0
      ("<img title=\"nice dog\">".toList)
      = (([['p', 'r', 'e']], [], []) : ScanSt) := by
  constructor
  · exact (C1_attr_scan_amended ([['p', 'r', 'e']], [], []) 3
      ("<img title=\"nice dog\">".toList)).1 (by decide)
  · exact (C1_attr_scan_amended ([['p', 'r', 'e']], [], []) 0
      ("<img title=\"nice dog\">".toList)).2.2 (by decide)

/-! ## Claim C6 : `find_comment_spans`

The comment scanner of the comment driver walks the code with a position
`i` and a state (normal / inside a double-quoted literal / inside a
single-quoted literal).  The model is translated verbatim from the source;
in addition to the span list it threads a ghost list of the positions
consumed while the scanner is in one of the two quote states (the interior
and closing quote of each recognised literal).  `find_comment_spans` is the
span component; the ghost component is only used to state that no span
starts inside a quoted literal.  A span is (start, end, is-block) with
`false` for a `//` line comment and `true` for a `/* */` block comment. -/

inductive SState
  | normal
  | dquote
  | squote
deriving DecidableEq

abbrev Span : Type := Nat × Nat × Bool

/-- Model of the source function:
```python
def find_comment_spans(code):
    spans = []
    i = 0
    n = len(code)
    state = "normal"
    while i < n:
        ch = code[i]
        if state == "normal":
            if i + 1 < n and code[i : i + 2] == "//": ...line span...
            if i + 1 < n and code[i : i + 2] == "/*": ...block span...
            if ch == '"': state = "dquote"; i += 1; continue
            if ch == "'": state = "squote"; i += 1; continue
            if ch == "R" and i + 1 < n and code[i + 1] == '"': ...raw string...
            i += 1
        elif state == "dquote": ...escape / closing quote...
        elif state == "squote": ...escape / closing quote...
    return spans
```
with one fuel unit per loop iteration (every iteration strictly increases
`i`, so `code.length + 1` units suffice). -/
def fcsGo (code : Str) : Nat → Nat → SState → List Span → List Nat →
    List Span × List Nat
  | 0, _, _, spans, quoted => (spans, quoted)
  | fuel + 1, i, st, spans, quoted =>
    let n := code.length
    if i < n then
      match st with
      | .normal =>
        if i + 1 < n ∧ hasPfx ("//".toList) (code.drop i) = true then
          let start := i + 2
          let j := start + ((code.drop start).takeWhile
            (fun c => !(c = '\r' || c = '\n'))).length
          fcsGo code fuel j .normal (spans ++ [(start, j, false)]) quoted
        else if i + 1 < n ∧ hasPfx ("/*".toList) (code.drop i) = true then
          let start := i + 2
          match findSubFrom code ("*/".toList) start with
          | none => fcsGo code fuel n .normal (spans ++ [(start, n, true)]) quoted
          | some j =>
            fcsGo code fuel (j + 2) .normal (spans ++ [(start, j, true)]) quoted
        else if code.getD i ' ' = qD then
          fcsGo code fuel (i + 1) .dquote spans quoted
        else if code.getD i ' ' = qS then
          fcsGo code fuel (i + 1) .squote spans quoted
        else if code.getD i ' ' = 'R' ∧ i + 1 < n ∧ code.getD (i + 1) ' ' = qD then
          let dstart := i + 2
          match findSubFrom code ['('] dstart with
          | some op =>
            let delim := (code.drop dstart).take (op - dstart)
            let closePat := ')' :: delim ++ [qD]
            match findSubFrom code closePat (op + 1) with
            | some ci => fcsGo code fuel (ci + closePat.length) .normal spans quoted
            | none => fcsGo code fuel (i + 1) .normal spans quoted
          | none => fcsGo code fuel (i + 1) .normal spans quoted
        else fcsGo code fuel (i + 1) .normal spans quoted
      | .dquote =>
        if code.getD i ' ' = bsl ∧ i + 1 < n then
          fcsGo code fuel (i + 2) .dquote spans (quoted ++ [i, i + 1])
        else if code.getD i ' ' = qD then
          fcsGo code fuel (i + 1) .normal spans (quoted ++ [i])
        else fcsGo code fuel (i + 1) .dquote spans (quoted ++ [i])
      | .squote =>
        if code.getD i ' ' = bsl ∧ i + 1 < n then
          fcsGo code fuel (i + 2) .squote spans (quoted ++ [i, i + 1])
        else if code.getD i ' ' = qS then
          fcsGo code fuel (i + 1) .normal spans (quoted ++ [i])
        else fcsGo code fuel (i + 1) .squote spans (quoted ++ [i])
    else (spans, quoted)

def find_comment_spans (code : Str) : List Span :=
  (fcsGo code (code.length + 1) 0 .normal [] []).1

/-- The ghost component: positions the scanner consumed while inside a
double- or single-quoted literal. -/
def quotedPositions (code : Str) : List Nat :=
  (fcsGo code (code.length + 1) 0 .normal [] []).2

/-- Well-formedness of one produced span: it lies inside the code, its
opening delimiter (`//` or `/*` according to its kind) sits immediately
before its start, and its end is the end of the code or sits immediately
before the closing newline (line) or `*/` (block). -/
def spanWF (code : Str) (sp : Span) : Prop :=
  2 ≤ sp.1 ∧ sp.1 ≤ sp.2.1 ∧ sp.2.1 ≤ code.length ∧
  (if sp.2.2 then
    hasPfx ("/*".toList) (code.drop (sp.1 - 2)) = true ∧
    (sp.2.1 = code.length ∨ hasPfx ("*/".toList) (code.drop sp.2.1) = true)
  else
    hasPfx ("//".toList) (code.drop (sp.1 - 2)) = true ∧
    (sp.2.1 = code.length ∨ (code.drop sp.2.1).head? = some '\r' ∨
      (code.drop sp.2.1).head? = some '\n'))

/-- Separation of two consecutive spans: the closing of the first and the
opening delimiter of the second leave a gap of at least two characters. -/
def sepSpan (a b : Span) : Prop := a.2.1 + 2 ≤ b.1

def lastEndLe (spans : List Span) (i : Nat) : Prop :=
  ∀ sp ∈ spans.getLast?, sp.2.1 ≤ i

/-- The loop invariant of the comment scanner: spans are well formed,
separated, end before the cursor, quoted positions are before the cursor,
no span starts at a quoted position, span starts are at most the cursor
(strictly before it while inside a literal). -/
def FcsInv (code : Str) (i : Nat) (st : SState) (spans : List Span)
    (quoted : List Nat) : Prop :=
  (∀ sp ∈ spans, spanWF code sp) ∧
  List.Chain' sepSpan spans ∧
  lastEndLe spans i ∧
  (∀ q ∈ quoted, q < i) ∧
  (∀ sp ∈ spans, sp.1 ∉ quoted) ∧
  (∀ sp ∈ spans, sp.1 ≤ i) ∧
  (st ≠ SState.normal → ∀ sp ∈ spans, sp.1 < i)

theorem findSubIdx_occurs (pat : Str) :
    ∀ (s : Str) (j : Nat), findSubIdx pat s = some j →
      hasPfx pat (s.drop j) = true := by
  intro s
  induction s with
  | nil =>
    intro j h
    unfold findSubIdx at h
    split at h
    · rename_i hp
      simp only [Option.some.injEq] at h
      subst h
      rw [List.isEmpty_iff] at hp
      subst hp
      rfl
    · simp at h
  | cons c cs ih =>
    intro j h
    unfold findSubIdx at h
    split at h
    · rename_i hp
      simp only [Option.some.injEq] at h
      subst h
      exact hp
    · rcases hx : findSubIdx pat cs with _ | k
      · rw [hx] at h
        simp at h
      · rw [hx] at h
        have hj : k + 1 = j := by
          have := Option.some.inj h
          simpa using this
        subst hj
        have := ih k hx
        simpa using this

theorem findSubFrom_occurs (s pat : Str) (st j : Nat)
    (h : findSubFrom s pat st = some j) :
    st ≤ j ∧ hasPfx pat (s.drop j) = true := by
  unfold findSubFrom at h
  rcases hx : findSubIdx pat (s.drop st) with _ | k
  · rw [hx] at h
    simp at h
  · rw [hx] at h
    have hj : k + st = j := by
      have := Option.some.inj h
      simpa using this
    subst hj
    refine ⟨Nat.le_add_left st k, ?_⟩
    have := findSubIdx_occurs pat (s.drop st) k hx
    rw [List.drop_drop] at this
    rwa [Nat.add_comm] at this

theorem hasPfx_length {pat s : Str} (h : hasPfx pat s = true) :
    pat.length ≤ s.length := by
  exact (hasPfx_iff.1 h).length_le

theorem getLast?_app_one {α} (a : α) (l : List α) :
    (l ++ [a]).getLast? = some a := List.getLast?_concat l

theorem FcsInv_append (code : Str) {i : Nat} {st : SState}
    {spans : List Span} {quoted : List Nat}
    (h : FcsInv code i st spans quoted) (sp : Span) (i' : Nat)
    (hwf : spanWF code sp) (hs : sp.1 = i + 2) (he : sp.2.1 ≤ i')
    (hii : i ≤ i') :
    FcsInv code i' SState.normal (spans ++ [sp]) quoted := by
  obtain ⟨hwfs, hch, hle, hq, hnq, hsi, _⟩ := h
  have hstart_le : sp.1 ≤ i' := le_trans hwf.2.1 he
  refine ⟨?_, ?_, ?_, ?_, ?_, ?_, ?_⟩
  · intro x hx
    rcases List.mem_append.1 hx with hx | hx
    · exact hwfs x hx
    · rw [List.mem_singleton] at hx
      subst hx
      exact hwf
  · rw [List.chain'_append]
    refine ⟨hch, List.chain'_singleton _, ?_⟩
    intro x hx y hy
    simp only [List.head?_cons, Option.mem_def, Option.some.injEq] at hy
    subst hy
    have := hle x hx
    unfold sepSpan
    omega
  · intro x hx
    rw [getLast?_app_one] at hx
    simp only [Option.mem_def, Option.some.injEq] at hx
    subst hx
    exact he
  · intro q hq2
    exact lt_of_lt_of_le (hq q hq2) hii
  · intro x hx
    rcases List.mem_append.1 hx with hx | hx
    · exact hnq x hx
    · rw [List.mem_singleton] at hx
      subst hx
      intro hmem
      have := hq _ hmem
      omega
  · intro x hx
    rcases List.mem_append.1 hx with hx | hx
    · exact le_trans (hsi x hx) hii
    · rw [List.mem_singleton] at hx
      subst hx
      exact hstart_le
  · intro hne
    exact absurd rfl hne

theorem FcsInv_adv (code : Str) {i : Nat} {st : SState} {spans : List Span}
    {quoted : List Nat} (h : FcsInv code i st spans quoted) (i' : Nat)
    (hii : i < i') (st' : SState) :
    FcsInv code i' st' spans quoted := by
  obtain ⟨hwfs, hch, hle, hq, hnq, hsi, _⟩ := h
  refine ⟨hwfs, hch, ?_, ?_, hnq, ?_, ?_⟩
  · intro x hx
    exact le_trans (hle x hx) (le_of_lt hii)
  · intro q hq2
    exact lt_trans (hq q hq2) hii
  · intro x hx
    exact le_trans (hsi x hx) (le_of_lt hii)
  · intro _ x hx
    exact lt_of_le_of_lt (hsi x hx) hii

theorem FcsInv_qext (code : Str) {i : Nat} {st : SState} {spans : List Span}
    {quoted : List Nat} (h : FcsInv code i st spans quoted)
    (hst : st ≠ SState.normal) (news : List Nat) (i' : Nat)
    (hlow : ∀ q ∈ news, i ≤ q) (hhigh : ∀ q ∈ news, q < i')
    (hii : i < i') (st' : SState) :
    FcsInv code i' st' spans (quoted ++ news) := by
  obtain ⟨hwfs, hch, hle, hq, hnq, hsi, hstrict⟩ := h
  have hstr := hstrict hst
  refine ⟨hwfs, hch, ?_, ?_, ?_, ?_, ?_⟩
  · intro x hx
    exact le_trans (hle x hx) (le_of_lt hii)
  · intro q hq2
    rcases List.mem_append.1 hq2 with hh | hh
    · exact lt_trans (hq q hh) hii
    · exact hhigh q hh
  · intro x hx hmem
    rcases List.mem_append.1 hmem with hh | hh
    · exact hnq x hx hh
    · have h1 := hstr x hx
      have h2 := hlow _ hh
      omega
  · intro x hx
    exact le_trans (hsi x hx) (le_of_lt hii)
  · intro _ x hx
    exact lt_of_le_of_lt (hsi x hx) hii

theorem drop_takeWhile_len {α} (p : α → Bool) :
    ∀ (l : List α), l.drop (l.takeWhile p).length = l.dropWhile p := by
  intro l
  induction l with
  | nil => rfl
  | cons a l ih =>
    by_cases hp : p a
    · rw [List.takeWhile_cons_of_pos hp, List.dropWhile_cons_of_pos hp,
        List.length_cons, List.drop_succ_cons]
      exact ih
    · rw [List.takeWhile_cons_of_neg hp, List.dropWhile_cons_of_neg hp]
      simp

theorem lineSpanWF (code : Str) (i : Nat) (h1 : i + 1 < code.length)
    (h2 : hasPfx ("//".toList) (code.drop i) = true) :
    spanWF code (i + 2,
      i + 2 + ((code.drop (i + 2)).takeWhile
        (fun c => !(c = '\r' || c = '\n'))).length, false) := by
  have hlen : (code.drop (i + 2)).length = code.length - (i + 2) :=
    List.length_drop _ _
  have htwle : ((code.drop (i + 2)).takeWhile
      (fun c => !(c = '\r' || c = '\n'))).length ≤ (code.drop (i + 2)).length :=
    (List.takeWhile_sublist _).length_le
  have hkey : code.drop (i + 2 + ((code.drop (i + 2)).takeWhile
      (fun c => !(c = '\r' || c = '\n'))).length)
      = (code.drop (i + 2)).dropWhile (fun c => !(c = '\r' || c = '\n')) := by
    have hdd : ((code.drop (i + 2)).drop (((code.drop (i + 2)).takeWhile
        (fun c => !(c = '\r' || c = '\n'))).length))
        = code.drop (i + 2 + ((code.drop (i + 2)).takeWhile
          (fun c => !(c = '\r' || c = '\n'))).length) := by
      rw [List.drop_drop]
    rw [← hdd, drop_takeWhile_len]
  unfold spanWF
  dsimp only
  refine ⟨by omega, by omega, by omega, ?_⟩
  rw [if_neg (by simp)]
  refine ⟨?_, ?_⟩
  · rw [Nat.add_sub_cancel]
    exact h2
  · rcases hcase : (code.drop (i + 2)).dropWhile
        (fun c => !(c = '\r' || c = '\n')) with _ | ⟨c, rest⟩
    · left
      have hnil : code.drop (i + 2 + ((code.drop (i + 2)).takeWhile
          (fun c => !(c = '\r' || c = '\n'))).length) = [] := by
        rw [hkey, hcase]
      have := List.drop_eq_nil_iff.1 hnil
      omega
    · right
      have hhead : (code.drop (i + 2 + ((code.drop (i + 2)).takeWhile
          (fun c => !(c = '\r' || c = '\n'))).length)).head? = some c := by
        rw [hkey, hcase]
        rfl
      have hc : (!(c = '\r' || c = '\n')) = false := by
        apply dropWhile_head_not (fun c => !(c = '\r' || c = '\n'))
          (code.drop (i + 2))
        rw [hcase]
        rfl
      have hc2 : c = '\r' ∨ c = '\n' := by
        have himp : ¬c = '\r' → c = '\n' := by simpa using hc
        by_cases hr : c = '\r'
        · exact Or.inl hr
        · exact Or.inr (himp hr)
      rcases hc2 with hc2 | hc2
      · left
        rw [hhead, hc2]
      · right
        rw [hhead, hc2]

theorem fcsGo_inv (code : Str) : ∀ (fuel i : Nat) (st : SState)
    (spans : List Span) (quoted : List Nat),
    FcsInv code i st spans quoted →
    (∀ sp ∈ (fcsGo code fuel i st spans quoted).1, spanWF code sp) ∧
    List.Chain' sepSpan (fcsGo code fuel i st spans quoted).1 ∧
    (∀ sp ∈ (fcsGo code fuel i st spans quoted).1,
      sp.1 ∉ (fcsGo code fuel i st spans quoted).2) := by
  intro fuel
  induction fuel with
  | zero =>
    intro i st spans quoted h
    exact ⟨h.1, h.2.1, h.2.2.2.2.1⟩
  | succ fuel ih =>
    intro i st spans quoted h
    cases st with
    | normal =>
      simp only [fcsGo]
      split
      · rename_i hin
        split
        · rename_i h1
          exact ih _ _ _ _ (FcsInv_append code h _ _
            (lineSpanWF code i h1.1 h1.2) rfl (le_refl _) (by omega))
        · rename_i h1
          split
          · rename_i h2
            split
            · rename_i hfind
              refine ih _ _ _ _ (FcsInv_append code h _ _ ?_ rfl
                (le_refl _) (by omega))
              unfold spanWF
              dsimp only
              refine ⟨by omega, by omega, le_refl _, ?_⟩
              rw [if_pos rfl]
              exact ⟨by rw [Nat.add_sub_cancel]; exact h2.2, Or.inl rfl⟩
            · rename_i j hfind
              obtain ⟨hj1, hj2⟩ := findSubFrom_occurs code _ _ _ hfind
              have hj3 : (2 : Nat) ≤ (code.drop j).length := by
                have := hasPfx_length hj2
                simpa using this
              have hj4 : (code.drop j).length = code.length - j :=
                List.length_drop _ _
              refine ih _ _ _ _ (FcsInv_append code h _ _ ?_ rfl
                (by dsimp only; omega) (by omega))
              unfold spanWF
              dsimp only
              refine ⟨by omega, by omega, by omega, ?_⟩
              rw [if_pos rfl]
              exact ⟨by rw [Nat.add_sub_cancel]; exact h2.2, Or.inr hj2⟩
          · rename_i h2
            split
            · rename_i h3
              exact ih _ _ _ _ (FcsInv_adv code h (i + 1) (by omega) _)
            · rename_i h3
              split
              · rename_i h4
                exact ih _ _ _ _ (FcsInv_adv code h (i + 1) (by omega) _)
              · rename_i h4
                split
                · rename_i h5
                  split
                  · rename_i op hop
                    split
                    · rename_i ci hci
                      obtain ⟨hop1, _⟩ := findSubFrom_occurs code _ _ _ hop
                      obtain ⟨hci1, _⟩ := findSubFrom_occurs code _ _ _ hci
                      exact ih _ _ _ _ (FcsInv_adv code h _ (by omega) _)
                    · rename_i hci
                      exact ih _ _ _ _ (FcsInv_adv code h (i + 1) (by omega) _)
                  · rename_i hop
                    exact ih _ _ _ _ (FcsInv_adv code h (i + 1) (by omega) _)
                · rename_i h5
                  exact ih _ _ _ _ (FcsInv_adv code h (i + 1) (by omega) _)
      · exact ⟨h.1, h.2.1, h.2.2.2.2.1⟩
    | dquote =>
      simp only [fcsGo]
      split
      · rename_i hin
        split
        · rename_i h1
          refine ih _ _ _ _ (FcsInv_qext code h (by decide) [i, i + 1] (i + 2)
            ?_ ?_ (by omega) _)
          · intro q hq
            simp at hq
            rcases hq with rfl | rfl <;> omega
          · intro q hq
            simp at hq
            rcases hq with rfl | rfl <;> omega
        · rename_i h1
          split
          · rename_i h2
            refine ih _ _ _ _ (FcsInv_qext code h (by decide) [i] (i + 1)
              ?_ ?_ (by omega) _)
            · intro q hq
              simp at hq
              omega
            · intro q hq
              simp at hq
              omega
          · rename_i h2
            refine ih _ _ _ _ (FcsInv_qext code h (by decide) [i] (i + 1)
              ?_ ?_ (by omega) _)
            · intro q hq
              simp at hq
              omega
            · intro q hq
              simp at hq
              omega
      · exact ⟨h.1, h.2.1, h.2.2.2.2.1⟩
    | squote =>
      simp only [fcsGo]
      split
      · rename_i hin
        split
        · rename_i h1
          refine ih _ _ _ _ (FcsInv_qext code h (by decide) [i, i + 1] (i + 2)
            ?_ ?_ (by omega) _)
          · intro q hq
            simp at hq
            rcases hq with rfl | rfl <;> omega
          · intro q hq
            simp at hq
            rcases hq with rfl | rfl <;> omega
        · rename_i h1
          split
          · rename_i h2
            refine ih _ _ _ _ (FcsInv_qext code h (by decide) [i] (i + 1)
              ?_ ?_ (by omega) _)
            · intro q hq
              simp at hq
              omega
            · intro q hq
              simp at hq
              omega
          · rename_i h2
            refine ih _ _ _ _ (FcsInv_qext code h (by decide) [i] (i + 1)
              ?_ ?_ (by omega) _)
            · intro q hq
              simp at hq
              omega
            · intro q hq
              simp at hq
              omega
      · exact ⟨h.1, h.2.1, h.2.2.2.2.1⟩

theorem chain_sep_pairwise :
    ∀ (spans : List Span), (∀ sp ∈ spans, sp.1 ≤ sp.2.1) →
    List.Chain' sepSpan spans →
    List.Pairwise (fun a b => a.2.1 < b.1) spans := by
  intro spans
  induction spans with
  | nil =>
    intro _ _
    exact List.Pairwise.nil
  | cons a l ih =>
    intro hwf hch
    rw [List.chain'_cons'] at hch
    refine List.pairwise_cons.2 ⟨?_, ih
      (fun sp hsp => hwf sp (List.mem_cons_of_mem _ hsp)) hch.2⟩
    intro b hb
    cases l with
    | nil => simp at hb
    | cons c l2 =>
      have hp := ih (fun sp hsp => hwf sp (List.mem_cons_of_mem _ hsp)) hch.2
      have hac : sepSpan a c := hch.1 c rfl
      unfold sepSpan at hac
      rcases List.mem_cons.1 hb with rfl | hb2
      · omega
      · have hcb := (List.pairwise_cons.1 hp).1 b hb2
        have hcwf := hwf c (by simp)
        omega

/-- Claim C6.  The spans produced by `find_comment_spans` are well formed
(each lies inside the code with its `//` or `/*` opener immediately before
its start and its end at end-of-code or immediately before the closing
newline or `*/`, so the bounds exclude the delimiters), consecutive spans
are separated by at least the two delimiter characters, the spans are
pairwise disjoint and in increasing order, and no span starts at a
position the scanner consumed inside a double- or single-quoted literal —
in particular a literal whose contents include `//` or `/*` never yields a
span starting inside it. -/
theorem C6_comment_spans (code : Str) :
    (∀ sp ∈ find_comment_spans code, spanWF code sp) ∧
    List.Chain' sepSpan (find_comment_spans code) ∧
    List.Pairwise (fun a b => a.2.1 < b.1) (find_comment_spans code) ∧
    (∀ sp ∈ find_comment_spans code, sp.1 ∉ quotedPositions code) := by
  unfold find_comment_spans quotedPositions
  have h0 : FcsInv code 0 .normal [] [] := by
    refine ⟨?_, ?_, ?_, ?_, ?_, ?_, ?_⟩
    · intro sp hsp
      simp at hsp
    · exact List.chain'_nil
    · intro sp hsp
      simp at hsp
    · intro q hq
      simp at hq
    · intro sp hsp
      simp at hsp
    · intro sp hsp
      simp at hsp
    · intro _ sp hsp
      simp at hsp
  have hmain := fcsGo_inv code (code.length + 1) 0 .normal [] [] h0
  refine ⟨hmain.1, hmain.2.1, ?_, hmain.2.2⟩
  exact chain_sep_pairwise _ (fun sp hsp => (hmain.1 sp hsp).2.1) hmain.2.1

/-- Concrete instance of C6: in `// hi` followed by a string containing
`//x`, the single span is the line comment body and its start is not a
quoted position. -/
theorem C6_witness :
    spanWF ("// hi\n\"//x\"".toList) (2, 5, false) ∧
    ((2, 5, false) : Span).1 ∉ quotedPositions ("// hi\n\"//x\"".toList) := by
  constructor
  · exact (C6_comment_spans ("// hi\n\"//x\"".toList)).1 (2, 5, false) (by decide)
  · exact (C6_comment_spans ("// hi\n\"//x\"".toList)).2.2.2 (2, 5, false)
      (by decide)

/-! ## Claim C3 : idempotence of the page rewriter (`process_file`)

The remaining pieces of `process_file`: `html.escape` (exact), the text
replacements, the per-token attribute replacements (grouped in first-seen
order, applied right to left), and the final join / changed flag.  The
function takes the document and cache and returns (output document,
changed flag, cache after `translate_missing`). -/

/-- Per-character model of `html.escape(text, quote)`. -/
def escChar (quote : Bool) (c : Char) : Str :=
  if c = '&' then "&amp;".toList
  else if c = '<' then "&lt;".toList
  else if c = '>' then "&gt;".toList
  else if quote ∧ c = qD then "&quot;".toList
  else if quote ∧ c = qS then "&#x27;".toList
  else [c]

def pyEscape (quote : Bool) (s : Str) : Str := s.flatMap (escChar quote)

def escape_html_text (text : Str) : Str := pyEscape false text

def escape_attr_value (text : Str) : Str := pyEscape true text

/-- The text-replacement loop: each entry (idx, lead, core, trail) is
rewritten to `lead + escape_html_text(cache.get(core, core)) + trail`,
updating the part and the changed flag when the token differs. -/
def apply_texts (cache : Cache) (acc : List Str × Bool)
    (tes : List (Nat × Str × Str × Str)) : List Str × Bool :=
  tes.foldl (fun acc te =>
    let tr := (lookupC cache te.2.2.1).getD te.2.2.1
    let new_text := te.2.1 ++ escape_html_text tr ++ te.2.2.2
    if acc.1.getD te.1 [] ≠ new_text then (acc.1.set te.1 new_text, true)
    else acc) acc

/-- `attrs_by_token.setdefault(idx, []).append(e)`: group in first-seen key
order, appending within a group. -/
def addEdit (gs : List (Nat × List (Nat × Nat × Str))) (idx : Nat)
    (e : Nat × Nat × Str) : List (Nat × List (Nat × Nat × Str)) :=
  match gs with
  | [] => [(idx, [e])]
  | g :: rest =>
    if g.1 = idx then (g.1, g.2 ++ [e]) :: rest else g :: addEdit rest idx e

def groupAttrs (cache : Cache) (aes : List (Nat × Nat × Nat × Str × Str)) :
    List (Nat × List (Nat × Nat × Str)) :=
  aes.foldl (fun gs ae =>
    let tr := (lookupC cache ae.2.2.2.2).getD ae.2.2.2.2
    addEdit gs ae.1 (ae.2.1, ae.2.2.1, escape_attr_value tr)) []

/-- Stable insertion for `edits.sort(key=start, reverse=True)`. -/
def insertDesc (e : Nat × Nat × Str) :
    List (Nat × Nat × Str) → List (Nat × Nat × Str)
  | [] => [e]
  | x :: xs => if e.1 > x.1 then e :: x :: xs else x :: insertDesc e xs

def sortDesc (l : List (Nat × Nat × Str)) : List (Nat × Nat × Str) :=
  l.foldl (fun acc e => insertDesc e acc) []

/-- Right-to-left splicing `new_token[:start] + rep + new_token[end:]`. -/
def applyEdits (token : Str) (edits : List (Nat × Nat × Str)) : Str :=
  edits.foldl (fun tok e => tok.take e.1 ++ e.2.2 ++ tok.drop e.2.1) token

def apply_attrs (acc : List Str × Bool)
    (groups : List (Nat × List (Nat × Nat × Str))) : List Str × Bool :=
  groups.foldl (fun acc g =>
    let token := acc.1.getD g.1 []
    let new_token := applyEdits token (sortDesc g.2)
    if new_token ≠ token then (acc.1.set g.1 new_token, true) else acc) acc

/-- Model of the page rewriter `process_file` on a document: split, scan
(claim C1's model), translate the missing fragments, apply text and
attribute replacements, join.  Returns (output, changed, cache after
`translate_missing`); when nothing changed the file is not rewritten, so
the output is the original text. -/
def Page.process_file (original : Str) (cache : Cache)
    (f : Str → Option Str) : Str × Bool × Cache :=
  let parts := tagSplit original
  let st := scan_parts parts
  if st.2.1 = [] ∧ st.2.2 = [] then (original, false, cache)
  else
    let to_translate := st.2.1.map (·.2.2.1) ++ st.2.2.map (·.2.2.2.2)
    let cache2 := (Page.translate_missing to_translate cache f).1
    let acc1 := apply_texts cache2 (parts, false) st.2.1
    let groups := groupAttrs cache2 st.2.2
    let acc2 := apply_attrs acc1 groups
    (if acc2.2 then acc2.1.flatten else original, acc2.2, cache2)

/-- Claim C3, counterexample.  With the chained cache a ↦ b, b ↦ c (both
entries resolved without any backend call), the first run rewrites the
document `a` to `b` and the second run rewrites `b` to `c` and reports
changed – so the pipeline is not idempotent and the second run's output
differs from the first run's. -/
theorem C3_counterexample :
    (Page.process_file ['a'] [(['a'], ['b']), (['b'], ['c'])]
      (fun _ => none)).1 = ['b'] ∧
    (Page.process_file ['b'] [(['a'], ['b']), (['b'], ['c'])]
      (fun _ => none)).1 = ['c'] ∧
    (Page.process_file ['b'] [(['a'], ['b']), (['b'], ['c'])]
      (fun _ => none)).2.1 = true := by
  refine ⟨?_, ?_, ?_⟩ <;> rfl

/-! Lemmas about `pyUnescape` and `pyEscape` used by the idempotence
analysis: the fuel is irrelevant once it covers the input length, and
escaping then unescaping is the identity. -/

theorem pyUnescapeGo_step (fuel : Nat) (c : Char) (rest : Str) :
    pyUnescapeGo (fuel + 1) (c :: rest) =
      if c = '&' then
        if hasPfx ("amp;".toList) rest then '&' :: pyUnescapeGo fuel (rest.drop 4)
        else if hasPfx ("lt;".toList) rest then '<' :: pyUnescapeGo fuel (rest.drop 3)
        else if hasPfx ("gt;".toList) rest then '>' :: pyUnescapeGo fuel (rest.drop 3)
        else if hasPfx ("quot;".toList) rest then qD :: pyUnescapeGo fuel (rest.drop 5)
        else if hasPfx ("#x27;".toList) rest then qS :: pyUnescapeGo fuel (rest.drop 5)
        else if hasPfx ("#39;".toList) rest then qS :: pyUnescapeGo fuel (rest.drop 4)
        else '&' :: pyUnescapeGo fuel rest
      else c :: pyUnescapeGo fuel rest := rfl

theorem pyUnescapeGo_congr : ∀ (f1 f2 : Nat) (s : Str),
    s.length ≤ f1 → s.length ≤ f2 → pyUnescapeGo f1 s = pyUnescapeGo f2 s := by
  intro f1
  induction f1 with
  | zero =>
    intro f2 s h1 _
    have hs : s = [] := List.eq_nil_of_length_eq_zero (by omega)
    subst hs
    cases f2 <;> rfl
  | succ f1 ih =>
    intro f2 s h1 h2
    cases f2 with
    | zero =>
      have hs : s = [] := List.eq_nil_of_length_eq_zero (by omega)
      subst hs
      rfl
    | succ f2 =>
      cases s with
      | nil => rfl
      | cons c rest =>
        have hr : rest.length ≤ f1 := by
          simp only [List.length_cons] at h1
          omega
        have hr2 : rest.length ≤ f2 := by
          simp only [List.length_cons] at h2
          omega
        have hd : ∀ k, (rest.drop k).length ≤ f1 ∧ (rest.drop k).length ≤ f2 := by
          intro k
          rw [List.length_drop]
          omega
        rw [pyUnescapeGo_step, pyUnescapeGo_step]
        split_ifs with g1 g2 g3 g4 g5 g6 g7
        · exact congrArg _ (ih f2 _ (hd 4).1 (hd 4).2)
        · exact congrArg _ (ih f2 _ (hd 3).1 (hd 3).2)
        · exact congrArg _ (ih f2 _ (hd 3).1 (hd 3).2)
        · exact congrArg _ (ih f2 _ (hd 5).1 (hd 5).2)
        · exact congrArg _ (ih f2 _ (hd 5).1 (hd 5).2)
        · exact congrArg _ (ih f2 _ (hd 4).1 (hd 4).2)
        · exact congrArg _ (ih f2 _ hr hr2)
        · exact congrArg _ (ih f2 _ hr hr2)

theorem unesc_step (c : Char) (rest : Str) :
    pyUnescape (c :: rest) =
      if c = '&' then
        if hasPfx ("amp;".toList) rest then '&' :: pyUnescape (rest.drop 4)
        else if hasPfx ("lt;".toList) rest then '<' :: pyUnescape (rest.drop 3)
        else if hasPfx ("gt;".toList) rest then '>' :: pyUnescape (rest.drop 3)
        else if hasPfx ("quot;".toList) rest then qD :: pyUnescape (rest.drop 5)
        else if hasPfx ("#x27;".toList) rest then qS :: pyUnescape (rest.drop 5)
        else if hasPfx ("#39;".toList) rest then qS :: pyUnescape (rest.drop 4)
        else '&' :: pyUnescape rest
      else c :: pyUnescape rest := by
  have hlen : (c :: rest).length = rest.length + 1 := rfl
  unfold pyUnescape
  rw [hlen, pyUnescapeGo_step]
  have hd : ∀ k, (rest.drop k).length ≤ rest.length := by
    intro k
    rw [List.length_drop]
    omega
  split_ifs
  · exact congrArg _ (pyUnescapeGo_congr _ _ _ (hd 4) (le_refl _))
  · exact congrArg _ (pyUnescapeGo_congr _ _ _ (hd 3) (le_refl _))
  · exact congrArg _ (pyUnescapeGo_congr _ _ _ (hd 3) (le_refl _))
  · exact congrArg _ (pyUnescapeGo_congr _ _ _ (hd 5) (le_refl _))
  · exact congrArg _ (pyUnescapeGo_congr _ _ _ (hd 5) (le_refl _))
  · exact congrArg _ (pyUnescapeGo_congr _ _ _ (hd 4) (le_refl _))
  · rfl
  · rfl

theorem pyUnescape_cons {c : Char} (s : Str) (hc : c ≠ '&') :
    pyUnescape (c :: s) = c :: pyUnescape s := by
  rw [unesc_step, if_neg hc]

theorem pyUnescape_noamp : ∀ (s : Str), (∀ c ∈ s, c ≠ '&') →
    pyUnescape s = s := by
  intro s
  induction s with
  | nil => intro _; rfl
  | cons c rest ih =>
    intro h
    rw [pyUnescape_cons rest (h c (by simp))]
    rw [ih (fun x hx => h x (List.mem_cons_of_mem _ hx))]

theorem pyWS_ne_amp {c : Char} (h : pyWS c = true) : c ≠ '&' := by
  intro hc
  subst hc
  exact absurd h (by decide)

theorem pyUnescape_ws_append (s : Str) : ∀ (l : Str),
    (∀ c ∈ l, pyWS c = true) → pyUnescape (l ++ s) = l ++ pyUnescape s := by
  intro l
  induction l with
  | nil => intro _; rfl
  | cons c rest ih =>
    intro h
    rw [List.cons_append,
      pyUnescape_cons _ (pyWS_ne_amp (h c (by simp))),
      ih (fun x hx => h x (List.mem_cons_of_mem _ hx)), List.cons_append]

theorem hasPfx_eval_cons (p : Char) (ps cs : Str) :
    hasPfx (p :: ps) (p :: cs) = hasPfx ps cs := by
  simp [hasPfx]

theorem pyEscape_cons (q : Bool) (c : Char) (s : Str) :
    pyEscape q (c :: s) = escChar q c ++ pyEscape q s := by
  simp [pyEscape]

theorem pyEscape_append (q : Bool) (a b : Str) :
    pyEscape q (a ++ b) = pyEscape q a ++ pyEscape q b := by
  simp [pyEscape]

/-- Escaping then unescaping is the identity, even in front of an
arbitrary suffix. -/
theorem pyUnescape_escape_append (q : Bool) :
    ∀ (s t : Str), pyUnescape (pyEscape q s ++ t) = s ++ pyUnescape t := by
  intro s
  induction s with
  | nil =>
    intro t
    simp [pyEscape]
  | cons c s ih =>
    intro t
    rw [pyEscape_cons, List.append_assoc]
    unfold escChar
    by_cases h1 : c = '&'
    · subst h1
      rw [if_pos rfl]
      show pyUnescape ('&' :: 'a' :: 'm' :: 'p' :: ';' :: (pyEscape q s ++ t))
        = '&' :: s ++ pyUnescape t
      rw [unesc_step]
      show '&' :: pyUnescape (pyEscape q s ++ t) = '&' :: s ++ pyUnescape t
      rw [ih, List.cons_append]
    · rw [if_neg h1]
      by_cases h2 : c = '<'
      · subst h2
        rw [if_pos rfl]
        show pyUnescape ('&' :: 'l' :: 't' :: ';' :: (pyEscape q s ++ t))
          = '<' :: s ++ pyUnescape t
        rw [unesc_step]
        show '<' :: pyUnescape (pyEscape q s ++ t) = '<' :: s ++ pyUnescape t
        rw [ih, List.cons_append]
      · rw [if_neg h2]
        by_cases h3 : c = '>'
        · subst h3
          rw [if_pos rfl]
          show pyUnescape ('&' :: 'g' :: 't' :: ';' :: (pyEscape q s ++ t))
            = '>' :: s ++ pyUnescape t
          rw [unesc_step]
          show '>' :: pyUnescape (pyEscape q s ++ t) = '>' :: s ++ pyUnescape t
          rw [ih, List.cons_append]
        · rw [if_neg h3]
          by_cases h4 : (q : Prop) ∧ c = qD
          · obtain ⟨hq, hc⟩ := h4
            subst hq
            subst hc
            rw [if_pos ⟨rfl, rfl⟩]
            show pyUnescape
              ('&' :: 'q' :: 'u' :: 'o' :: 't' :: ';' :: (pyEscape true s ++ t))
              = qD :: s ++ pyUnescape t
            rw [unesc_step]
            show qD :: pyUnescape (pyEscape true s ++ t)
              = qD :: s ++ pyUnescape t
            rw [ih, List.cons_append]
          · rw [if_neg h4]
            by_cases h5 : (q : Prop) ∧ c = qS
            · obtain ⟨hq, hc⟩ := h5
              subst hq
              subst hc
              rw [if_pos ⟨rfl, rfl⟩]
              show pyUnescape
                ('&' :: '#' :: 'x' :: '2' :: '7' :: ';' ::
                  (pyEscape true s ++ t))
                = qS :: s ++ pyUnescape t
              rw [unesc_step]
              show qS :: pyUnescape (pyEscape true s ++ t)
                = qS :: s ++ pyUnescape t
              rw [ih, List.cons_append]
            · rw [if_neg h5]
              rw [List.singleton_append, pyUnescape_cons _ h1, ih,
                List.cons_append]

theorem escChar_no_lt (q : Bool) (c : Char) :
    ∀ x ∈ escChar q c, x ≠ '<' := by
  intro x hx hlt
  subst hlt
  unfold escChar at hx
  split_ifs at hx with h1 h2 h3 h4 h5
  · revert hx
    decide
  · revert hx
    decide
  · revert hx
    decide
  · revert hx
    decide
  · revert hx
    decide
  · rw [List.mem_singleton] at hx
    exact h2 hx.symm

theorem pyEscape_no_lt (q : Bool) (s : Str) :
    ∀ x ∈ pyEscape q s, x ≠ '<' := by
  intro x hx
  rw [pyEscape, List.mem_flatMap] at hx
  obtain ⟨c, _, hx2⟩ := hx
  exact escChar_no_lt q c x hx2

theorem escChar_ws (q : Bool) {c : Char} (h : pyWS c = true) :
    escChar q c = [c] := by
  unfold escChar
  rw [if_neg (by intro hx; subst hx; exact absurd h (by decide)),
    if_neg (by intro hx; subst hx; exact absurd h (by decide)),
    if_neg (by intro hx; subst hx; exact absurd h (by decide)),
    if_neg (by intro hx; have := hx.2; subst this; exact absurd h (by decide)),
    if_neg (by intro hx; have := hx.2; subst this; exact absurd h (by decide))]

theorem pyEscape_ws (q : Bool) : ∀ (l : Str), (∀ c ∈ l, pyWS c = true) →
    pyEscape q l = l := by
  intro l
  induction l with
  | nil => intro _; rfl
  | cons c rest ih =>
    intro h
    rw [pyEscape_cons, escChar_ws q (h c (by simp)),
      ih (fun x hx => h x (List.mem_cons_of_mem _ hx)), List.singleton_append]

theorem takeWhile_append_all {α} (p : α → Bool) :
    ∀ (l s : List α), (∀ c ∈ l, p c = true) →
      (l ++ s).takeWhile p = l ++ s.takeWhile p
  | [], s, _ => rfl
  | a :: l, s, h => by
    rw [List.cons_append, List.takeWhile_cons_of_pos (h a (by simp)),
      takeWhile_append_all p l s (fun c hc => h c (List.mem_cons_of_mem _ hc)),
      List.cons_append]

theorem dropWhile_append_all {α} (p : α → Bool) :
    ∀ (l s : List α), (∀ c ∈ l, p c = true) →
      (l ++ s).dropWhile p = s.dropWhile p
  | [], s, _ => rfl
  | a :: l, s, h => by
    rw [List.cons_append, List.dropWhile_cons_of_pos (h a (by simp)),
      dropWhile_append_all p l s (fun c hc => h c (List.mem_cons_of_mem _ hc))]

/-- No `<` in a string means `TAG_SPLIT_RE` finds nothing. -/
theorem findTagFrom_none : ∀ (s : Str), (∀ c ∈ s, c ≠ '<') →
    findTagFrom s = none
  | [], _ => rfl
  | c :: rest, h => by
    unfold findTagFrom
    rw [if_neg (h c (by simp))]
    rw [findTagFrom_none rest (fun x hx => h x (List.mem_cons_of_mem _ hx))]

theorem tagSplit_notag (s : Str) (h : ∀ c ∈ s, c ≠ '<') :
    tagSplit s = [s] := by
  unfold tagSplit
  cases hl : s.length with
  | zero => rfl
  | succ n =>
    unfold tagSplitGo
    rw [findTagFrom_none s h]

/-- Stripping is unaffected by wrapping in whitespace. -/
theorem pyStrip_wrap (lead v trail : Str)
    (hl : ∀ c ∈ lead, pyWS c = true) (ht : ∀ c ∈ trail, pyWS c = true) :
    pyStrip (lead ++ v ++ trail) = pyStrip v := by
  rw [List.append_assoc, pyStrip_def, pyStrip_def,
    dropWhile_append_all pyWS lead (v ++ trail) hl]
  by_cases hv : v.dropWhile pyWS = []
  · have hvall : ∀ c ∈ v, pyWS c = true := dropWhile_eq_nil_all pyWS v hv
    have hall : ∀ c ∈ v ++ trail, pyWS c = true := by
      intro c hc
      rcases List.mem_append.1 hc with hc | hc
      · exact hvall c hc
      · exact ht c hc
    rw [hv, dropWhile_append_all pyWS v trail hvall,
      List.dropWhile_eq_nil_iff.2 (fun c hc => ht c hc)]
  · rw [dropWhile_append_stop pyWS v trail hv, List.reverse_append,
      dropWhile_append_all pyWS trail.reverse (v.dropWhile pyWS).reverse
        (fun c hc => ht c (List.mem_reverse.1 hc))]

/-- The trailing-whitespace run of a whitespace-wrapped string with a
non-whitespace core. -/
theorem trailWS_wrap (lead v trail : Str)
    (hl : ∀ c ∈ lead, pyWS c = true) (ht : ∀ c ∈ trail, pyWS c = true)
    (hv : ∃ c ∈ v, pyWS c = false) :
    trailWS (lead ++ v ++ trail) = trailWS v ++ trail := by
  have hvrev : v.reverse.dropWhile pyWS ≠ [] := by
    obtain ⟨c, hc, hcw⟩ := hv
    exact dropWhile_ne_nil_of_mem pyWS v.reverse (List.mem_reverse.2 hc)
      (by rw [hcw])
  unfold trailWS
  rw [List.reverse_append, List.reverse_append,
    takeWhile_append_all pyWS trail.reverse (v.reverse ++ lead.reverse)
      (fun c hc => ht c (List.mem_reverse.1 hc)),
    takeWhile_append_stop pyWS v.reverse lead.reverse hvrev,
    List.reverse_append, List.reverse_reverse]

/-- The leading-whitespace run of a whitespace-wrapped string with a
non-whitespace core. -/
theorem takeWhileWS_wrap (lead v trail : Str)
    (hl : ∀ c ∈ lead, pyWS c = true)
    (hv : ∃ c ∈ v, pyWS c = false) :
    (lead ++ v ++ trail).takeWhile pyWS = lead ++ v.takeWhile pyWS := by
  have hvd : v.dropWhile pyWS ≠ [] := by
    obtain ⟨c, hc, hcw⟩ := hv
    exact dropWhile_ne_nil_of_mem pyWS v hc (by rw [hcw])
  rw [List.append_assoc, takeWhile_append_all pyWS lead (v ++ trail) hl,
    takeWhile_append_stop pyWS v trail hvd]

theorem coreOf_def (s : Str) : coreOf s = (split_ws s).2.1 := rfl

/-- `translate_missing` on a single already-cached fragment is a no-op. -/
theorem translate_missing_hit (c : Str) (cache : Cache)
    (f : Str → Option Str) {v : Str} (hcov : lookupC cache c = some v) :
    Page.translate_missing [c] cache f = (cache, []) := by
  unfold Page.translate_missing
  dsimp only
  have hmiss : (enumL [c]).filter (fun it => (lookupC cache it.2).isNone)
      = [] := by
    show [((0 : Nat), c)].filter (fun it => (lookupC cache it.2).isNone) = []
    rw [List.filter_cons]
    dsimp only
    rw [hcov]
    rfl
  rw [hmiss]
  rfl

/-- First run of the page rewriter on a tag-free document whose (unescaped)
text or core fails the classifier: nothing is collected and nothing
changes. -/
theorem process_file_notag_skip (original : Str) (cache : Cache)
    (f : Str → Option Str) (hnotag : ∀ c ∈ original, c ≠ '<')
    (hskip : should_translate (pyUnescape original) = false ∨
      should_translate (coreOf (pyUnescape original)) = false) :
    Page.process_file original cache f = (original, false, cache) := by
  have hparts : tagSplit original = [original] := tagSplit_notag original hnotag
  have hscan : scan_parts [original] = (([], [], []) : ScanSt) := by
    show scanText ([], [], []) 0 original = (([], [], []) : ScanSt)
    unfold scanText
    rw [if_pos rfl]
    rcases hskip with hskip | hskip
    · rw [if_neg (by rw [hskip]; simp)]
    · by_cases hout : should_translate (pyUnescape original) = true
      · rw [if_pos hout]
        dsimp only
        rw [if_neg (by rw [← coreOf_def, hskip]; simp)]
      · rw [if_neg hout]
  unfold Page.process_file
  rw [hparts]
  dsimp only
  rw [hscan]
  rfl

/-- First run of the page rewriter on a tag-free document whose text and
core pass the classifier and whose core is already cached: the output is
the whitespace frame around the escaped cached value, and the cache is
untouched. -/
theorem process_file_notag_hit (original : Str) (cache : Cache)
    (f : Str → Option Str) (hnotag : ∀ c ∈ original, c ≠ '<')
    (h1 : should_translate (pyUnescape original) = true)
    (h2 : should_translate (coreOf (pyUnescape original)) = true)
    {v : Str} (hcov : lookupC cache (coreOf (pyUnescape original)) = some v) :
    (Page.process_file original cache f).1
      = (split_ws (pyUnescape original)).1 ++ escape_html_text v ++
        (split_ws (pyUnescape original)).2.2 ∧
    (Page.process_file original cache f).2.2 = cache ∧
    (original = (split_ws (pyUnescape original)).1 ++ escape_html_text v ++
        (split_ws (pyUnescape original)).2.2 →
      (Page.process_file original cache f).2.1 = false) := by
  have hparts : tagSplit original = [original] := tagSplit_notag original hnotag
  have hscan : scan_parts [original]
      = (([], [((0 : Nat), (split_ws (pyUnescape original)).1,
          coreOf (pyUnescape original),
          (split_ws (pyUnescape original)).2.2)], []) : ScanSt) := by
    show scanText ([], [], []) 0 original = _
    unfold scanText
    rw [if_pos rfl, if_pos h1]
    dsimp only
    rw [if_pos (by exact h2)]
    simp [coreOf]
  have hmap : [((0 : Nat), (split_ws (pyUnescape original)).1,
        coreOf (pyUnescape original),
        (split_ws (pyUnescape original)).2.2)].map (·.2.2.1)
      ++ ([] : List (Nat × Nat × Nat × Str × Str)).map (·.2.2.2.2)
      = [coreOf (pyUnescape original)] := by
    simp
  unfold Page.process_file
  rw [hparts]
  dsimp only
  rw [hscan]
  dsimp only
  rw [if_neg (by simp)]
  rw [hmap, translate_missing_hit _ _ _ hcov]
  dsimp only
  by_cases hne : original = (split_ws (pyUnescape original)).1 ++
      escape_html_text v ++ (split_ws (pyUnescape original)).2.2
  · have happ : apply_texts cache ([original], false)
        [((0 : Nat), (split_ws (pyUnescape original)).1,
          coreOf (pyUnescape original), (split_ws (pyUnescape original)).2.2)]
        = ([original], false) := by
      unfold apply_texts
      rw [List.foldl_cons, List.foldl_nil]
      dsimp only
      rw [hcov]
      exact if_neg (not_not_intro (show [original].getD 0 [] =
        (split_ws (pyUnescape original)).1 ++ escape_html_text v ++
          (split_ws (pyUnescape original)).2.2 from hne))
    rw [happ]
    exact ⟨hne, rfl, fun _ => rfl⟩
  · have happ : apply_texts cache ([original], false)
        [((0 : Nat), (split_ws (pyUnescape original)).1,
          coreOf (pyUnescape original), (split_ws (pyUnescape original)).2.2)]
        = ([(split_ws (pyUnescape original)).1 ++ escape_html_text v ++
            (split_ws (pyUnescape original)).2.2], true) := by
      unfold apply_texts
      rw [List.foldl_cons, List.foldl_nil]
      dsimp only
      rw [hcov]
      exact if_pos (show ¬[original].getD 0 [] =
        (split_ws (pyUnescape original)).1 ++ escape_html_text v ++
          (split_ws (pyUnescape original)).2.2 from hne)
    rw [happ]
    refine ⟨?_, rfl, fun h => absurd h hne⟩
    show List.flatten [(split_ws (pyUnescape original)).1 ++
      escape_html_text v ++ (split_ws (pyUnescape original)).2.2]
      = (split_ws (pyUnescape original)).1 ++ escape_html_text v ++
        (split_ws (pyUnescape original)).2.2
    simp

theorem lookupC_mem : ∀ (cache : Cache) (k v : Str),
    lookupC cache k = some v → (k, v) ∈ cache
  | [], k, v, h => by simp [lookupC] at h
  | e :: rest, k, v, h => by
    unfold lookupC at h
    split at h
    · rename_i he
      simp only [Option.some.injEq] at h
      subst h
      subst he
      exact List.mem_cons_self _ _
    · exact List.mem_cons_of_mem _ (lookupC_mem rest k v h)

theorem pyStrip_blank (s : Str) (h : ∀ c ∈ s, pyWS c = true) :
    pyStrip s = [] := by
  rw [pyStrip_def, List.dropWhile_eq_nil_iff.2 (fun c hc => h c hc)]
  rfl

theorem should_translate_blank (s : Str) (h : ∀ c ∈ s, pyWS c = true) :
    should_translate s = false := by
  unfold should_translate
  dsimp only
  rw [pyStrip_blank s h]
  rfl

theorem pyWS_ne_lt {c : Char} (h : pyWS c = true) : c ≠ '<' := by
  intro hc
  subst hc
  exact absurd h (by decide)

/-- Second run of the page rewriter on a whitespace-framed escaped cached
value whose strip is mapped to itself by the cache: nothing changes. -/
theorem process_file_stable (lead v trail : Str) (cache : Cache)
    (f : Str → Option Str)
    (hl : ∀ c ∈ lead, pyWS c = true) (ht : ∀ c ∈ trail, pyWS c = true)
    (hres : lookupC cache (pyStrip v) = some (pyStrip v)) :
    Page.process_file (lead ++ escape_html_text v ++ trail) cache f
      = (lead ++ escape_html_text v ++ trail, false, cache) := by
  have hnotag : ∀ c ∈ lead ++ escape_html_text v ++ trail, c ≠ '<' := by
    intro c hc
    rcases List.mem_append.1 hc with hc | hc
    · rcases List.mem_append.1 hc with hc | hc
      · exact pyWS_ne_lt (hl c hc)
      · exact pyEscape_no_lt false v c hc
    · exact pyWS_ne_lt (ht c hc)
  have hdec : pyUnescape (lead ++ escape_html_text v ++ trail)
      = lead ++ v ++ trail := by
    show pyUnescape (lead ++ pyEscape false v ++ trail) = lead ++ v ++ trail
    rw [List.append_assoc, pyUnescape_ws_append _ lead hl,
      pyUnescape_escape_append false v trail,
      pyUnescape_noamp trail (fun c hc => pyWS_ne_amp (ht c hc)),
      List.append_assoc]
  by_cases hA : should_translate (lead ++ v ++ trail) = true
  · have hvex : ∃ c ∈ v, pyWS c = false := by
      by_contra hall
      push_neg at hall
      have hall2 : ∀ c ∈ v, pyWS c = true := by
        intro c hc
        have := hall c hc
        revert this
        cases pyWS c <;> simp
      have hws : ∀ c ∈ lead ++ v ++ trail, pyWS c = true := by
        intro c hc
        rcases List.mem_append.1 hc with hc | hc
        · rcases List.mem_append.1 hc with hc | hc
          · exact hl c hc
          · exact hall2 c hc
        · exact ht c hc
      rw [should_translate_blank _ hws] at hA
      exact Bool.false_ne_true hA
    have hcore : coreOf (lead ++ v ++ trail) = pyStrip v := by
      rw [coreOf_eq_pyStrip, pyStrip_wrap lead v trail hl ht]
    by_cases hB : should_translate (pyStrip v) = true
    · have h1 : should_translate
          (pyUnescape (lead ++ escape_html_text v ++ trail)) = true := by
        rw [hdec]
        exact hA
      have h2 : should_translate
          (coreOf (pyUnescape (lead ++ escape_html_text v ++ trail)))
          = true := by
        rw [hdec, hcore]
        exact hB
      have hcov : lookupC cache
          (coreOf (pyUnescape (lead ++ escape_html_text v ++ trail)))
          = some (pyStrip v) := by
        rw [hdec, hcore]
        exact hres
      obtain ⟨ho1, ho2, ho3⟩ := process_file_notag_hit
        (lead ++ escape_html_text v ++ trail) cache f hnotag h1 h2 hcov
      have hrecon : lead ++ escape_html_text v ++ trail
          = (split_ws (pyUnescape (lead ++ escape_html_text v ++ trail))).1
            ++ escape_html_text (pyStrip v) ++
            (split_ws (pyUnescape (lead ++ escape_html_text v ++ trail))).2.2 := by
        rw [hdec, split_ws_lead, split_ws_trail,
          takeWhileWS_wrap lead v trail hl hvex,
          trailWS_wrap lead v trail hl ht hvex]
        have hv : v.takeWhile pyWS ++ pyStrip v ++ trailWS v = v :=
          (split_ws_decomp v hvex).2.2.2
        have hesc : escape_html_text v
            = v.takeWhile pyWS ++ escape_html_text (pyStrip v)
              ++ trailWS v := by
          conv_lhs => rw [← hv]
          unfold escape_html_text
          rw [pyEscape_append, pyEscape_append,
            pyEscape_ws false (v.takeWhile pyWS)
              (fun c hc => List.mem_takeWhile_imp hc),
            pyEscape_ws false (trailWS v) (fun c hc => trailWS_all v c hc)]
        rw [hesc]
        simp [List.append_assoc]
      rw [Prod.ext_iff]
      refine ⟨?_, ?_⟩
      · rw [ho1, ← hrecon]
      · rw [Prod.ext_iff]
        exact ⟨ho3 hrecon, ho2⟩
    · have hskip := process_file_notag_skip
        (lead ++ escape_html_text v ++ trail) cache f hnotag
        (Or.inr (by rw [hdec, hcore]; simpa using hB))
      rw [hskip]
  · have hskip := process_file_notag_skip
      (lead ++ escape_html_text v ++ trail) cache f hnotag
      (Or.inl (by rw [hdec]; simpa using hA))
    rw [hskip]

/-! Well-formedness of the parts produced by the tag splitter, and
stability of the split under replacing text parts.  A text part emitted
between two matches can contain `<` only when it is immediately followed
by `>` (otherwise the scan would have matched there); the final text part
simply contains no match.  These two facts characterise the lists on which
`tagSplit` is a left inverse of concatenation. -/

/-- Every `<` in the string is immediately followed by `>`, so the string
contributes no characters to any `TAG_SPLIT_RE` match, whatever follows. -/
def textInert : Str → Bool
  | [] => true
  | c :: rest =>
    if c = '<' then
      match rest with
      | '>' :: _ => textInert rest
      | _ => false
    else textInert rest

/-- Shape of a token matched by `TAG_SPLIT_RE`. -/
def tagOK (t : Str) : Prop :=
  ∃ body, body ≠ [] ∧ (∀ c ∈ body, c ≠ '>') ∧ t = '<' :: body ++ ['>']

/-- The alternating text/tag shape produced by `tagSplit`: inert texts
before each tag, and a final text containing no match. -/
def partsOK : List Str → Prop
  | [] => False
  | [x] => findTagFrom x = none
  | x :: t :: rest => textInert x = true ∧ tagOK t ∧ partsOK rest

theorem textInert_no_lt {x : Str} (h : ∀ c ∈ x, c ≠ '<') :
    textInert x = true := by
  induction x with
  | nil => rfl
  | cons c rest ih =>
    unfold textInert
    rw [if_neg (h c (by simp))]
    exact ih (fun d hd => h d (List.mem_cons_of_mem _ hd))

theorem findTagFrom_decomp : ∀ (s b t a : Str),
    findTagFrom s = some (b, t, a) →
    s = b ++ t ++ a ∧ tagOK t ∧ textInert b = true
  | [], b, t, a, h => by simp [findTagFrom] at h
  | c :: rest, b, t, a, h => by
    unfold findTagFrom at h
    by_cases hc : c = '<'
    · rw [if_pos hc] at h
      subst hc
      rcases hrem : rest.dropWhile (fun d => d ≠ '>') with _ | ⟨d, tail⟩
      · rw [hrem] at h
        simp at h
      · rw [hrem] at h
        dsimp only at h
        have hd : d = '>' := by
          have := dropWhile_head_not (fun d => d ≠ '>') rest
            (by rw [hrem]; rfl)
          simpa using this
        subst hd
        by_cases hbody : rest.takeWhile (fun d => d ≠ '>') = []
        · rw [if_pos hbody] at h
          have hhd : ∃ r2, rest = '>' :: r2 := by
            cases hr : rest with
            | nil =>
              rw [hr] at hrem
              simp at hrem
            | cons r0 r2 =>
              rw [hr] at hbody
              by_cases hr0 : r0 = '>'
              · exact ⟨r2, by rw [hr0]⟩
              · rw [List.takeWhile_cons_of_pos (by simpa using hr0)] at hbody
                simp at hbody
          obtain ⟨r2, hr2⟩ := hhd
          rcases hrec : findTagFrom rest with _ | ⟨⟨b2, t2, a2⟩⟩
          · rw [hrec] at h
            simp at h
          · rw [hrec] at h
            simp only [Option.some.injEq, Prod.mk.injEq] at h
            obtain ⟨hb, ht, ha⟩ := h
            obtain ⟨hdec, htag, hinert⟩ := findTagFrom_decomp rest b2 t2 a2 hrec
            subst hb
            subst ht
            subst ha
            refine ⟨by rw [hdec]; simp, htag, ?_⟩
            have hb2 : ∃ b3, b2 = '>' :: b3 := by
              cases hbcase : b2 with
              | nil =>
                rw [hbcase] at hdec
                obtain ⟨body2, hne2, _, hts⟩ := htag
                rw [hr2, List.nil_append, hts] at hdec
                simp at hdec
              | cons b0 b3 =>
                rw [hbcase] at hdec
                rw [hr2] at hdec
                have := List.head_eq_of_cons_eq hdec.symm
                exact ⟨b3, by rw [this]⟩
            obtain ⟨b3, hb3⟩ := hb2
            unfold textInert
            rw [if_pos rfl, hb3]
            rw [hb3] at hinert
            exact hinert
        · rw [if_neg hbody] at h
          simp only [Option.some.injEq, Prod.mk.injEq] at h
          obtain ⟨hb, ht, ha⟩ := h
          subst hb
          subst ht
          subst ha
          refine ⟨?_, ?_, rfl⟩
          · have hres2 : rest = rest.takeWhile (fun d => d ≠ '>')
                ++ '>' :: tail := by
              conv_lhs => rw [← List.takeWhile_append_dropWhile
                (p := fun d => d ≠ '>') (l := rest)]
              rw [hrem]
            conv_lhs => rw [hres2]
            simp
          · exact ⟨rest.takeWhile (fun d => d ≠ '>'), hbody,
              fun d hd => by simpa using List.mem_takeWhile_imp hd, rfl⟩
    · rw [if_neg hc] at h
      rcases hrec : findTagFrom rest with _ | ⟨⟨b2, t2, a2⟩⟩
      · rw [hrec] at h
        simp at h
      · rw [hrec] at h
        simp only [Option.some.injEq, Prod.mk.injEq] at h
        obtain ⟨hb, ht, ha⟩ := h
        obtain ⟨hdec, htag, hinert⟩ := findTagFrom_decomp rest b2 t2 a2 hrec
        subst hb
        subst ht
        subst ha
        refine ⟨by rw [hdec]; simp, htag, ?_⟩
        unfold textInert
        rw [if_neg hc]
        exact hinert

theorem findTagFrom_inert : ∀ (x y : Str), textInert x = true →
    findTagFrom (x ++ y)
      = (findTagFrom y).map (fun r => (x ++ r.1, r.2.1, r.2.2))
  | [], y, _ => by
    rw [List.nil_append]
    cases hfy : findTagFrom y with
    | none => simp
    | some r => simp
  | c :: x', y, h => by
    by_cases hc : c = '<'
    · subst hc
      unfold textInert at h
      rw [if_pos rfl] at h
      rcases hx : x' with _ | ⟨d, x''⟩
      · rw [hx] at h
        simp at h
      · rw [hx] at h
        by_cases hd : d = '>'
        · subst hd
          subst hx
          rw [List.cons_append]
          conv_lhs => unfold findTagFrom
          rw [if_pos rfl]
          have hbody : (('>' :: x'') ++ y).takeWhile (fun d => d ≠ '>')
              = [] := by
            rw [List.cons_append, List.takeWhile_cons_of_neg (by simp)]
          have hrem : (('>' :: x'') ++ y).dropWhile (fun d => d ≠ '>')
              = '>' :: (x'' ++ y) := by
            rw [List.cons_append, List.dropWhile_cons_of_neg (by simp)]
          rw [hbody, hrem]
          dsimp only
          rw [if_pos rfl]
          have hih := findTagFrom_inert ('>' :: x'') y h
          rw [hih]
          cases hfy : findTagFrom y with
          | none => rfl
          | some r => rfl
        · exfalso
          revert h
          cases x'' <;> simp [hd]
    · unfold textInert at h
      rw [if_neg hc] at h
      rw [List.cons_append]
      conv_lhs => unfold findTagFrom
      rw [if_neg hc]
      rw [findTagFrom_inert x' y h]
      cases hfy : findTagFrom y with
      | none => rfl
      | some r => rfl

theorem findTagFrom_tag (t y : Str) (h : tagOK t) :
    findTagFrom (t ++ y) = some ([], t, y) := by
  obtain ⟨body, hne, hbody, hts⟩ := h
  subst hts
  have hshape : ('<' :: body ++ ['>']) ++ y = '<' :: (body ++ ('>' :: y)) := by
    simp
  rw [hshape]
  unfold findTagFrom
  dsimp only
  rw [if_pos rfl]
  have htake : (body ++ ('>' :: y)).takeWhile (fun d => d ≠ '>') = body := by
    rw [takeWhile_append_all _ body _ (fun c hc => by simpa using hbody c hc),
      List.takeWhile_cons_of_neg (by simp), List.append_nil]
  have hdrop : (body ++ ('>' :: y)).dropWhile (fun d => d ≠ '>')
      = '>' :: y := by
    rw [dropWhile_append_all _ body _ (fun c hc => by simpa using hbody c hc),
      List.dropWhile_cons_of_neg (by simp)]
  rw [htake, hdrop]
  dsimp only
  rw [if_neg hne]

theorem tagSplitGo_OK : ∀ (fuel : Nat) (s : Str), s.length ≤ fuel →
    partsOK (tagSplitGo fuel s) := by
  intro fuel
  induction fuel with
  | zero =>
    intro s hs
    have : s = [] := List.eq_nil_of_length_eq_zero (by omega)
    subst this
    exact (rfl : findTagFrom [] = none)
  | succ fuel ih =>
    intro s hs
    unfold tagSplitGo
    rcases hft : findTagFrom s with _ | ⟨⟨b, t, a⟩⟩
    · exact hft
    · obtain ⟨hdec, htag, hinert⟩ := findTagFrom_decomp s b t a hft
      refine ⟨hinert, htag, ih a ?_⟩
      obtain ⟨body, hne, _, hts⟩ := htag
      have hlen : s.length = b.length + (t.length + a.length) := by
        rw [hdec]
        simp
      have htlen : 1 ≤ t.length := by
        rw [hts]
        simp
      omega

theorem partsOK_tagSplit (s : Str) : partsOK (tagSplit s) :=
  tagSplitGo_OK s.length s (le_refl _)

theorem tagSplitGo_flatten : ∀ (fuel : Nat) (s : Str),
    (tagSplitGo fuel s).flatten = s := by
  intro fuel
  induction fuel with
  | zero =>
    intro s
    simp [tagSplitGo]
  | succ fuel ih =>
    intro s
    unfold tagSplitGo
    rcases hft : findTagFrom s with _ | ⟨⟨b, t, a⟩⟩
    · simp
    · obtain ⟨hdec, _, _⟩ := findTagFrom_decomp s b t a hft
      simp only [List.flatten_cons, ih a]
      rw [hdec]
      simp

theorem tagSplit_flatten (s : Str) : (tagSplit s).flatten = s :=
  tagSplitGo_flatten s.length s

theorem tagSplitGo_parts : ∀ (ps : List Str) (fuel : Nat), partsOK ps →
    ps.flatten.length ≤ fuel → tagSplitGo fuel ps.flatten = ps
  | [], _, hOK, _ => absurd hOK (by simp [partsOK])
  | [x], fuel, hOK, hlen => by
    have hx : findTagFrom x = none := hOK
    have hfl : List.flatten [x] = x := by simp
    rw [hfl]
    cases fuel with
    | zero =>
      have : x = [] := List.eq_nil_of_length_eq_zero (by
        rw [hfl] at hlen
        omega)
      subst this
      rfl
    | succ fuel =>
      unfold tagSplitGo
      rw [hx]
  | x :: t :: rest, fuel, hOK, hlen => by
    obtain ⟨hinert, htag, hrest⟩ := hOK
    have hfl : List.flatten (x :: t :: rest)
        = x ++ (t ++ List.flatten rest) := by simp
    rw [hfl]
    have hfind : findTagFrom (x ++ (t ++ List.flatten rest))
        = some (x, t, List.flatten rest) := by
      rw [findTagFrom_inert x (t ++ List.flatten rest) hinert,
        findTagFrom_tag t (List.flatten rest) htag]
      simp
    obtain ⟨body, hne, _, hts⟩ := htag
    have htlen : 1 ≤ t.length := by
      rw [hts]
      simp
    cases fuel with
    | zero =>
      exfalso
      rw [hfl] at hlen
      rw [List.length_append, List.length_append] at hlen
      omega
    | succ fuel =>
      unfold tagSplitGo
      rw [hfind]
      dsimp only
      rw [tagSplitGo_parts rest fuel hrest (by
        rw [hfl] at hlen
        rw [List.length_append, List.length_append] at hlen
        omega)]

theorem flatten_partsOK (ps : List Str) (h : partsOK ps) :
    tagSplit ps.flatten = ps :=
  tagSplitGo_parts ps ps.flatten.length h (le_refl _)

/-! Reference (per-token) form of the scan-and-replace pass: `textOut` is
the rewrite a stack-free text token receives (identity when the
classifiers reject), and `tesOf`/`aesOf`/`stackOf`/`scanMapGo` are the
direct recursions computing the text entries, attribute entries, final
stack and replaced parts that the two-phase `scan_parts`/`apply_texts`
pipeline produces. -/

def textOut (cache : Cache) (token : Str) : Str :=
  if should_translate (pyUnescape token) then
    if should_translate (coreOf (pyUnescape token)) then
      (split_ws (pyUnescape token)).1 ++
        escape_html_text ((lookupC cache (coreOf (pyUnescape token))).getD
          (coreOf (pyUnescape token))) ++
        (split_ws (pyUnescape token)).2.2
    else token
  else token

def tesOf (stack : List Str) (idx : Nat) :
    List Str → List (Nat × Str × Str × Str)
  | [] => []
  | tok :: rest =>
    if idx % 2 = 1 then tesOf (stackUpd stack tok) (idx + 1) rest
    else if stack = [] then
      if should_translate (pyUnescape tok) then
        if should_translate (coreOf (pyUnescape tok)) then
          (idx, (split_ws (pyUnescape tok)).1, coreOf (pyUnescape tok),
            (split_ws (pyUnescape tok)).2.2) :: tesOf stack (idx + 1) rest
        else tesOf stack (idx + 1) rest
      else tesOf stack (idx + 1) rest
    else tesOf stack (idx + 1) rest

def aesOf (stack : List Str) (idx : Nat) :
    List Str → List (Nat × Nat × Nat × Str × Str)
  | [] => []
  | tok :: rest =>
    if idx % 2 = 1 then
      (if stackUpd stack tok = [] then attrEntriesOf idx tok else []) ++
        aesOf (stackUpd stack tok) (idx + 1) rest
    else aesOf stack (idx + 1) rest

def stackOf (stack : List Str) (idx : Nat) : List Str → List Str
  | [] => stack
  | tok :: rest =>
    if idx % 2 = 1 then stackOf (stackUpd stack tok) (idx + 1) rest
    else stackOf stack (idx + 1) rest

def scanMapGo (cache : Cache) (stack : List Str) (idx : Nat) :
    List Str → List Str
  | [] => []
  | tok :: rest =>
    if idx % 2 = 1 then tok :: scanMapGo cache (stackUpd stack tok) (idx + 1) rest
    else if stack = [] then
      textOut cache tok :: scanMapGo cache stack (idx + 1) rest
    else tok :: scanMapGo cache stack (idx + 1) rest

theorem tesOf_cons (stack : List Str) (idx : Nat) (tok : Str)
    (rest : List Str) :
    tesOf stack idx (tok :: rest)
      = if idx % 2 = 1 then tesOf (stackUpd stack tok) (idx + 1) rest
        else if stack = [] then
          if should_translate (pyUnescape tok) then
            if should_translate (coreOf (pyUnescape tok)) then
              (idx, (split_ws (pyUnescape tok)).1, coreOf (pyUnescape tok),
                (split_ws (pyUnescape tok)).2.2) :: tesOf stack (idx + 1) rest
            else tesOf stack (idx + 1) rest
          else tesOf stack (idx + 1) rest
        else tesOf stack (idx + 1) rest := rfl

theorem aesOf_cons (stack : List Str) (idx : Nat) (tok : Str)
    (rest : List Str) :
    aesOf stack idx (tok :: rest)
      = if idx % 2 = 1 then
          (if stackUpd stack tok = [] then attrEntriesOf idx tok else []) ++
            aesOf (stackUpd stack tok) (idx + 1) rest
        else aesOf stack (idx + 1) rest := rfl

theorem stackOf_cons (stack : List Str) (idx : Nat) (tok : Str)
    (rest : List Str) :
    stackOf stack idx (tok :: rest)
      = if idx % 2 = 1 then stackOf (stackUpd stack tok) (idx + 1) rest
        else stackOf stack (idx + 1) rest := rfl

theorem scanMapGo_cons (cache : Cache) (stack : List Str) (idx : Nat)
    (tok : Str) (rest : List Str) :
    scanMapGo cache stack idx (tok :: rest)
      = if idx % 2 = 1 then
          tok :: scanMapGo cache (stackUpd stack tok) (idx + 1) rest
        else if stack = [] then
          textOut cache tok :: scanMapGo cache stack (idx + 1) rest
        else tok :: scanMapGo cache stack (idx + 1) rest := rfl

theorem scan_decomp : ∀ (suffix : List Str) (stack : List Str)
    (T : List (Nat × Str × Str × Str)) (A : List (Nat × Nat × Nat × Str × Str))
    (idx : Nat),
    (enumGo idx suffix).foldl scanStep (stack, T, A)
      = (stackOf stack idx suffix, T ++ tesOf stack idx suffix,
          A ++ aesOf stack idx suffix)
  | [], stack, T, A, idx => by
    simp [enumGo, stackOf, tesOf, aesOf]
  | tok :: rest, stack, T, A, idx => by
    rw [enumGo, List.foldl_cons, stackOf_cons, tesOf_cons, aesOf_cons]
    by_cases hpar : idx % 2 = 1
    · have hstep : scanStep (stack, T, A) (idx, tok)
          = (stackUpd stack tok, T,
            if stackUpd stack tok = [] then A ++ attrEntriesOf idx tok
            else A) := by
        unfold scanStep
        rw [if_pos hpar]
        unfold scanTag
        rfl
      rw [hstep, if_pos hpar, if_pos hpar, if_pos hpar]
      by_cases hse : stackUpd stack tok = []
      · rw [if_pos hse, if_pos hse]
        rw [scan_decomp rest (stackUpd stack tok) T
          (A ++ attrEntriesOf idx tok) (idx + 1)]
        simp [List.append_assoc]
      · rw [if_neg hse, if_neg hse]
        rw [scan_decomp rest (stackUpd stack tok) T A (idx + 1)]
        simp
    · have hstep : scanStep (stack, T, A) (idx, tok)
          = scanText (stack, T, A) idx tok := by
        unfold scanStep
        rw [if_neg hpar]
      rw [hstep, if_neg hpar, if_neg hpar, if_neg hpar]
      by_cases hse : stack = []
      · rw [if_pos hse]
        by_cases h1 : should_translate (pyUnescape tok) = true
        · by_cases h2 : should_translate (coreOf (pyUnescape tok)) = true
          · have htxt : scanText (stack, T, A) idx tok
                = (stack, T ++ [(idx, (split_ws (pyUnescape tok)).1,
                    coreOf (pyUnescape tok),
                    (split_ws (pyUnescape tok)).2.2)], A) := by
              unfold scanText
              dsimp only
              rw [if_pos hse, if_pos h1]
              rw [if_pos (by exact h2), ← coreOf_def]
            rw [htxt, if_pos h1, if_pos h2]
            rw [scan_decomp rest stack (T ++ [(idx,
              (split_ws (pyUnescape tok)).1, coreOf (pyUnescape tok),
              (split_ws (pyUnescape tok)).2.2)]) A (idx + 1)]
            simp [List.append_assoc]
          · have htxt : scanText (stack, T, A) idx tok = (stack, T, A) := by
              unfold scanText
              dsimp only
              rw [if_pos hse, if_pos h1]
              rw [if_neg (by exact h2)]
            rw [htxt, if_pos h1, if_neg h2]
            exact scan_decomp rest stack T A (idx + 1)
        · have htxt : scanText (stack, T, A) idx tok = (stack, T, A) := by
            unfold scanText
            dsimp only
            rw [if_pos hse, if_neg h1]
          rw [htxt, if_neg h1]
          exact scan_decomp rest stack T A (idx + 1)
      · rw [if_neg hse]
        have htxt : scanText (stack, T, A) idx tok = (stack, T, A) := by
          unfold scanText
          dsimp only
          rw [if_neg hse]
        rw [htxt]
        exact scan_decomp rest stack T A (idx + 1)

theorem scan_parts_eq (parts : List Str) :
    scan_parts parts
      = (stackOf [] 0 parts, tesOf [] 0 parts, aesOf [] 0 parts) := by
  unfold scan_parts enumL
  rw [scan_decomp parts [] [] [] 0]
  simp

theorem getD_append_len {α} (d : α) :
    ∀ (l : List α) (x : α) (r : List α), (l ++ x :: r).getD l.length d = x
  | [], x, r => rfl
  | a :: l, x, r => by
    rw [List.cons_append, List.length_cons, List.getD_cons_succ]
    exact getD_append_len d l x r

theorem set_append_len {α} :
    ∀ (l : List α) (x y : α) (r : List α),
      (l ++ x :: r).set l.length y = l ++ y :: r
  | [], x, y, r => rfl
  | a :: l, x, y, r => by
    rw [List.cons_append, List.length_cons, List.set_cons_succ,
      set_append_len l x y r, List.cons_append]

theorem apply_texts_cons (cache : Cache) (acc : List Str × Bool)
    (te : Nat × Str × Str × Str) (tes : List (Nat × Str × Str × Str)) :
    apply_texts cache acc (te :: tes)
      = apply_texts cache
          (if acc.1.getD te.1 [] ≠ te.2.1 ++
              escape_html_text ((lookupC cache te.2.2.1).getD te.2.2.1) ++
              te.2.2.2 then
            (acc.1.set te.1 (te.2.1 ++
              escape_html_text ((lookupC cache te.2.2.1).getD te.2.2.1) ++
              te.2.2.2), true)
          else acc) tes := by
  unfold apply_texts
  rw [List.foldl_cons]

theorem textOut_pos (cache : Cache) (tok : Str)
    (h1 : should_translate (pyUnescape tok) = true)
    (h2 : should_translate (coreOf (pyUnescape tok)) = true) :
    textOut cache tok
      = (split_ws (pyUnescape tok)).1 ++
        escape_html_text ((lookupC cache (coreOf (pyUnescape tok))).getD
          (coreOf (pyUnescape tok))) ++
        (split_ws (pyUnescape tok)).2.2 := by
  unfold textOut
  rw [if_pos h1, if_pos h2]

theorem textOut_miss (cache : Cache) (tok : Str)
    (h : should_translate (pyUnescape tok) = false ∨
      should_translate (coreOf (pyUnescape tok)) = false) :
    textOut cache tok = tok := by
  unfold textOut
  rcases h with h | h
  · rw [if_neg (by rw [h]; simp)]
  · by_cases h1 : should_translate (pyUnescape tok) = true
    · rw [if_pos h1, if_neg (by rw [h]; simp)]
    · rw [if_neg h1]

theorem apply_texts_true (cache : Cache) :
    ∀ (tes : List (Nat × Str × Str × Str)) (ps : List Str),
      (apply_texts cache (ps, true) tes).2 = true
  | [], ps => rfl
  | te :: tes, ps => by
    rw [apply_texts_cons]
    dsimp only
    split
    · exact apply_texts_true cache tes _
    · exact apply_texts_true cache tes ps

/-- Replay of the text-replacement fold against the reference per-token
map: applied to the entries collected from a suffix of the parts list, the
fold rewrites exactly the stack-free text tokens through `textOut`, and
the changed flag stays down exactly when the map is the identity. -/
theorem apply_texts_replay (cache : Cache) :
    ∀ (suffix : List Str) (stack : List Str) (done : List Str) (b : Bool),
    (apply_texts cache (done ++ suffix, b)
        (tesOf stack done.length suffix)).1
      = done ++ scanMapGo cache stack done.length suffix ∧
    ((apply_texts cache (done ++ suffix, b)
        (tesOf stack done.length suffix)).2 = false →
      b = false ∧ scanMapGo cache stack done.length suffix = suffix) ∧
    (scanMapGo cache stack done.length suffix = suffix →
      (apply_texts cache (done ++ suffix, b)
        (tesOf stack done.length suffix)).2 = b)
  | [], stack, done, b => by
    refine ⟨by simp [tesOf, scanMapGo, apply_texts], ?_, ?_⟩
    · intro h
      refine ⟨?_, rfl⟩
      simpa [tesOf, apply_texts] using h
    · intro _
      simp [tesOf, apply_texts]
  | tok :: rest, stack, done, b => by
    have hlen : (done ++ [tok]).length = done.length + 1 := by simp
    have happ : done ++ tok :: rest = (done ++ [tok]) ++ rest := by simp
    rw [tesOf_cons, scanMapGo_cons]
    by_cases hpar : done.length % 2 = 1
    · rw [if_pos hpar, if_pos hpar]
      have ih := apply_texts_replay cache rest (stackUpd stack tok)
        (done ++ [tok]) b
      rw [hlen, ← happ] at ih
      refine ⟨?_, ?_, ?_⟩
      · rw [ih.1]
        simp
      · intro h
        obtain ⟨hb, hsm⟩ := ih.2.1 h
        exact ⟨hb, by rw [hsm]⟩
      · intro h
        refine ih.2.2 ?_
        have := congrArg List.tail h
        simpa using this
    · rw [if_neg hpar, if_neg hpar]
      by_cases hse : stack = []
      · rw [if_pos hse, if_pos hse]
        by_cases h1 : should_translate (pyUnescape tok) = true
        · by_cases h2 : should_translate (coreOf (pyUnescape tok)) = true
          · rw [if_pos h1, if_pos h2]
            have hto := textOut_pos cache tok h1 h2
            rw [apply_texts_cons]
            dsimp only
            have hgd : (done ++ tok :: rest).getD done.length [] = tok :=
              getD_append_len [] done tok rest
            rw [hgd]
            by_cases hne : tok = textOut cache tok
            · rw [if_neg (by rw [← hto]; simpa using hne)]
              have ih := apply_texts_replay cache rest stack
                (done ++ [tok]) b
              rw [hlen, ← happ] at ih
              refine ⟨?_, ?_, ?_⟩
              · rw [ih.1, ← hne]
                simp
              · intro h
                obtain ⟨hb, hsm⟩ := ih.2.1 h
                exact ⟨hb, by rw [hsm, ← hne]⟩
              · intro h
                refine ih.2.2 ?_
                have := congrArg List.tail h
                simpa using this
            · rw [if_pos (by rw [← hto]; simpa using hne)]
              have hset : (done ++ tok :: rest).set done.length
                  (textOut cache tok) = done ++ textOut cache tok :: rest :=
                set_append_len done tok _ rest
              rw [← hto, hset]
              have ih := apply_texts_replay cache rest stack
                (done ++ [textOut cache tok]) true
              have happ2 : done ++ textOut cache tok :: rest
                  = (done ++ [textOut cache tok]) ++ rest := by simp
              have hlen2 : (done ++ [textOut cache tok]).length
                  = done.length + 1 := by simp
              rw [hlen2, ← happ2] at ih
              refine ⟨?_, ?_, ?_⟩
              · rw [ih.1]
                simp
              · intro h
                have := ih.2.1 h
                exact absurd this.1 (by simp)
              · intro h
                exfalso
                exact hne (List.head_eq_of_cons_eq h).symm
          · rw [if_pos h1, if_neg h2]
            have hto : textOut cache tok = tok :=
              textOut_miss cache tok (Or.inr (by simpa using h2))
            rw [hto]
            have ih := apply_texts_replay cache rest stack (done ++ [tok]) b
            rw [hlen, ← happ] at ih
            refine ⟨?_, ?_, ?_⟩
            · rw [ih.1]
              simp
            · intro h
              obtain ⟨hb, hsm⟩ := ih.2.1 h
              exact ⟨hb, by rw [hsm]⟩
            · intro h
              refine ih.2.2 ?_
              have := congrArg List.tail h
              simpa using this
        · rw [if_neg h1]
          have hto : textOut cache tok = tok :=
            textOut_miss cache tok (Or.inl (by simpa using h1))
          rw [hto]
          have ih := apply_texts_replay cache rest stack (done ++ [tok]) b
          rw [hlen, ← happ] at ih
          refine ⟨?_, ?_, ?_⟩
          · rw [ih.1]
            simp
          · intro h
            obtain ⟨hb, hsm⟩ := ih.2.1 h
            exact ⟨hb, by rw [hsm]⟩
          · intro h
            refine ih.2.2 ?_
            have := congrArg List.tail h
            simpa using this
      · rw [if_neg hse, if_neg hse]
        have ih := apply_texts_replay cache rest stack (done ++ [tok]) b
        rw [hlen, ← happ] at ih
        refine ⟨?_, ?_, ?_⟩
        · rw [ih.1]
          simp
        · intro h
          obtain ⟨hb, hsm⟩ := ih.2.1 h
          exact ⟨hb, by rw [hsm]⟩
        · intro h
          refine ih.2.2 ?_
          have := congrArg List.tail h
          simpa using this

/-! Stability of a whitespace-framed escaped cached value under the
per-token rewrite, and preservation of the splitter's shape by the
rewrite pass. -/

theorem esc_frame_unesc (lead v trail : Str)
    (hl : ∀ c ∈ lead, pyWS c = true) (ht : ∀ c ∈ trail, pyWS c = true) :
    pyUnescape (lead ++ escape_html_text v ++ trail)
      = lead ++ v ++ trail := by
  show pyUnescape (lead ++ pyEscape false v ++ trail) = lead ++ v ++ trail
  rw [List.append_assoc, pyUnescape_ws_append _ lead hl,
    pyUnescape_escape_append false v trail,
    pyUnescape_noamp trail (fun c hc => pyWS_ne_amp (ht c hc)),
    List.append_assoc]

theorem esc_frame_core (lead v trail : Str)
    (hl : ∀ c ∈ lead, pyWS c = true) (ht : ∀ c ∈ trail, pyWS c = true) :
    coreOf (pyUnescape (lead ++ escape_html_text v ++ trail)) = pyStrip v := by
  rw [esc_frame_unesc lead v trail hl ht, coreOf_eq_pyStrip,
    pyStrip_wrap lead v trail hl ht]

theorem esc_frame_recon (lead v trail : Str)
    (hl : ∀ c ∈ lead, pyWS c = true) (ht : ∀ c ∈ trail, pyWS c = true)
    (hvex : ∃ c ∈ v, pyWS c = false) :
    (split_ws (pyUnescape (lead ++ escape_html_text v ++ trail))).1
      ++ escape_html_text (pyStrip v)
      ++ (split_ws (pyUnescape (lead ++ escape_html_text v ++ trail))).2.2
    = lead ++ escape_html_text v ++ trail := by
  rw [esc_frame_unesc lead v trail hl ht, split_ws_lead, split_ws_trail,
    takeWhileWS_wrap lead v trail hl hvex,
    trailWS_wrap lead v trail hl ht hvex]
  have hv : v.takeWhile pyWS ++ pyStrip v ++ trailWS v = v :=
    (split_ws_decomp v hvex).2.2.2
  have hesc : escape_html_text v
      = v.takeWhile pyWS ++ escape_html_text (pyStrip v) ++ trailWS v := by
    conv_lhs => rw [← hv]
    unfold escape_html_text
    rw [pyEscape_append, pyEscape_append,
      pyEscape_ws false (v.takeWhile pyWS)
        (fun c hc => List.mem_takeWhile_imp hc),
      pyEscape_ws false (trailWS v) (fun c hc => trailWS_all v c hc)]
  rw [hesc]
  simp [List.append_assoc]

theorem textOut_frame_stable (cache : Cache) (lead v trail : Str)
    (hl : ∀ c ∈ lead, pyWS c = true) (ht : ∀ c ∈ trail, pyWS c = true)
    (hres_v : lookupC cache (pyStrip v) = some (pyStrip v)) :
    textOut cache (lead ++ escape_html_text v ++ trail)
      = lead ++ escape_html_text v ++ trail := by
  by_cases h1 : should_translate
      (pyUnescape (lead ++ escape_html_text v ++ trail)) = true
  · by_cases h2 : should_translate
        (coreOf (pyUnescape (lead ++ escape_html_text v ++ trail))) = true
    · have hvex : ∃ c ∈ v, pyWS c = false := by
        by_contra hall
        push_neg at hall
        have hall2 : ∀ c ∈ v, pyWS c = true := by
          intro c hc
          have := hall c hc
          revert this
          cases pyWS c <;> simp
        have hws : ∀ c ∈ lead ++ v ++ trail, pyWS c = true := by
          intro c hc
          rcases List.mem_append.1 hc with hc | hc
          · rcases List.mem_append.1 hc with hc | hc
            · exact hl c hc
            · exact hall2 c hc
          · exact ht c hc
        rw [esc_frame_unesc lead v trail hl ht,
          should_translate_blank _ hws] at h1
        exact Bool.false_ne_true h1
      rw [textOut_pos cache _ h1 h2, esc_frame_core lead v trail hl ht,
        hres_v]
      simp only [Option.getD_some]
      exact esc_frame_recon lead v trail hl ht hvex
    · exact textOut_miss cache _ (Or.inr (by simpa using h2))
  · exact textOut_miss cache _ (Or.inl (by simpa using h1))

theorem textOut_no_lt_or_id (cache : Cache) (tok : Str) :
    textOut cache tok = tok ∨ ∀ c ∈ textOut cache tok, c ≠ '<' := by
  by_cases h1 : should_translate (pyUnescape tok) = true
  · by_cases h2 : should_translate (coreOf (pyUnescape tok)) = true
    · right
      rw [textOut_pos cache tok h1 h2]
      intro c hc
      rcases List.mem_append.1 hc with hc | hc
      · rcases List.mem_append.1 hc with hc | hc
        · rw [split_ws_lead] at hc
          exact pyWS_ne_lt (List.mem_takeWhile_imp hc)
        · exact pyEscape_no_lt false _ c hc
      · rw [split_ws_trail] at hc
        exact pyWS_ne_lt (trailWS_all _ c hc)
    · exact Or.inl (textOut_miss cache tok (Or.inr (by simpa using h2)))
  · exact Or.inl (textOut_miss cache tok (Or.inl (by simpa using h1)))

theorem textOut_inert (cache : Cache) (tok : Str)
    (h : textInert tok = true) : textInert (textOut cache tok) = true := by
  rcases textOut_no_lt_or_id cache tok with hid | hlt
  · rw [hid]
    exact h
  · exact textInert_no_lt hlt

theorem textOut_nomatch (cache : Cache) (tok : Str)
    (h : findTagFrom tok = none) :
    findTagFrom (textOut cache tok) = none := by
  rcases textOut_no_lt_or_id cache tok with hid | hlt
  · rw [hid]
    exact h
  · exact findTagFrom_none _ hlt

/-- No collected text entry means the rewrite pass changes nothing. -/
theorem tesOf_nil_map (cache : Cache) : ∀ (ps : List Str)
    (stack : List Str) (idx : Nat), tesOf stack idx ps = [] →
    scanMapGo cache stack idx ps = ps
  | [], _, _, _ => rfl
  | tok :: rest, stack, idx, h => by
    rw [tesOf_cons] at h
    rw [scanMapGo_cons]
    by_cases hpar : idx % 2 = 1
    · rw [if_pos hpar] at h ⊢
      rw [tesOf_nil_map cache rest _ _ h]
    · rw [if_neg hpar] at h ⊢
      by_cases hse : stack = []
      · rw [if_pos hse] at h ⊢
        by_cases h1 : should_translate (pyUnescape tok) = true
        · rw [if_pos h1] at h
          by_cases h2 : should_translate (coreOf (pyUnescape tok)) = true
          · rw [if_pos h2] at h
            exact absurd h (by simp)
          · rw [if_neg h2] at h
            rw [textOut_miss cache tok (Or.inr (by simpa using h2)),
              tesOf_nil_map cache rest _ _ h]
        · rw [if_neg h1] at h
          rw [textOut_miss cache tok (Or.inl (by simpa using h1)),
            tesOf_nil_map cache rest _ _ h]
      · rw [if_neg hse] at h ⊢
        rw [tesOf_nil_map cache rest _ _ h]

/-- The rewrite pass keeps the alternation shape of the splitter's
output, so re-splitting the flattened result recovers it. -/
theorem scanMapGo_partsOK (cache : Cache) : ∀ (ps : List Str)
    (stack : List Str) (idx : Nat), idx % 2 = 0 → partsOK ps →
    partsOK (scanMapGo cache stack idx ps)
  | [], _, _, _, hOK => absurd hOK (by simp [partsOK])
  | [x], stack, idx, hpar, hOK => by
    have hpar' : ¬ idx % 2 = 1 := by omega
    rw [scanMapGo_cons, if_neg hpar']
    by_cases hse : stack = []
    · rw [if_pos hse]
      show findTagFrom (textOut cache x) = none
      exact textOut_nomatch cache x hOK
    · rw [if_neg hse]
      exact hOK
  | x :: t :: rest, stack, idx, hpar, hOK => by
    have hpar' : ¬ idx % 2 = 1 := by omega
    have hodd : (idx + 1) % 2 = 1 := by omega
    have heven : (idx + 2) % 2 = 0 := by omega
    obtain ⟨hx, htag, hrest⟩ := hOK
    rw [scanMapGo_cons, if_neg hpar']
    have htail : scanMapGo cache stack (idx + 1) (t :: rest)
        = t :: scanMapGo cache (stackUpd stack t) (idx + 2) rest := by
      rw [scanMapGo_cons, if_pos hodd]
    by_cases hse : stack = []
    · rw [if_pos hse, htail]
      exact ⟨textOut_inert cache x hx, htag,
        scanMapGo_partsOK cache rest _ _ heven hrest⟩
    · rw [if_neg hse, htail]
      exact ⟨hx, htag, scanMapGo_partsOK cache rest _ _ heven hrest⟩

/-- The rewrite pass touches only text tokens, so a rescan collects the
same attribute entries. -/
theorem aesOf_scanMap (cache : Cache) : ∀ (ps : List Str)
    (stack : List Str) (idx : Nat),
    aesOf stack idx (scanMapGo cache stack idx ps) = aesOf stack idx ps
  | [], _, _ => rfl
  | tok :: rest, stack, idx => by
    rw [scanMapGo_cons]
    by_cases hpar : idx % 2 = 1
    · rw [if_pos hpar, aesOf_cons, aesOf_cons, if_pos hpar, if_pos hpar,
        aesOf_scanMap cache rest _ _]
    · rw [if_neg hpar]
      by_cases hse : stack = []
      · rw [if_pos hse, aesOf_cons, aesOf_cons, if_neg hpar, if_neg hpar,
          aesOf_scanMap cache rest _ _]
      · rw [if_neg hse, aesOf_cons, aesOf_cons, if_neg hpar, if_neg hpar,
          aesOf_scanMap cache rest _ _]

/-- With a cache that already maps every stripped cached value to itself,
the rewrite pass is idempotent, and every text entry collected from its
output still has a cached core. -/
theorem scanMap_stable (cache : Cache)
    (hres : ∀ kv ∈ cache, lookupC cache (pyStrip kv.2) = some (pyStrip kv.2)) :
    ∀ (ps : List Str) (stack : List Str) (idx : Nat),
    (∀ te ∈ tesOf stack idx ps, (lookupC cache te.2.2.1).isSome = true) →
    scanMapGo cache stack idx (scanMapGo cache stack idx ps)
      = scanMapGo cache stack idx ps ∧
    (∀ te ∈ tesOf stack idx (scanMapGo cache stack idx ps),
      (lookupC cache te.2.2.1).isSome = true)
  | [], stack, idx, _ =>
    ⟨rfl, by intro te hte; simp [tesOf] at hte⟩
  | tok :: rest, stack, idx, hcov => by
    rw [scanMapGo_cons]
    by_cases hpar : idx % 2 = 1
    · rw [if_pos hpar]
      have hcov2 : ∀ te ∈ tesOf (stackUpd stack tok) (idx + 1) rest,
          (lookupC cache te.2.2.1).isSome = true := by
        intro te hte
        exact hcov te (by rw [tesOf_cons, if_pos hpar]; exact hte)
      have ih := scanMap_stable cache hres rest (stackUpd stack tok)
        (idx + 1) hcov2
      refine ⟨?_, ?_⟩
      · rw [scanMapGo_cons, if_pos hpar, ih.1]
      · intro te hte
        rw [tesOf_cons, if_pos hpar] at hte
        exact ih.2 te hte
    · rw [if_neg hpar]
      by_cases hse : stack = []
      · rw [if_pos hse]
        by_cases h1 : should_translate (pyUnescape tok) = true
        · by_cases h2 : should_translate (coreOf (pyUnescape tok)) = true
          · have hhead : (lookupC cache (coreOf (pyUnescape tok))).isSome
                = true := by
              have hm := hcov (idx, (split_ws (pyUnescape tok)).1,
                coreOf (pyUnescape tok), (split_ws (pyUnescape tok)).2.2)
                (by
                  rw [tesOf_cons, if_neg hpar, if_pos hse, if_pos h1,
                    if_pos h2]
                  exact List.mem_cons_self _ _)
              exact hm
            obtain ⟨v, hv⟩ := Option.isSome_iff_exists.1 hhead
            have hmem := lookupC_mem cache _ v hv
            have hres_v : lookupC cache (pyStrip v) = some (pyStrip v) :=
              hres (coreOf (pyUnescape tok), v) hmem
            have hLout : textOut cache tok
                = (split_ws (pyUnescape tok)).1 ++ escape_html_text v ++
                  (split_ws (pyUnescape tok)).2.2 := by
              rw [textOut_pos cache tok h1 h2, hv]
              simp only [Option.getD_some]
            have hlw : ∀ c ∈ (split_ws (pyUnescape tok)).1,
                pyWS c = true := by
              rw [split_ws_lead]
              exact fun c hc => List.mem_takeWhile_imp hc
            have htw : ∀ c ∈ (split_ws (pyUnescape tok)).2.2,
                pyWS c = true := by
              rw [split_ws_trail]
              exact fun c hc => trailWS_all _ c hc
            have hstab : textOut cache (textOut cache tok)
                = textOut cache tok := by
              rw [hLout]
              exact textOut_frame_stable cache _ v _ hlw htw hres_v
            have hcore2 : coreOf (pyUnescape (textOut cache tok))
                = pyStrip v := by
              rw [hLout]
              exact esc_frame_core _ v _ hlw htw
            have hcov2 : ∀ te ∈ tesOf stack (idx + 1) rest,
                (lookupC cache te.2.2.1).isSome = true := by
              intro te hte
              exact hcov te (by
                rw [tesOf_cons, if_neg hpar, if_pos hse, if_pos h1,
                  if_pos h2]
                exact List.mem_cons_of_mem _ hte)
            have ih := scanMap_stable cache hres rest stack (idx + 1) hcov2
            refine ⟨?_, ?_⟩
            · rw [scanMapGo_cons, if_neg hpar, if_pos hse, hstab, ih.1]
            · intro te hte
              rw [tesOf_cons, if_neg hpar, if_pos hse] at hte
              by_cases g1 : should_translate
                  (pyUnescape (textOut cache tok)) = true
              · rw [if_pos g1] at hte
                by_cases g2 : should_translate
                    (coreOf (pyUnescape (textOut cache tok))) = true
                · rw [if_pos g2] at hte
                  rcases List.mem_cons.1 hte with hh | hh
                  · subst hh
                    show (lookupC cache
                      (coreOf (pyUnescape (textOut cache tok)))).isSome = true
                    rw [hcore2, hres_v]
                    rfl
                  · exact ih.2 te hh
                · rw [if_neg g2] at hte
                  exact ih.2 te hte
              · rw [if_neg g1] at hte
                exact ih.2 te hte
          · have hid : textOut cache tok = tok :=
              textOut_miss cache tok (Or.inr (by simpa using h2))
            have hcov2 : ∀ te ∈ tesOf stack (idx + 1) rest,
                (lookupC cache te.2.2.1).isSome = true := by
              intro te hte
              exact hcov te (by
                rw [tesOf_cons, if_neg hpar, if_pos hse, if_pos h1,
                  if_neg h2]
                exact hte)
            have ih := scanMap_stable cache hres rest stack (idx + 1) hcov2
            refine ⟨?_, ?_⟩
            · rw [hid, scanMapGo_cons, if_neg hpar, if_pos hse, hid, ih.1]
            · intro te hte
              rw [hid, tesOf_cons, if_neg hpar, if_pos hse, if_pos h1,
                if_neg h2] at hte
              exact ih.2 te hte
        · have hid : textOut cache tok = tok :=
            textOut_miss cache tok (Or.inl (by simpa using h1))
          have hcov2 : ∀ te ∈ tesOf stack (idx + 1) rest,
              (lookupC cache te.2.2.1).isSome = true := by
            intro te hte
            exact hcov te (by
              rw [tesOf_cons, if_neg hpar, if_pos hse, if_neg h1]
              exact hte)
          have ih := scanMap_stable cache hres rest stack (idx + 1) hcov2
          refine ⟨?_, ?_⟩
          · rw [hid, scanMapGo_cons, if_neg hpar, if_pos hse, hid, ih.1]
          · intro te hte
            rw [hid, tesOf_cons, if_neg hpar, if_pos hse, if_neg h1] at hte
            exact ih.2 te hte
      · rw [if_neg hse]
        have hcov2 : ∀ te ∈ tesOf stack (idx + 1) rest,
            (lookupC cache te.2.2.1).isSome = true := by
          intro te hte
          exact hcov te (by rw [tesOf_cons, if_neg hpar, if_neg hse]; exact hte)
        have ih := scanMap_stable cache hres rest stack (idx + 1) hcov2
        refine ⟨?_, ?_⟩
        · rw [scanMapGo_cons, if_neg hpar, if_neg hse, ih.1]
        · intro te hte
          rw [tesOf_cons, if_neg hpar, if_neg hse] at hte
          exact ih.2 te hte

/-- `translate_missing` with every fragment already cached is a no-op. -/
theorem translate_missing_allhit (texts : List Str) (cache : Cache)
    (f : Str → Option Str)
    (h : ∀ t ∈ texts, (lookupC cache t).isSome = true) :
    Page.translate_missing texts cache f = (cache, []) := by
  unfold Page.translate_missing
  dsimp only
  have hmiss : (enumL texts).filter (fun it => (lookupC cache it.2).isNone)
      = [] := by
    rw [List.filter_eq_nil_iff]
    intro it hit
    have h2 : it.2 ∈ texts := enumGo_mem texts 0 it hit
    have h3 := h it.2 h2
    simp only [Option.isNone_iff_eq_none]
    intro hnone
    rw [hnone] at h3
    simp at h3
  rw [hmiss]
  rfl

/-- Anatomy of a full run of the page rewriter on a document with no
translatable attribute and all text cores cached: the output is the
flattened rewrite pass, the cache never changes, and a rewrite pass that
moves nothing yields the untouched result triple. -/
theorem process_file_run (original : Str) (cache : Cache)
    (f : Str → Option Str)
    (hattr : aesOf [] 0 (tagSplit original) = [])
    (hcov : ∀ te ∈ tesOf [] 0 (tagSplit original),
      (lookupC cache te.2.2.1).isSome = true) :
    (Page.process_file original cache f).1
      = (scanMapGo cache [] 0 (tagSplit original)).flatten ∧
    (Page.process_file original cache f).2.2 = cache ∧
    (scanMapGo cache [] 0 (tagSplit original) = tagSplit original →
      Page.process_file original cache f = (original, false, cache)) := by
  unfold Page.process_file
  dsimp only
  rw [scan_parts_eq]
  dsimp only
  by_cases hT : tesOf [] 0 (tagSplit original) = []
  · rw [if_pos ⟨hT, hattr⟩]
    have hmapid : scanMapGo cache [] 0 (tagSplit original)
        = tagSplit original := tesOf_nil_map cache _ _ _ hT
    refine ⟨?_, rfl, fun _ => rfl⟩
    rw [hmapid, tagSplit_flatten]
  · rw [if_neg (fun hcon => hT hcon.1)]
    rw [hattr]
    have hall : ∀ t ∈ (tesOf [] 0 (tagSplit original)).map
          (fun te => te.2.2.1) ++
        ([] : List (Nat × Nat × Nat × Str × Str)).map
          (fun ae => ae.2.2.2.2),
        (lookupC cache t).isSome = true := by
      intro t hts
      simp only [List.map_nil, List.append_nil] at hts
      obtain ⟨te, hte, rfl⟩ := List.mem_map.1 hts
      exact hcov te hte
    rw [translate_missing_allhit _ cache f hall]
    dsimp only
    have hattr0 : apply_attrs (apply_texts cache (tagSplit original, false)
          (tesOf [] 0 (tagSplit original))) (groupAttrs cache [])
        = apply_texts cache (tagSplit original, false)
          (tesOf [] 0 (tagSplit original)) := rfl
    rw [hattr0]
    have hrep := apply_texts_replay cache (tagSplit original) [] [] false
    simp only [List.length_nil, List.nil_append] at hrep
    refine ⟨?_, rfl, ?_⟩
    · cases hflag : (apply_texts cache (tagSplit original, false)
          (tesOf [] 0 (tagSplit original))).2 with
      | true =>
        rw [if_pos rfl, hrep.1]
      | false =>
        rw [if_neg (by simp)]
        obtain ⟨_, hsm⟩ := hrep.2.1 hflag
        rw [hsm, tagSplit_flatten]
    · intro hmap
      have hflag0 := hrep.2.2 hmap
      rw [hflag0]
      simp

/-- C3: running the page rewriter twice with the same cache is NOT
idempotent in general (see `C3_counterexample`: a cache chaining
a ↦ b ↦ c rewrites the document again on the second run and reports a
change).  Idempotence does hold on the pipeline's main input class: for
any document whose scan collects no translatable attribute, when the
cache is resolved (the strip of every stored value is mapped to itself)
and every collected text core is cached, the second run of
`process_file` on the first run's output returns that output unchanged
with changed = false, and the first run leaves the cache untouched. -/
theorem C3_process_file_amended (original : Str) (cache : Cache)
    (f : Str → Option Str)
    (hattr : (scan_parts (tagSplit original)).2.2 = [])
    (hres : ∀ kv ∈ cache, lookupC cache (pyStrip kv.2) = some (pyStrip kv.2))
    (hcov : ∀ te ∈ (scan_parts (tagSplit original)).2.1,
      (lookupC cache te.2.2.1).isSome = true) :
    Page.process_file (Page.process_file original cache f).1 cache f
      = ((Page.process_file original cache f).1, false, cache) ∧
    (Page.process_file original cache f).2.2 = cache := by
  rw [scan_parts_eq] at hattr hcov
  dsimp only at hattr hcov
  obtain ⟨ho1, ho2, _⟩ := process_file_run original cache f hattr hcov
  have hstab := scanMap_stable cache hres (tagSplit original) [] 0 hcov
  refine ⟨?_, ho2⟩
  have hps1OK : partsOK (scanMapGo cache [] 0 (tagSplit original)) :=
    scanMapGo_partsOK cache (tagSplit original) [] 0 rfl
      (partsOK_tagSplit original)
  have hsplit2 : tagSplit ((Page.process_file original cache f).1)
      = scanMapGo cache [] 0 (tagSplit original) := by
    rw [ho1]
    exact flatten_partsOK _ hps1OK
  obtain ⟨_, _, r3⟩ := process_file_run
    ((Page.process_file original cache f).1) cache f
    (by rw [hsplit2, aesOf_scanMap cache]; exact hattr)
    (by rw [hsplit2]; exact hstab.2)
  exact r3 (by rw [hsplit2]; exact hstab.1)

theorem C3_witness :
    (scan_parts (tagSplit ['<', 'p', '>', 'a', '<', '/', 'p', '>'])).2.2
      = [] ∧
    (∀ kv ∈ ([(['a'], ['b']), (['b'], ['b'])] : Cache),
      lookupC [(['a'], ['b']), (['b'], ['b'])] (pyStrip kv.2)
        = some (pyStrip kv.2)) ∧
    (∀ te ∈ (scan_parts
        (tagSplit ['<', 'p', '>', 'a', '<', '/', 'p', '>'])).2.1,
      (lookupC [(['a'], ['b']), (['b'], ['b'])] te.2.2.1).isSome = true) ∧
    (Page.process_file
        (Page.process_file ['<', 'p', '>', 'a', '<', '/', 'p', '>']
          [(['a'], ['b']), (['b'], ['b'])] (fun _ => none)).1
        [(['a'], ['b']), (['b'], ['b'])] (fun _ => none)
      = ((Page.process_file ['<', 'p', '>', 'a', '<', '/', 'p', '>']
          [(['a'], ['b']), (['b'], ['b'])] (fun _ => none)).1, false,
        [(['a'], ['b']), (['b'], ['b'])]) ∧
      (Page.process_file ['<', 'p', '>', 'a', '<', '/', 'p', '>']
        [(['a'], ['b']), (['b'], ['b'])] (fun _ => none)).2.2
        = [(['a'], ['b']), (['b'], ['b'])]) :=
  ⟨by decide, by decide, by decide,
    C3_process_file_amended ['<', 'p', '>', 'a', '<', '/', 'p', '>']
      [(['a'], ['b']), (['b'], ['b'])] (fun _ => none)
      (by decide) (by decide) (by decide)⟩

end TransPl
